import Mathlib

/-!
RelocForests: the tree trainer of `include/tree.hpp`.

A shallow embedding of `ISUE::RelocForests::Tree` and theorems about it.

Conventions of the embedding.

* `float` and `double` are read in two ways. The definitions of the main
  namespace take them as exact rationals (`ℚ`): they give the arithmetic the
  source writes down, without rounding, overflow or NaN, and carry the
  theorems on that arithmetic and on the shape of the tree. The definitions of
  the namespace `IEEE` repeat `variance`, `objective_function` and the
  candidate loop with IEEE 754 binary32 and binary64 values, and carry the
  theorems on the values the program returns.
* Machine integers are naturals, reduced modulo `2 ^ w` wherever the source
  narrows a value (`uint32_t size`, `uint32_t j`, `uint16_t height`,
  `uint32_t` counters).
* Pointers to `Node` are addresses (`Nat`) into a heap; `nullptr` is `none`;
  a deleted node is an address whose cell is `none`.
* Code that does not return (unbounded recursion, a loop whose counter wraps)
  or that dereferences a dead pointer yields `none`.
-/

namespace ISUE
namespace RelocForests

/-! ## Data -/

/-- The OpenCV point `cv::Point3f` / `cv::Point3d`, with exact coordinates.
Its default constructor gives the origin. -/
structure Point3 where
  x : ℚ
  y : ℚ
  z : ℚ
  deriving DecidableEq

/-- Source `class Point3D` (tree.hpp 16-20); `equalsFunc` is coordinate-wise
equality, which is the derived equality here. -/
structure Point3D where
  x : ℚ
  y : ℚ
  z : ℚ
  deriving DecidableEq

/-- Modelled from the spec: `data.hpp` is missing. §3 gives LabeledSample as a
pixel position (row, col) and a 3D label; the source reads the field `label_`. -/
structure LabeledPixel where
  pos_ : ℤ × ℤ
  label_ : Point3
  deriving DecidableEq

/-- Source `enum OUT { LEFT, RIGHT, TRASH }` (tree.hpp 54). -/
inductive OUT where
  | LEFT
  | RIGHT
  | TRASH
  deriving DecidableEq

/-- Modelled from the spec: `settings.hpp` is missing. §6 asks for
`max_tree_depth` (an integer limit) and the image dimensions. -/
structure Settings where
  max_tree_depth_ : ℕ
  image_width_ : ℕ
  image_height_ : ℕ

/-- The collaborators of the trainer, whose sources are not part of `tree.hpp`.
`D` is the data context (`Data`), `F` a feature (`DepthAdaptiveRGB`), `R` the
state of the random source (`Random`).

* `GetResponse f data pixel` is `feature->GetResponse(data, pixel)`: the
  response and its validity flag.
* `GetThreshold f` is `feature->GetThreshold()`.
* `CreateRandom r w h` is `DepthAdaptiveRGB::CreateRandom(random, w, h)`: the
  new feature and the random source after the draw.
* `cluster pts bw` is `MeanShift::cluster(data, kernel_bandwidth)`; the source
  passes each point as a three-element `std::vector<double>` and reads the
  entries `c[0]`, `c[1]`, `c[2]` of each returned centre, so points are triples.
* `map_order m` is the order in which `std::unordered_map` enumerates the
  entries `m` (given in insertion order): some rearrangement of `m`, which the
  standard leaves open. -/
structure Collaborators (D F R : Type) where
  GetResponse : F → D → LabeledPixel → ℚ × Bool
  GetThreshold : F → ℚ
  CreateRandom : R → ℕ → ℕ → F × R
  cluster : List (ℚ × ℚ × ℚ) → ℚ → List (ℚ × ℚ × ℚ)
  map_order : List (Point3D × ℕ) → List (Point3D × ℕ)
  map_order_perm : ∀ m, (map_order m).Perm m

/-! ## Weak learner (tree.hpp 56-67) -/

/-- Source `Tree::eval_learner`. The cast `(OUT)(response.first >= threshold)`
maps `true` to `1 = RIGHT` and `false` to `0 = LEFT`. -/
def eval_learner {D F R : Type} (c : Collaborators D F R) (data : D)
    (pixel : LabeledPixel) (feature : F) : OUT :=
  let response := c.GetResponse feature data pixel
  let is_valid_point := response.2
  if !is_valid_point then OUT.TRASH
  else if response.1 ≥ c.GetThreshold feature then OUT.RIGHT else OUT.LEFT

/-! ## Objective (tree.hpp 69-108) -/

/-- The accumulation `tmp += p.label_` over the list, starting from `tmp`. -/
def sum_labels : List LabeledPixel → Point3 → Point3
  | [], tmp => tmp
  | p :: ps, tmp =>
    sum_labels ps ⟨tmp.x + p.label_.x, tmp.y + p.label_.y, tmp.z + p.label_.z⟩

/-- The accumulation `sum += val.x * val.x + val.y * val.y + val.z * val.z`
with `val = p.label_ - mean`, starting from `sum`. -/
def sum_sq (mean : Point3) : List LabeledPixel → ℚ → ℚ
  | [], sum => sum
  | p :: ps, sum =>
    let val : Point3 := ⟨p.label_.x - mean.x, p.label_.y - mean.y, p.label_.z - mean.z⟩
    sum_sq mean ps (sum + (val.x * val.x + val.y * val.y + val.z * val.z))

/-- Source `Tree::variance`, in exact arithmetic. `V` divides by the full
`size()`, the mean by `uint32_t size`, the size narrowed to 32 bits. At a
length that is a non-zero multiple of `2 ^ 32` the narrowed size is `0` and the
quotient has no value in exact arithmetic: the convention `x / 0 = 0` of `ℚ`
applies here, and the theorems on the value of the mean take a length below
`2 ^ 32` or one stated length. The values the program returns, there and
wherever rounding or overflow matter, are those of `IEEE.variance`. -/
def variance (labeled_data : List LabeledPixel) : ℚ :=
  if labeled_data.length = 0 then 0
  else
    let V : ℚ := 1 / (labeled_data.length : ℚ)
    let tmp := sum_labels labeled_data ⟨0, 0, 0⟩
    let size : ℕ := labeled_data.length % 2 ^ 32
    let mean : Point3 := ⟨tmp.x / size, tmp.y / size, tmp.z / size⟩
    let sum := sum_sq mean labeled_data 0
    V * sum

/-- Source `Tree::objective_function`, in exact arithmetic. -/
def objective_function (data left right : List LabeledPixel) : ℚ :=
  let var := variance data
  let left_var := variance left
  let left_val := ((left.length : ℚ) / (data.length : ℚ)) * left_var
  let right_var := variance right
  let right_val := ((right.length : ℚ) / (data.length : ℚ)) * right_var
  let sum := left_val + right_val
  var - sum

/-! ## Partition of the samples by a candidate (tree.hpp 179-199) -/

/-- The loop `for (uint32_t j = 0; j < S.size(); ++j)` of the split step, from
counter `j` with the lists built so far. `++j` is taken modulo `2 ^ 32`; the
first argument bounds the number of loop tests, and running out of it is
`none`. -/
def partition_loop {D F R : Type} (c : Collaborators D F R) (data : D)
    (S : List LabeledPixel) (feature : F) :
    ℕ → ℕ → List LabeledPixel → List LabeledPixel →
      Option (List LabeledPixel × List LabeledPixel)
  | 0, _, _, _ => none
  | fuel + 1, j, left_data, right_data =>
    if h : j < S.length then
      match eval_learner c data S[j] feature with
      | OUT.LEFT =>
        partition_loop c data S feature fuel ((j + 1) % 2 ^ 32) (left_data ++ [S[j]]) right_data
      | OUT.RIGHT =>
        partition_loop c data S feature fuel ((j + 1) % 2 ^ 32) left_data (right_data ++ [S[j]])
      | OUT.TRASH =>
        partition_loop c data S feature fuel ((j + 1) % 2 ^ 32) left_data right_data
    else some (left_data, right_data)

/-- The partition loop run from `j = 0` with empty `left_data`, `right_data`.
`S.length + 1` loop tests are what a run that leaves the loop needs; a run
that needs more never leaves it (see `partition_loop_wraps`). -/
def partition {D F R : Type} (c : Collaborators D F R) (data : D)
    (S : List LabeledPixel) (feature : F) :
    Option (List LabeledPixel × List LabeledPixel) :=
  partition_loop c data S feature (S.length + 1) 0 [] []

/-! ## Leaf mode (tree.hpp 123-153) -/

/-- One converged centre floored to four decimals per axis,
`Point3D(floor(c[0] * 10000) / 10000, ...)`. -/
def quantize (c : ℚ × ℚ × ℚ) : Point3D :=
  ⟨(⌊c.1 * 10000⌋ : ℚ) / 10000, (⌊c.2.1 * 10000⌋ : ℚ) / 10000, (⌊c.2.2 * 10000⌋ : ℚ) / 10000⟩

/-- The statement `cluster_map[p]++` on a `Point3DMap` kept as the list of its
entries in insertion order; the counter is a `uint32_t`. -/
def map_increment : List (Point3D × ℕ) → Point3D → List (Point3D × ℕ)
  | [], p => [(p, (0 + 1) % 2 ^ 32)]
  | (k, n) :: m, p =>
    if k = p then (k, (n + 1) % 2 ^ 32) :: m else (k, n) :: map_increment m p

/-- The loop `for (auto h : cluster_map) if (h.second > mode.second) mode = h;`
over the entries in enumeration order. -/
def find_mode : List (Point3D × ℕ) → Point3D × ℕ → Point3D × ℕ
  | [], mode => mode
  | h :: hs, mode => find_mode hs (if h.2 > mode.2 then h else mode)

/-- The mode computed in the leaf branch of `train_recurse`: sub-sample the
first `min(S.size(), 500)` labels, cluster them with bandwidth `0.01`, quantize
the centres, count the keys and keep the first enumerated key of largest
count, starting from `(Point3D(0, 0, 0), 0)`. -/
def leaf_mode {D F R : Type} (c : Collaborators D F R) (S : List LabeledPixel) : Point3 :=
  let data := (S.take (if S.length < 500 then S.length else 500)).map
    (fun p => (p.label_.x, p.label_.y, p.label_.z))
  let kernel_bandwidth : ℚ := 1 / 100
  let cluster := c.cluster data kernel_bandwidth
  let clustered_points := cluster.map quantize
  let cluster_map := clustered_points.foldl map_increment []
  let mode := find_mode (c.map_order cluster_map) (⟨0, 0, 0⟩, 0)
  ⟨mode.1.x, mode.1.y, mode.1.z⟩

/-! ## Nodes and the heap -/

/-- Modelled from the spec: `node.hpp` is missing. §3 gives TreeNode as
`is_leaf`, `is_split`, an optional feature, optional children `left`, `right`,
a `parent` back-reference and an optional mode. -/
structure Node (F : Type) where
  is_leaf_ : Bool
  is_split_ : Bool
  feature_ : Option F
  left_ : Option ℕ
  right_ : Option ℕ
  parent_ : Option ℕ
  mode_ : Option Point3

/-- The node that `new Node()` creates: no flag set, no feature, no children,
no parent, no mode. -/
def Node.fresh {F : Type} : Node F :=
  ⟨false, false, none, none, none, none, none⟩

/-- The mutable state of a training run: the heap of nodes (`none` at an
address that holds no node: never allocated, or deleted), the next address
`new Node()` hands out, and the state of the shared random source. -/
structure TreeState (F R : Type) where
  heap : ℕ → Option (Node F)
  next : ℕ
  random : R

/-- The heap with cell `a` replaced. -/
def heap_set {F : Type} (heap : ℕ → Option (Node F)) (a : ℕ) (v : Option (Node F)) :
    ℕ → Option (Node F) :=
  fun b => if b = a then v else heap b

/-- Source `Tree::traverse_to_root` (tree.hpp 111-115): `0` at `nullptr`,
otherwise one more than the parent's value, in `uint32_t`. The first argument
bounds the number of nodes visited; reading a dead node, or running out of the
bound, is `none`. -/
def traverse_to_root {F : Type} (heap : ℕ → Option (Node F)) : ℕ → Option ℕ → Option ℕ
  | _, none => some 0
  | 0, some _ => none
  | fuel + 1, some a =>
    match heap a with
    | none => none
    | some n =>
      match traverse_to_root heap fuel n.parent_ with
      | none => none
      | some h => some ((1 + h) % 2 ^ 32)

/-! ## The split step (tree.hpp 163-211) -/

/-- Source constant `DBL_MAX`, the largest finite `double`. -/
def DBL_MAX : ℚ := 2 ^ 1024 - 2 ^ 971

/-- The variables that the candidate loop of `train_recurse` updates. -/
structure SplitState (F R : Type) where
  candidate_params : List F
  random : R
  feature : ℕ
  minimum_objective : ℚ
  left_final : List LabeledPixel
  right_final : List LabeledPixel

/-- One pass of the candidate loop, for counter value `i`: draw a candidate,
partition `S` with `candidate_params.at(i)`, score the partition, and keep it
when its objective is strictly below the minimum so far. -/
def candidate_step {D F R : Type} (c : Collaborators D F R) (settings : Settings) (data : D)
    (S : List LabeledPixel) (i : ℕ) (ls : SplitState F R) : Option (SplitState F R) :=
  let drawn := c.CreateRandom ls.random settings.image_width_ settings.image_height_
  let candidate_params := ls.candidate_params ++ [drawn.1]
  match candidate_params[i]? with
  | none => none
  | some cand =>
    match partition c data S cand with
    | none => none
    | some (left_data, right_data) =>
      let objective := objective_function S left_data right_data
      if objective < ls.minimum_objective then
        some { candidate_params := candidate_params, random := drawn.2, feature := i,
               minimum_objective := objective, left_final := left_data,
               right_final := right_data }
      else
        some { ls with candidate_params := candidate_params, random := drawn.2 }

/-- The loop `for (uint32_t i = ...; i < num_candidates; ++i)` with `n` passes
left to run from counter `i`. -/
def candidate_loop {D F R : Type} (c : Collaborators D F R) (settings : Settings) (data : D)
    (S : List LabeledPixel) : ℕ → ℕ → SplitState F R → Option (SplitState F R)
  | 0, _, ls => some ls
  | n + 1, i, ls =>
    match candidate_step c settings data S i ls with
    | none => none
    | some ls' => candidate_loop c settings data S n (i + 1) ls'

/-- The candidate loop of one split step: `num_candidates = 5`, `feature = 0`,
`minimum_objective = DBL_MAX`, empty `left_final`, `right_final`. -/
def split_candidates {D F R : Type} (c : Collaborators D F R) (settings : Settings) (data : D)
    (S : List LabeledPixel) (random : R) : Option (SplitState F R) :=
  candidate_loop c settings data S 5 0
    { candidate_params := [], random := random, feature := 0, minimum_objective := DBL_MAX,
      left_final := [], right_final := [] }

/-! ## Recursive growth (tree.hpp 118-229) -/

/-- The node-graph updates of a split step (tree.hpp 163-164 and 214-217):
`node` is marked split and not leaf and gets the winning feature; two
`new Node()` are stored in `node->left_` and `node->right_` with `parent_`
set to `node`. The random source is the one the candidate loop left. -/
def attach_children {F R : Type} (st : TreeState F R) (node : ℕ) (n : Node F) (feat : F)
    (random : R) : TreeState F R :=
  let l := st.next
  let r := st.next + 1
  let n' : Node F :=
    { n with is_split_ := true, is_leaf_ := false, feature_ := some feat,
             left_ := some l, right_ := some r }
  let child : Node F := { Node.fresh with parent_ := some node }
  let heap1 := heap_set st.heap node (some n')
  let heap2 := heap_set heap1 l (some child)
  let heap3 := heap_set heap2 r (some child)
  { heap := heap3, next := st.next + 2, random := random }

/-- The leaf branch's updates (tree.hpp 152-153): `is_leaf_ = true` and the
mode. -/
def make_leaf {F R : Type} (st : TreeState F R) (node : ℕ) (n : Node F) (mode : Point3) :
    TreeState F R :=
  let n' : Node F := { n with is_leaf_ := true, mode_ := some mode }
  { st with heap := heap_set st.heap node (some n') }

/-- The empty branch (tree.hpp 158-159): `delete node`. Assigning `nullptr` to
the parameter `node` changes no field of any node. -/
def delete_node {F R : Type} (st : TreeState F R) (node : ℕ) : TreeState F R :=
  { st with heap := heap_set st.heap node none }

/-- Source `Tree::train_recurse`. The first argument bounds the depth of the
recursion. `height` is the `uint16_t` into which the value of
`traverse_to_root` is narrowed. -/
def train_recurse {D F R : Type} (c : Collaborators D F R) (settings : Settings) (data : D) :
    ℕ → ℕ → List LabeledPixel → TreeState F R → Option (TreeState F R)
  | 0, _, _, _ => none
  | fuel + 1, node, S, st =>
    match traverse_to_root st.heap st.next (some node) with
    | none => none
    | some t =>
      let height := t % 2 ^ 16
      if S.length = 1 ∨ height ≥ settings.max_tree_depth_ then
        match st.heap node with
        | none => none
        | some n => some (make_leaf st node n (leaf_mode c S))
      else if S.length = 0 then
        some (delete_node st node)
      else
        match st.heap node with
        | none => none
        | some n =>
          match split_candidates c settings data S st.random with
          | none => none
          | some ls =>
            match ls.candidate_params[ls.feature]? with
            | none => none
            | some feat =>
              let st1 := attach_children st node n feat ls.random
              match st1.heap node with
              | none => none
              | some n1 =>
                match n1.left_ with
                | none => none
                | some l =>
                  match train_recurse c settings data fuel l ls.left_final st1 with
                  | none => none
                  | some st2 =>
                    match st2.heap node with
                    | none => none
                    | some n2 =>
                      match n2.right_ with
                      | none => none
                      | some r => train_recurse c settings data fuel r ls.right_final st2

/-- The state after the constructor `Tree()`: the root, a fresh node, at
address `0`. -/
def Tree_init {F R : Type} (random : R) : TreeState F R :=
  { heap := heap_set (fun _ => none) 0 (some Node.fresh), next := 1, random := random }

/-- Source `Tree::Train` on a newly constructed tree. -/
def Train {D F R : Type} (c : Collaborators D F R) (fuel : ℕ) (data : D)
    (labeled_data : List LabeledPixel) (random : R) (settings : Settings) :
    Option (TreeState F R) :=
  train_recurse c settings data fuel 0 labeled_data (Tree_init random)

/-! ## The splitting objective as §4.2 words it -/

/-- Squared Euclidean distance between two 3D points. -/
def sq_dist (a b : Point3) : ℚ :=
  (a.x - b.x) ^ 2 + (a.y - b.y) ^ 2 + (a.z - b.z) ^ 2

/-- The centroid of the labels: the component-wise mean over all `n` labels. -/
def centroid (l : List LabeledPixel) : Point3 :=
  ⟨(l.map (fun p => p.label_.x)).sum / (l.length : ℚ),
   (l.map (fun p => p.label_.y)).sum / (l.length : ℚ),
   (l.map (fun p => p.label_.z)).sum / (l.length : ℚ)⟩

/-- The variance of §4.2: `0` on the empty list, otherwise the mean squared
distance of the labels to their centroid. -/
def variance_spec (l : List LabeledPixel) : ℚ :=
  if l = [] then 0
  else (1 / (l.length : ℚ)) * (l.map (fun p => sq_dist p.label_ (centroid l))).sum

/-! ## A training run that outgrows the 16-bit height -/

/-- Collaborators whose random source is a counter and whose feature is the
number of the draw: the features of the first `5 * 65537` draws give every
sample the valid response `0`, below the threshold `1`; later features report
every response invalid. The clustering returns its input; the map is
enumerated in insertion order. -/
def deep_chain : Collaborators Unit ℕ ℕ where
  GetResponse := fun f _ _ => (0, decide (f < 5 * 65537))
  GetThreshold := fun _ => 1
  CreateRandom := fun r _ _ => (r, r + 1)
  cluster := fun pts _ => pts
  map_order := fun m => m
  map_order_perm := fun _ => List.Perm.refl _

/-- Two samples with the same label. -/
def two_samples : List LabeledPixel := [⟨(0, 0), ⟨0, 0, 0⟩⟩, ⟨(0, 1), ⟨0, 0, 0⟩⟩]

/-! ## Positions of a sample set -/

/-- The positions `j` of `S` whose sample `S.at(j)` the feature routes to `o`,
in increasing order. -/
def routed_positions {D F R : Type} (c : Collaborators D F R) (data : D)
    (S : List LabeledPixel) (feature : F) (o : OUT) : List (Fin S.length) :=
  (List.finRange S.length).filter (fun j => eval_learner c data (S.get j) feature = o)

/-! ## Depth in the node graph -/

/-- The node reached from `a` by following `parent_` `k` times; `none` when the
walk meets a dead node or runs past a node without parent. `ancestor heap k a
= some b` says that `a` lies `k` edges below `b`. -/
def ancestor {F : Type} (heap : ℕ → Option (Node F)) : ℕ → ℕ → Option ℕ
  | 0, a =>
    match heap a with
    | none => none
    | some _ => some a
  | k + 1, a =>
    match heap a with
    | none => none
    | some n =>
      match n.parent_ with
      | none => none
      | some p => ancestor heap k p

/-- Every `parent_` pointer of the heap points to a smaller address (a node
is allocated after its parent). -/
def parents_below {F : Type} (heap : ℕ → Option (Node F)) : Prop :=
  ∀ x n p, heap x = some n → n.parent_ = some p → p < x

/-- What a call of `train_recurse` on `node` may change between the state
`st` before and `st'` after: it allocates upwards from `st.next`; every older
cell but `node` is as before; cells that are still unallocated are as before;
`node`, if still there, keeps its `parent_`; and every node created by the
call has a parent, which is `node` or another node created by the call, at a
smaller address. -/
def frame {F R : Type} (st st' : TreeState F R) (node : ℕ) : Prop :=
  st.next ≤ st'.next ∧
  (∀ x, x < st.next → x ≠ node → st'.heap x = st.heap x) ∧
  (∀ x, st'.next ≤ x → st'.heap x = st.heap x) ∧
  (∀ n', st'.heap node = some n' → ∃ n, st.heap node = some n ∧ n'.parent_ = n.parent_) ∧
  (∀ x n', st.next ≤ x → x < st'.next → st'.heap x = some n' →
    ∃ p, n'.parent_ = some p ∧ (p = node ∨ st.next ≤ p) ∧ p < x)

/-- No node of the heap has `y` as its parent. -/
def childless {F : Type} (heap : ℕ → Option (Node F)) (y : ℕ) : Prop :=
  ∀ x n, heap x = some n → n.parent_ ≠ some y

/-- The shape of the node graph during a training run with depth limit `M`:
parents lie below their children, every node is at an allocated address, and
every node is linked to the root (address `0`) by `k` parent edges, where
`k = 0` or `k + 1 ≤ M`. -/
def depth_inv {F R : Type} (M : ℕ) (st : TreeState F R) : Prop :=
  parents_below st.heap ∧
  (∀ x n, st.heap x = some n → x < st.next) ∧
  (∀ x n, st.heap x = some n → ∃ k, ancestor st.heap k x = some 0 ∧ (k = 0 ∨ k + 1 ≤ M))

/-- The value of the local variable `height` of `train_recurse` on `node`
(tree.hpp 120): the result of `traverse_to_root` narrowed to `uint16_t`. -/
def computed_height {F R : Type} (st : TreeState F R) (node : ℕ) : Option ℕ :=
  (traverse_to_root st.heap st.next (some node)).map (fun t => t % 2 ^ 16)

/-- Collaborators whose every feature gives every sample the valid response
`0`, below the threshold `1`: every sample is routed `LEFT`. -/
def always_left : Collaborators Unit ℕ ℕ where
  GetResponse := fun _ _ _ => (0, true)
  GetThreshold := fun _ => 1
  CreateRandom := fun r _ _ => (r, r + 1)
  cluster := fun pts _ => pts
  map_order := fun m => m
  map_order_perm := fun _ => List.Perm.refl _

/-! ## Winner selection -/

/-- The objective value of the partition that feature `f` makes of `S`. -/
def candidate_objective {D F R : Type} (c : Collaborators D F R) (data : D)
    (S : List LabeledPixel) (f : F) : ℚ :=
  objective_function S (S.filter (fun p => eval_learner c data p f = OUT.LEFT))
    (S.filter (fun p => eval_learner c data p f = OUT.RIGHT))

/-- What the variables of the candidate loop hold between two passes: the
minimum is at most the objective of every candidate drawn so far, and either
no candidate has been taken (`minimum_objective` is still `DBL_MAX`, `feature`
still `0`, the final lists still empty), or `feature` is the position of a
drawn candidate whose objective is `minimum_objective`, below `DBL_MAX` and
strictly below the objective of every earlier candidate, and the final lists
are the partition this candidate makes of `S`. -/
def selection_inv {D F R : Type} (c : Collaborators D F R) (data : D)
    (S : List LabeledPixel) (ls : SplitState F R) : Prop :=
  (∀ (j : ℕ) (f : F), ls.candidate_params[j]? = some f →
    ls.minimum_objective ≤ candidate_objective c data S f) ∧
  ((ls.minimum_objective = DBL_MAX ∧ ls.feature = 0 ∧ ls.left_final = [] ∧
      ls.right_final = []) ∨
   (∃ f, ls.candidate_params[ls.feature]? = some f ∧
      ls.minimum_objective = candidate_objective c data S f ∧
      ls.minimum_objective < DBL_MAX ∧
      ls.left_final = S.filter (fun p => eval_learner c data p f = OUT.LEFT) ∧
      ls.right_final = S.filter (fun p => eval_learner c data p f = OUT.RIGHT) ∧
      ∀ (j : ℕ) (g : F), j < ls.feature → ls.candidate_params[j]? = some g →
        ls.minimum_objective < candidate_objective c data S g))

/-! ## Counting keys -/

/-- What `cluster_map` holds after the keys `l` went through
`cluster_map[p]++`: every key is present once, with its number of occurrences
in `l`, and no other entry is present. -/
def counts_of (m : List (Point3D × ℕ)) (l : List Point3D) : Prop :=
  (m.map Prod.fst).Nodup ∧ ∀ k n, (k, n) ∈ m ↔ (n = l.count k ∧ 0 < n)

/-- Collaborators whose every feature reports every response invalid: every
sample is routed `TRASH`. -/
def always_trash : Collaborators Unit ℕ ℕ where
  GetResponse := fun _ _ _ => (0, false)
  GetThreshold := fun _ => 1
  CreateRandom := fun r _ _ => (r, r + 1)
  cluster := fun pts _ => pts
  map_order := fun m => m
  map_order_perm := fun _ => List.Perm.refl _

/-- The state with one heap cell replaced. -/
def set_cell {F R : Type} (st : TreeState F R) (a : ℕ) (v : Option (Node F)) : TreeState F R :=
  { st with heap := heap_set st.heap a v }

/-- The two recursive calls that end a split step (tree.hpp 219-220) in the
order of the source: `train_recurse(node->left_, left_final)`, then
`train_recurse(node->right_, right_final)`; each call reads the child pointer
from the node at the moment it is made. `st1` is the state in which the two
children have been created. -/
def grow_left_then_right {D F R : Type} (c : Collaborators D F R) (settings : Settings)
    (data : D) (fuel node : ℕ) (left_final right_final : List LabeledPixel)
    (st1 : TreeState F R) : Option (TreeState F R) :=
  match st1.heap node with
  | none => none
  | some n1 =>
    match n1.left_ with
    | none => none
    | some l =>
      match train_recurse c settings data fuel l left_final st1 with
      | none => none
      | some st2 =>
        match st2.heap node with
        | none => none
        | some n2 =>
          match n2.right_ with
          | none => none
          | some r => train_recurse c settings data fuel r right_final st2

/-- The same two calls in the other order, the right child first:
`train_recurse(node->right_, right_final)`, then
`train_recurse(node->left_, left_final)`. -/
def grow_right_then_left {D F R : Type} (c : Collaborators D F R) (settings : Settings)
    (data : D) (fuel node : ℕ) (left_final right_final : List LabeledPixel)
    (st1 : TreeState F R) : Option (TreeState F R) :=
  match st1.heap node with
  | none => none
  | some n1 =>
    match n1.right_ with
    | none => none
    | some r =>
      match train_recurse c settings data fuel r right_final st1 with
      | none => none
      | some st2 =>
        match st2.heap node with
        | none => none
        | some n2 =>
          match n2.left_ with
          | none => none
          | some l => train_recurse c settings data fuel l left_final st2

/-- The features the candidate loop draws in `n` passes from the random
state `random` (tree.hpp 177): the successive results of `CreateRandom`. -/
def draw_candidates {D F R : Type} (c : Collaborators D F R) (settings : Settings) :
    ℕ → R → List F
  | 0, _ => []
  | n + 1, random =>
    let drawn := c.CreateRandom random settings.image_width_ settings.image_height_
    drawn.1 :: draw_candidates c settings n drawn.2

/-- Collaborators whose draws are the numbers `0, 1, 2, ...`: the features
`0..4` report every response invalid, every later feature compares the label's
`x` with the threshold `2`. -/
def trash_first_five : Collaborators Unit ℕ ℕ where
  GetResponse := fun f _ p => (p.label_.x, decide (5 ≤ f))
  GetThreshold := fun _ => 2
  CreateRandom := fun r _ _ => (r, r + 1)
  cluster := fun pts _ => pts
  map_order := fun m => m
  map_order_perm := fun _ => List.Perm.refl _

/-! ## Concrete inputs used by the closed theorems -/

/-- A sample at pixel `(0, 0)` with label `(x, 0, 0)`. -/
def sample_x (x : ℚ) : LabeledPixel := ⟨(0, 0), ⟨x, 0, 0⟩⟩

/-- Collaborators with one feature kind: the response is the label's `x`,
always valid, the threshold is `2`; the random source is a counter; the
clustering returns its input; the map is enumerated in insertion order. -/
def threshold_two : Collaborators Unit ℕ ℕ where
  GetResponse := fun _ _ p => (p.label_.x, true)
  GetThreshold := fun _ => 2
  CreateRandom := fun r _ _ => (r, r + 1)
  cluster := fun pts _ => pts
  map_order := fun m => m
  map_order_perm := fun _ => List.Perm.refl _

/-- Collaborators whose features are the successive draws `0, 1, 2, ...` of a
counter: the response is the label's `x`, always valid; the threshold of the
draws `0..4` is `50`, of the draws `5..9` is `10`, of every later draw `110`;
the clustering returns its input; the map is enumerated in insertion order. -/
def threshold_by_draw : Collaborators Unit ℕ ℕ where
  GetResponse := fun _ _ p => (p.label_.x, true)
  GetThreshold := fun f => if f < 5 then 50 else if f < 10 then 10 else 110
  CreateRandom := fun r _ _ => (r, r + 1)
  cluster := fun pts _ => pts
  map_order := fun m => m
  map_order_perm := fun _ => List.Perm.refl _

/-- Four samples with the labels `(0, 0, 0)`, `(20, 0, 0)`, `(100, 0, 0)` and
`(120, 0, 0)`. -/
def four_samples : List LabeledPixel := [sample_x 0, sample_x 20, sample_x 100, sample_x 120]

/-! ## IEEE 754 arithmetic (namespace `IEEE`)

The definitions above read `float` and `double` as exact rationals. The
namespace `IEEE` repeats `Tree::variance`, `Tree::objective_function` and the
candidate loop of `Tree::train_recurse` with the values that a program
compiled for IEEE 754 computes: `float` is binary32, `double` is binary64,
every operation rounds its exact result to the nearest value of its format,
ties to even; a result beyond the largest finite value is infinite; an invalid
operation (`inf - inf`, `0 / 0`, `0 * inf`, any operation on NaN) gives NaN,
and every comparison with NaN is false.

`float` expressions are evaluated in `float` (`FLT_EVAL_METHOD == 0`, as on
x86-64 with SSE2 and on AArch64), and a product followed by a sum is rounded
twice (no contraction to a fused multiply-add). A zero carries no sign: the
functions modelled here divide only by sizes, and no comparison tells `-0`
from `0`. -/

namespace IEEE

/-- A binary floating-point format: the number `p` of bits of the significand
(the hidden bit included) and the exponents of the smallest and the largest
normal binade. -/
structure Format where
  p : ℕ
  emin : ℤ
  emax : ℤ

/-- The format of `float`. -/
def binary32 : Format := ⟨24, -126, 127⟩

/-- The format of `double`. -/
def binary64 : Format := ⟨53, -1022, 1023⟩

/-- A floating-point value: a finite number, `+inf`, `-inf` or NaN. A value
`fin q` of a format is one that rounding to the format leaves as it is. -/
inductive Fl where
  | fin (q : ℚ)
  | pinf
  | ninf
  | nan
  deriving DecidableEq

/-- The power `2 ^ e` for an integer `e`. -/
def pow2 (e : ℤ) : ℚ :=
  if 0 ≤ e then ((2 ^ e.toNat : ℕ) : ℚ) else 1 / ((2 ^ (-e).toNat : ℕ) : ℚ)

/-- Search downwards from `e` for an exponent with `2 ^ e ≤ x`, not below
`emin`. -/
def scan_down (x : ℚ) (emin : ℤ) : ℕ → ℤ → ℤ
  | 0, _ => emin
  | fuel + 1, e =>
    if e ≤ emin then emin else if pow2 e ≤ x then e else scan_down x emin fuel (e - 1)

/-- Search upwards from `e` for the last exponent with `2 ^ e ≤ x`. -/
def scan_up (x : ℚ) : ℕ → ℤ → ℤ
  | 0, e => e
  | fuel + 1, e => if pow2 (e + 1) ≤ x then scan_up x fuel (e + 1) else e

/-- The number of binary digits of `n` (the first argument bounds the count). -/
def bit_length : ℕ → ℕ → ℕ
  | 0, _ => 0
  | fuel + 1, n => if n = 0 then 0 else bit_length fuel (n / 2) + 1

/-- The exponent of the binade of `x > 0`, that is the `e` with
`2 ^ e ≤ x < 2 ^ (e + 1)`, raised to `emin` for subnormal `x`. The search starts
at a guess from the digit counts of numerator and denominator; see
`find_exp_spec` for what it returns. -/
def find_exp (fmt : Format) (x : ℚ) : ℤ :=
  let guess : ℤ := (bit_length x.num.natAbs x.num.natAbs : ℤ) - (bit_length x.den x.den : ℤ)
  let span := (fmt.emax + 2 - fmt.emin).toNat
  scan_up x span (scan_down x fmt.emin span (min guess (fmt.emax + 1)))

/-- The integer nearest to `m`, the even one of the two when `m` lies half-way. -/
def round_half_even (m : ℚ) : ℤ :=
  let f := ⌊m⌋
  if 2 * (m - f) < 1 then f
  else if 1 < 2 * (m - f) then f + 1
  else if f % 2 = 0 then f else f + 1

/-- Rounding of `x > 0` to the format: the multiple of the unit in the last
place of the binade of `x` nearest to `x`, ties to even; `+inf` when that
multiple exceeds the largest finite value. -/
def round_pos (fmt : Format) (x : ℚ) : Fl :=
  let e := find_exp fmt x
  let u := pow2 (e - fmt.p + 1)
  let r := (round_half_even (x / u) : ℚ) * u
  if pow2 (fmt.emax + 1) ≤ r then Fl.pinf else Fl.fin r

/-- Negation. -/
def Fl.neg : Fl → Fl
  | Fl.fin q => Fl.fin (-q)
  | Fl.pinf => Fl.ninf
  | Fl.ninf => Fl.pinf
  | Fl.nan => Fl.nan

/-- Rounding of an exact result to the format (round to nearest, ties to
even). -/
def round_nearest (fmt : Format) (x : ℚ) : Fl :=
  if x = 0 then Fl.fin 0
  else if 0 < x then round_pos fmt x
  else Fl.neg (round_pos fmt (-x))

/-- Addition in the format. -/
def Fl.add (fmt : Format) : Fl → Fl → Fl
  | Fl.nan, _ => Fl.nan
  | _, Fl.nan => Fl.nan
  | Fl.pinf, Fl.ninf => Fl.nan
  | Fl.ninf, Fl.pinf => Fl.nan
  | Fl.pinf, _ => Fl.pinf
  | _, Fl.pinf => Fl.pinf
  | Fl.ninf, _ => Fl.ninf
  | _, Fl.ninf => Fl.ninf
  | Fl.fin a, Fl.fin b => round_nearest fmt (a + b)

/-- Subtraction in the format. -/
def Fl.sub (fmt : Format) (a b : Fl) : Fl := Fl.add fmt a (Fl.neg b)

/-- Multiplication in the format. -/
def Fl.mul (fmt : Format) : Fl → Fl → Fl
  | Fl.nan, _ => Fl.nan
  | _, Fl.nan => Fl.nan
  | Fl.fin a, Fl.fin b => round_nearest fmt (a * b)
  | Fl.fin a, Fl.pinf => if a = 0 then Fl.nan else if 0 < a then Fl.pinf else Fl.ninf
  | Fl.fin a, Fl.ninf => if a = 0 then Fl.nan else if 0 < a then Fl.ninf else Fl.pinf
  | Fl.pinf, Fl.fin b => if b = 0 then Fl.nan else if 0 < b then Fl.pinf else Fl.ninf
  | Fl.ninf, Fl.fin b => if b = 0 then Fl.nan else if 0 < b then Fl.ninf else Fl.pinf
  | Fl.pinf, Fl.pinf => Fl.pinf
  | Fl.ninf, Fl.ninf => Fl.pinf
  | Fl.pinf, Fl.ninf => Fl.ninf
  | Fl.ninf, Fl.pinf => Fl.ninf

/-- Division in the format; the divisor zero is `+0`. -/
def Fl.div (fmt : Format) : Fl → Fl → Fl
  | Fl.nan, _ => Fl.nan
  | _, Fl.nan => Fl.nan
  | Fl.fin a, Fl.fin b =>
    if b = 0 then (if a = 0 then Fl.nan else if 0 < a then Fl.pinf else Fl.ninf)
    else round_nearest fmt (a / b)
  | Fl.fin _, Fl.pinf => Fl.fin 0
  | Fl.fin _, Fl.ninf => Fl.fin 0
  | Fl.pinf, Fl.fin b => if 0 ≤ b then Fl.pinf else Fl.ninf
  | Fl.ninf, Fl.fin b => if 0 ≤ b then Fl.ninf else Fl.pinf
  | Fl.pinf, Fl.pinf => Fl.nan
  | Fl.pinf, Fl.ninf => Fl.nan
  | Fl.ninf, Fl.pinf => Fl.nan
  | Fl.ninf, Fl.ninf => Fl.nan

/-- The comparison `a < b`: false when either side is NaN. -/
def Fl.lt : Fl → Fl → Bool
  | Fl.nan, _ => false
  | _, Fl.nan => false
  | Fl.fin a, Fl.fin b => decide (a < b)
  | Fl.fin _, Fl.pinf => true
  | Fl.fin _, Fl.ninf => false
  | Fl.pinf, _ => false
  | Fl.ninf, Fl.ninf => false
  | Fl.ninf, _ => true

/-- The comparison `a <= b`: false when either side is NaN. -/
def Fl.le : Fl → Fl → Bool
  | Fl.nan, _ => false
  | _, Fl.nan => false
  | Fl.fin a, Fl.fin b => decide (a ≤ b)
  | Fl.fin _, Fl.pinf => true
  | Fl.fin _, Fl.ninf => false
  | Fl.pinf, Fl.pinf => true
  | Fl.pinf, _ => false
  | Fl.ninf, _ => true

/-- Whether the value is a finite number. -/
def Fl.is_finite : Fl → Bool
  | Fl.fin _ => true
  | _ => false

/-- The non-negative finite values of a format: `n * 2 ^ k` with a significand
`n < 2 ^ p` and the exponent `k` of the last place in range. -/
def is_rep (fmt : Format) (v : ℚ) : Prop :=
  ∃ (n : ℕ) (k : ℤ), n < 2 ^ fmt.p ∧ fmt.emin - fmt.p + 1 ≤ k ∧ k ≤ fmt.emax - fmt.p + 1 ∧
    v = (n : ℚ) * pow2 k

/-- The OpenCV point `cv::Point3f`: three `float` coordinates. -/
structure Point3f where
  x : Fl
  y : Fl
  z : Fl
  deriving DecidableEq

/-- Whether the three coordinates are finite numbers. -/
def Point3f.is_finite (a : Point3f) : Bool :=
  a.x.is_finite && a.y.is_finite && a.z.is_finite

/-- Modelled from the spec: `data.hpp` is missing. §3 gives LabeledSample as a
pixel position and a 3D label; the source adds `label_` to a `cv::Point3f`. -/
structure LabeledPixel where
  pos_ : ℤ × ℤ
  label_ : Point3f
  deriving DecidableEq

/-- The accumulation `tmp += p.label_` over the list, in `float`. -/
def sum_labels : List LabeledPixel → Point3f → Point3f
  | [], tmp => tmp
  | p :: ps, tmp =>
    sum_labels ps ⟨Fl.add binary32 tmp.x p.label_.x, Fl.add binary32 tmp.y p.label_.y,
      Fl.add binary32 tmp.z p.label_.z⟩

/-- The accumulation `sum += val.x * val.x + val.y * val.y + val.z * val.z`
with `val = p.label_ - mean`: the difference, the products and their sum are
`float`, the accumulator `sum` is `double`. -/
def sum_sq (mean : Point3f) : List LabeledPixel → Fl → Fl
  | [], sum => sum
  | p :: ps, sum =>
    let val : Point3f := ⟨Fl.sub binary32 p.label_.x mean.x, Fl.sub binary32 p.label_.y mean.y,
      Fl.sub binary32 p.label_.z mean.z⟩
    sum_sq mean ps (Fl.add binary64 sum
      (Fl.add binary32 (Fl.add binary32 (Fl.mul binary32 val.x val.x)
        (Fl.mul binary32 val.y val.y)) (Fl.mul binary32 val.z val.z)))

/-- Source `Tree::variance` (tree.hpp 70-90). `V = 1.0f / (double)size()` is a
`double` division; `tmp` starts at the origin; `tmp.x / size` divides a `float`
by `uint32_t size`, the size narrowed to 32 bits and converted to `float`. -/
def variance (labeled_data : List LabeledPixel) : Fl :=
  if labeled_data.length = 0 then Fl.fin 0
  else
    let V := Fl.div binary64 (Fl.fin 1) (round_nearest binary64 (labeled_data.length : ℚ))
    let tmp := sum_labels labeled_data ⟨Fl.fin 0, Fl.fin 0, Fl.fin 0⟩
    let size : ℕ := labeled_data.length % 2 ^ 32
    let fsize := round_nearest binary32 (size : ℚ)
    let mean : Point3f :=
      ⟨Fl.div binary32 tmp.x fsize, Fl.div binary32 tmp.y fsize, Fl.div binary32 tmp.z fsize⟩
    let sum := sum_sq mean labeled_data (Fl.fin 0)
    Fl.mul binary64 V sum

/-- Source `Tree::objective_function` (tree.hpp 94-108), in `double`. -/
def objective_function (data left right : List LabeledPixel) : Fl :=
  let var := variance data
  let left_var := variance left
  let left_val := Fl.mul binary64
    (Fl.div binary64 (round_nearest binary64 (left.length : ℚ))
      (round_nearest binary64 (data.length : ℚ))) left_var
  let right_var := variance right
  let right_val := Fl.mul binary64
    (Fl.div binary64 (round_nearest binary64 (right.length : ℚ))
      (round_nearest binary64 (data.length : ℚ))) right_var
  let sum := Fl.add binary64 left_val right_val
  Fl.sub binary64 var sum

/-- The collaborators of the candidate loop: the response of a feature on a
sample with its validity flag, the threshold of a feature, and the draw of a
feature from the random source. Response and threshold are floating-point
values. -/
structure Collaborators (D F R : Type) where
  GetResponse : F → D → LabeledPixel → Fl × Bool
  GetThreshold : F → Fl
  CreateRandom : R → ℕ → ℕ → F × R

/-- Source `Tree::eval_learner` (tree.hpp 58-67); `response.first >=
threshold` is the floating-point comparison. -/
def eval_learner {D F R : Type} (c : Collaborators D F R) (data : D)
    (pixel : LabeledPixel) (feature : F) : OUT :=
  let response := c.GetResponse feature data pixel
  let is_valid_point := response.2
  if !is_valid_point then OUT.TRASH
  else if Fl.le (c.GetThreshold feature) response.1 then OUT.RIGHT else OUT.LEFT

/-- The loop `for (uint32_t j = 0; j < S.size(); ++j)` (tree.hpp 182-199), as
`partition_loop` of the main namespace. -/
def partition_loop {D F R : Type} (c : Collaborators D F R) (data : D)
    (S : List LabeledPixel) (feature : F) :
    ℕ → ℕ → List LabeledPixel → List LabeledPixel →
      Option (List LabeledPixel × List LabeledPixel)
  | 0, _, _, _ => none
  | fuel + 1, j, left_data, right_data =>
    if h : j < S.length then
      match eval_learner c data S[j] feature with
      | OUT.LEFT =>
        partition_loop c data S feature fuel ((j + 1) % 2 ^ 32) (left_data ++ [S[j]]) right_data
      | OUT.RIGHT =>
        partition_loop c data S feature fuel ((j + 1) % 2 ^ 32) left_data (right_data ++ [S[j]])
      | OUT.TRASH =>
        partition_loop c data S feature fuel ((j + 1) % 2 ^ 32) left_data right_data
    else some (left_data, right_data)

/-- The partition loop run from `j = 0` with empty `left_data`, `right_data`. -/
def partition {D F R : Type} (c : Collaborators D F R) (data : D)
    (S : List LabeledPixel) (feature : F) :
    Option (List LabeledPixel × List LabeledPixel) :=
  partition_loop c data S feature (S.length + 1) 0 [] []

/-- The variables that the candidate loop of `train_recurse` updates. -/
structure SplitState (F R : Type) where
  candidate_params : List F
  random : R
  feature : ℕ
  minimum_objective : Fl
  left_final : List LabeledPixel
  right_final : List LabeledPixel

/-- One pass of the candidate loop (tree.hpp 174-211) for counter value `i`;
`objective < minimum_objective` is the floating-point comparison. -/
def candidate_step {D F R : Type} (c : Collaborators D F R) (settings : Settings) (data : D)
    (S : List LabeledPixel) (i : ℕ) (ls : SplitState F R) : Option (SplitState F R) :=
  let drawn := c.CreateRandom ls.random settings.image_width_ settings.image_height_
  let candidate_params := ls.candidate_params ++ [drawn.1]
  match candidate_params[i]? with
  | none => none
  | some cand =>
    match partition c data S cand with
    | none => none
    | some (left_data, right_data) =>
      let objective := objective_function S left_data right_data
      if Fl.lt objective ls.minimum_objective then
        some { candidate_params := candidate_params, random := drawn.2, feature := i,
               minimum_objective := objective, left_final := left_data,
               right_final := right_data }
      else
        some { ls with candidate_params := candidate_params, random := drawn.2 }

/-- The loop `for (uint32_t i = ...; i < num_candidates; ++i)` with `n` passes
left to run from counter `i`. -/
def candidate_loop {D F R : Type} (c : Collaborators D F R) (settings : Settings) (data : D)
    (S : List LabeledPixel) : ℕ → ℕ → SplitState F R → Option (SplitState F R)
  | 0, _, ls => some ls
  | n + 1, i, ls =>
    match candidate_step c settings data S i ls with
    | none => none
    | some ls' => candidate_loop c settings data S n (i + 1) ls'

/-- The candidate loop of one split step (tree.hpp 166-211): `num_candidates =
5`, `feature = 0`, `minimum_objective = DBL_MAX`, empty `left_final`,
`right_final`. After it, line 214 stores `candidate_params.at(feature)` in the
node and lines 219-220 pass `left_final` and `right_final` to the recursive
calls. -/
def split_candidates {D F R : Type} (c : Collaborators D F R) (settings : Settings) (data : D)
    (S : List LabeledPixel) (random : R) : Option (SplitState F R) :=
  candidate_loop c settings data S 5 0
    { candidate_params := [], random := random, feature := 0,
      minimum_objective := Fl.fin DBL_MAX, left_final := [], right_final := [] }

/-! ### Concrete inputs -/

/-- A sample at pixel `(0, 0)` with label `(x, 0, 0)`. -/
def sample_x (x : ℚ) : LabeledPixel := ⟨(0, 0), ⟨Fl.fin x, Fl.fin 0, Fl.fin 0⟩⟩

/-- A sample at pixel `(0, 0)` with label `(a, a, a)`. -/
def sample_diag (a : ℚ) : LabeledPixel := ⟨(0, 0), ⟨Fl.fin a, Fl.fin a, Fl.fin a⟩⟩

/-- A sample at pixel `(0, 0)` whose label has the first coordinate `+inf`. -/
def sample_inf : LabeledPixel := ⟨(0, 0), ⟨Fl.pinf, Fl.fin 0, Fl.fin 0⟩⟩

/-- The `float` literal `1e30f`, the binary32 value nearest to `10 ^ 30`. -/
def flt_1e30 : ℚ := 1000000015047466219876688855040

/-- The `float` literal `0.1f`, the binary32 value nearest to `1 / 10`. -/
def flt_tenth : ℚ := 13421773 / 2 ^ 27

/-- Collaborators whose draws are the numbers `0, 1, 2, ...`; the response is
the label's `x`, always valid; every threshold is `1`. -/
def threshold_one : Collaborators Unit ℕ ℕ where
  GetResponse := fun _ _ p => (p.label_.x, true)
  GetThreshold := fun _ => Fl.fin 1
  CreateRandom := fun r _ _ => (r, r + 1)

end IEEE

end RelocForests
end ISUE

namespace ISUE
namespace RelocForests

/-! ## Weak learner -/

/-- C1: `eval_learner` returns `TRASH` exactly when the feature reports the
response invalid; it returns `RIGHT` exactly when the response is valid and at
least the threshold, and `LEFT` exactly when it is valid and below the
threshold. -/
theorem eval_learner_routes {D F R : Type} (c : Collaborators D F R) (data : D)
    (pixel : LabeledPixel) (feature : F) :
    (eval_learner c data pixel feature = OUT.TRASH ↔
        (c.GetResponse feature data pixel).2 = false) ∧
    (eval_learner c data pixel feature = OUT.RIGHT ↔
        (c.GetResponse feature data pixel).2 = true ∧
          (c.GetResponse feature data pixel).1 ≥ c.GetThreshold feature) ∧
    (eval_learner c data pixel feature = OUT.LEFT ↔
        (c.GetResponse feature data pixel).2 = true ∧
          (c.GetResponse feature data pixel).1 < c.GetThreshold feature) := by
  simp only [eval_learner]
  by_cases ht : c.GetThreshold feature ≤ (c.GetResponse feature data pixel).1
  · cases hv : (c.GetResponse feature data pixel).2 <;> simp [ht]
  · cases hv : (c.GetResponse feature data pixel).2 <;> simp [ht, not_le.mp ht]

/-! ## Variance -/

theorem sum_labels_x (l : List LabeledPixel) (tmp : Point3) :
    (sum_labels l tmp).x = tmp.x + (l.map (fun p => p.label_.x)).sum := by
  induction l generalizing tmp with
  | nil => simp [sum_labels]
  | cons p ps ih => simp [sum_labels, ih, add_assoc]

theorem sum_labels_y (l : List LabeledPixel) (tmp : Point3) :
    (sum_labels l tmp).y = tmp.y + (l.map (fun p => p.label_.y)).sum := by
  induction l generalizing tmp with
  | nil => simp [sum_labels]
  | cons p ps ih => simp [sum_labels, ih, add_assoc]

theorem sum_labels_z (l : List LabeledPixel) (tmp : Point3) :
    (sum_labels l tmp).z = tmp.z + (l.map (fun p => p.label_.z)).sum := by
  induction l generalizing tmp with
  | nil => simp [sum_labels]
  | cons p ps ih => simp [sum_labels, ih, add_assoc]

theorem sum_sq_eq (mean : Point3) (l : List LabeledPixel) (sum : ℚ) :
    sum_sq mean l sum = sum + (l.map (fun p => sq_dist p.label_ mean)).sum := by
  induction l generalizing sum with
  | nil => simp [sum_sq]
  | cons p ps ih =>
    simp only [sum_sq, ih, List.map_cons, List.sum_cons, sq_dist]
    ring

theorem sq_dist_nonneg (a b : Point3) : 0 ≤ sq_dist a b := by
  unfold sq_dist
  positivity

theorem sum_sq_dist_nonneg (mean : Point3) (l : List LabeledPixel) :
    0 ≤ (l.map (fun p => sq_dist p.label_ mean)).sum := by
  apply List.sum_nonneg
  intro x hx
  obtain ⟨p, _, rfl⟩ := List.mem_map.mp hx
  exact sq_dist_nonneg _ _

/-- On a non-empty list whose length fits `uint32_t`, the source's `variance`
is the variance of §4.2. -/
theorem variance_eq_spec (l : List LabeledPixel) (hne : l ≠ [])
    (hlen : l.length < 2 ^ 32) : variance l = variance_spec l := by
  have h0 : l.length ≠ 0 := by
    intro h
    exact hne (List.length_eq_zero.mp h)
  simp only [variance, variance_spec, h0, hne, if_false, Nat.mod_eq_of_lt hlen, sum_sq_eq,
    zero_add, centroid, sum_labels_x, sum_labels_y, sum_labels_z]

theorem variance_nonneg (l : List LabeledPixel) : 0 ≤ variance l := by
  unfold variance
  split
  · exact le_refl 0
  · simp only [sum_sq_eq, zero_add]
    apply mul_nonneg
    · positivity
    · exact sum_sq_dist_nonneg _ _

/-- The source's `variance` on `n` copies of one sample. -/
theorem variance_replicate (n : ℕ) (hn : n ≠ 0) (p : LabeledPixel) :
    variance (List.replicate n p) =
      (1 / (n : ℚ)) * ((n : ℚ) * sq_dist p.label_
        ⟨(n : ℚ) * p.label_.x / ((n % 2 ^ 32 : ℕ) : ℚ),
         (n : ℚ) * p.label_.y / ((n % 2 ^ 32 : ℕ) : ℚ),
         (n : ℚ) * p.label_.z / ((n % 2 ^ 32 : ℕ) : ℚ)⟩) := by
  simp only [variance, List.length_replicate, hn, if_false, sum_sq_eq, sum_labels_x,
    sum_labels_y, sum_labels_z, List.map_replicate, List.sum_replicate, zero_add, nsmul_eq_mul]

/-- The variance of §4.2 on `n` copies of one sample. -/
theorem variance_spec_replicate (n : ℕ) (hn : n ≠ 0) (p : LabeledPixel) :
    variance_spec (List.replicate n p) = 0 := by
  have hq : (n : ℚ) ≠ 0 := Nat.cast_ne_zero.mpr hn
  have hne : List.replicate n p ≠ [] := by
    intro h
    have := congrArg List.length h
    simp at this
    exact hn this
  simp only [variance_spec, hne, if_false, centroid, List.length_replicate, List.map_replicate,
    List.sum_replicate, nsmul_eq_mul, sq_dist]
  field_simp

/-- C2 (evaluation at the failing input): on `2 ^ 32 + 1` samples that all
carry the label `(1, 0, 0)`, the narrowed `size` is `1`, the mean is taken to
be the whole sum, and `variance` returns `2 ^ 64`; the mean squared distance
to the centroid of these labels is `0`. -/
theorem variance_wrapped_size :
    variance (List.replicate (2 ^ 32 + 1) (sample_x 1)) = 2 ^ 64 ∧
    variance_spec (List.replicate (2 ^ 32 + 1) (sample_x 1)) = 0 := by
  constructor
  · rw [variance_replicate _ (by norm_num)]
    norm_num [sample_x, sq_dist]
  · exact variance_spec_replicate _ (by norm_num) _

/-! ## Objective -/

/-- C3: for non-empty `S` and any `left`, `right`, the objective is
`variance S - (|left| / |S| * variance left + |right| / |S| * variance right)`:
both weights are taken relative to `|S|`. -/
theorem objective_function_formula (S left right : List LabeledPixel) (hS : S ≠ []) :
    objective_function S left right =
      variance S - (((left.length : ℚ) / (S.length : ℚ)) * variance left +
        ((right.length : ℚ) / (S.length : ℚ)) * variance right) := by
  have _ := hS
  rfl

/-- The formula of C3 at a partition that lost a sample: `|left| + |right| = 3`
of `|S| = 4`. -/
theorem objective_function_formula_witness :
    [sample_x 1, sample_x 3, sample_x 5, sample_x 7] ≠ [] ∧
    objective_function [sample_x 1, sample_x 3, sample_x 5, sample_x 7]
        [sample_x 1, sample_x 3] [sample_x 7] =
      variance [sample_x 1, sample_x 3, sample_x 5, sample_x 7] -
        ((((([sample_x 1, sample_x 3] : List LabeledPixel).length : ℕ) : ℚ) /
            ((([sample_x 1, sample_x 3, sample_x 5, sample_x 7] : List LabeledPixel).length : ℕ) : ℚ)) *
            variance [sample_x 1, sample_x 3] +
          (((([sample_x 7] : List LabeledPixel).length : ℕ) : ℚ) /
            ((([sample_x 1, sample_x 3, sample_x 5, sample_x 7] : List LabeledPixel).length : ℕ) : ℚ)) *
            variance [sample_x 7]) :=
  ⟨by simp, objective_function_formula _ _ _ (by simp)⟩

/-! ## Partition -/

/-- The samples of `S` that the feature routes to `o`, in the order of `S`. -/
theorem filter_eq_routed_positions {D F R : Type} (c : Collaborators D F R) (data : D)
    (S : List LabeledPixel) (feature : F) (o : OUT) :
    S.filter (fun p => eval_learner c data p feature = o) =
      (routed_positions c data S feature o).map S.get := by
  unfold routed_positions
  conv_lhs => rw [← List.finRange_map_get S]
  rw [List.filter_map]
  rfl

/-- From counter `j` with enough loop tests left, on a sample set whose size
fits the counter, the partition loop appends to `left_data` and `right_data`
the samples from position `j` on that are routed `LEFT` and `RIGHT`. -/
theorem partition_loop_eq {D F R : Type} (c : Collaborators D F R) (data : D)
    (S : List LabeledPixel) (feature : F) (hS : S.length < 2 ^ 32) :
    ∀ (fuel j : ℕ) (left_data right_data : List LabeledPixel),
      j ≤ S.length → S.length - j < fuel →
      partition_loop c data S feature fuel j left_data right_data =
        some (left_data ++ (S.drop j).filter (fun p => eval_learner c data p feature = OUT.LEFT),
              right_data ++ (S.drop j).filter (fun p => eval_learner c data p feature = OUT.RIGHT)) := by
  intro fuel
  induction fuel with
  | zero => intro j l r _ h; omega
  | succ fuel ih =>
    intro j l r hj hf
    unfold partition_loop
    by_cases h : j < S.length
    · have hmod : (j + 1) % 2 ^ 32 = j + 1 := Nat.mod_eq_of_lt (by omega)
      have hdrop : S.drop j = S[j] :: S.drop (j + 1) := List.drop_eq_getElem_cons h
      rw [dif_pos h, hmod, hdrop, List.filter_cons, List.filter_cons]
      cases he : eval_learner c data S[j] feature <;>
        simp only [he, reduceCtorEq, decide_True, decide_False, if_true, if_false,
          Bool.false_eq_true, List.append_assoc, List.singleton_append, List.cons_append,
          List.nil_append, ih (j + 1) _ _ (show j + 1 ≤ S.length by omega)
            (show S.length - (j + 1) < fuel by omega)]
    · have hj' : j = S.length := by omega
      rw [dif_neg h, hj']
      simp

/-- On a sample set whose size does not fit the `uint32_t` counter, the
partition loop is never left, whatever the number of loop tests allowed. -/
theorem partition_loop_wraps {D F R : Type} (c : Collaborators D F R) (data : D)
    (S : List LabeledPixel) (feature : F) (hS : 2 ^ 32 ≤ S.length) :
    ∀ (fuel j : ℕ) (left_data right_data : List LabeledPixel),
      j < 2 ^ 32 → partition_loop c data S feature fuel j left_data right_data = none := by
  intro fuel
  induction fuel with
  | zero => intro j l r _; rfl
  | succ fuel ih =>
    intro j l r hj
    unfold partition_loop
    have h : j < S.length := by omega
    have hmod : (j + 1) % 2 ^ 32 < 2 ^ 32 := Nat.mod_lt _ (by norm_num)
    rw [dif_pos h]
    cases eval_learner c data S[j] feature
    · exact ih _ _ _ hmod
    · exact ih _ _ _ hmod
    · exact ih _ _ _ hmod

/-- The partition of a sample set whose size fits the counter. -/
theorem partition_eq_filter {D F R : Type} (c : Collaborators D F R) (data : D)
    (S : List LabeledPixel) (feature : F) (hS : S.length < 2 ^ 32) :
    partition c data S feature =
      some (S.filter (fun p => eval_learner c data p feature = OUT.LEFT),
            S.filter (fun p => eval_learner c data p feature = OUT.RIGHT)) := by
  unfold partition
  rw [partition_loop_eq c data S feature hS _ 0 [] [] (by omega) (by omega)]
  simp

theorem filter_out_lengths {D F R : Type} (c : Collaborators D F R) (data : D) (feature : F)
    (S : List LabeledPixel) :
    (S.filter (fun p => eval_learner c data p feature = OUT.LEFT)).length +
      (S.filter (fun p => eval_learner c data p feature = OUT.RIGHT)).length +
      (S.filter (fun p => eval_learner c data p feature = OUT.TRASH)).length = S.length := by
  induction S with
  | nil => simp
  | cons p ps ih =>
    cases he : eval_learner c data p feature <;> simp [List.filter_cons, he] <;> omega

/-- C6: the partition loop of a split step, once left, has put into
`left_data` exactly the samples at the positions of `S` routed `LEFT` and into
`right_data` exactly those at the positions routed `RIGHT`, both in the order
of `S`; the loop is left on every `S` whose size fits its counter. No position
is in both lists, the positions in neither are exactly those routed `TRASH`,
and the three counts add up to `|S|`. -/
theorem partition_conservation {D F R : Type} (c : Collaborators D F R) (data : D)
    (S : List LabeledPixel) (feature : F) :
    (S.length < 2 ^ 32 → (partition c data S feature).isSome = true) ∧
    (∀ left_data right_data, partition c data S feature = some (left_data, right_data) →
      left_data = (routed_positions c data S feature OUT.LEFT).map S.get ∧
      right_data = (routed_positions c data S feature OUT.RIGHT).map S.get ∧
      left_data.length + right_data.length +
        (routed_positions c data S feature OUT.TRASH).length = S.length) ∧
    (∀ j : Fin S.length, ¬ (j ∈ routed_positions c data S feature OUT.LEFT ∧
      j ∈ routed_positions c data S feature OUT.RIGHT)) ∧
    (∀ j : Fin S.length, (j ∉ routed_positions c data S feature OUT.LEFT ∧
      j ∉ routed_positions c data S feature OUT.RIGHT) ↔
        j ∈ routed_positions c data S feature OUT.TRASH) := by
  refine ⟨fun hS => ?_, fun l r h => ?_, fun j => ?_, fun j => ?_⟩
  · rw [partition_eq_filter c data S feature hS]
    rfl
  · by_cases hS : S.length < 2 ^ 32
    · rw [partition_eq_filter c data S feature hS] at h
      have hl : S.filter (fun p => eval_learner c data p feature = OUT.LEFT) = l := by
        injection h with h; exact congrArg Prod.fst h
      have hr : S.filter (fun p => eval_learner c data p feature = OUT.RIGHT) = r := by
        injection h with h; exact congrArg Prod.snd h
      have hlen := filter_out_lengths c data feature S
      rw [filter_eq_routed_positions] at hl hr
      rw [filter_eq_routed_positions, filter_eq_routed_positions, filter_eq_routed_positions,
        hl, hr, List.length_map] at hlen
      exact ⟨hl.symm, hr.symm, hlen⟩
    · have hw := partition_loop_wraps c data S feature (by omega) (S.length + 1) 0 [] []
        (by norm_num)
      unfold partition at h
      rw [hw] at h
      cases h
  · simp only [routed_positions, List.mem_filter, decide_eq_true_eq]
    rintro ⟨⟨_, h1⟩, ⟨_, h2⟩⟩
    rw [h1] at h2
    cases h2
  · simp only [routed_positions, List.mem_filter, decide_eq_true_eq, List.mem_finRange, true_and]
    cases eval_learner c data (S.get j) feature <;> simp

/-! ## Leaves -/

/-- On the newly constructed tree the root is one node away from `nullptr`:
`traverse_to_root(root)` is `1`. -/
theorem traverse_to_root_init {F R : Type} (random : R) :
    traverse_to_root (Tree_init (F := F) random).heap (Tree_init (F := F) random).next (some 0) =
      some 1 := by
  simp [Tree_init, traverse_to_root, heap_set, Node.fresh]

/-- C8: with `max_tree_depth == 0`, `Train` on any sample set returns with the
root marked leaf and not split, without children or feature; no node was
created and the random source was not used. -/
theorem Train_depth_zero_root_is_leaf {D F R : Type} (c : Collaborators D F R) (fuel : ℕ)
    (data : D) (S : List LabeledPixel) (random : R) (image_width image_height : ℕ) :
    ∃ st root, Train c (fuel + 1) data S random ⟨0, image_width, image_height⟩ = some st ∧
      st.heap 0 = some root ∧ root.is_leaf_ = true ∧ root.is_split_ = false ∧
      root.left_ = none ∧ root.right_ = none ∧ root.feature_ = none ∧
      root.mode_ = some (leaf_mode c S) ∧
      (∀ a, a ≠ 0 → st.heap a = none) ∧ st.next = 1 ∧ st.random = random := by
  unfold Train train_recurse
  rw [traverse_to_root_init]
  simp [Tree_init, heap_set, Node.fresh, make_leaf]
  intro a ha
  simp [ha]

theorem leaf_mode_single {D F R : Type} (c : Collaborators D F R) (p : LabeledPixel)
    (hcluster : ∀ q bw, c.cluster [q] bw = [q]) :
    leaf_mode c [p] =
      ⟨(⌊p.label_.x * 10000⌋ : ℚ) / 10000, (⌊p.label_.y * 10000⌋ : ℚ) / 10000,
       (⌊p.label_.z * 10000⌋ : ℚ) / 10000⟩ := by
  have hm : ∀ e : Point3D × ℕ, c.map_order [e] = [e] := fun e =>
    List.perm_singleton.mp (c.map_order_perm [e])
  simp [leaf_mode, hcluster, quantize, map_increment, hm, find_mode]

/-- C9: on a sample set of size one, for any depth limit, `Train` returns with
the root marked leaf, and its mode is the single label floored to four
decimals per axis, when the clustering maps a single point to itself. -/
theorem Train_single_sample_leaf {D F R : Type} (c : Collaborators D F R) (fuel : ℕ)
    (data : D) (p : LabeledPixel) (random : R) (settings : Settings)
    (hcluster : ∀ q bw, c.cluster [q] bw = [q]) :
    ∃ st root, Train c (fuel + 1) data [p] random settings = some st ∧
      st.heap 0 = some root ∧ root.is_leaf_ = true ∧ root.is_split_ = false ∧
      root.left_ = none ∧ root.right_ = none ∧
      root.mode_ = some ⟨(⌊p.label_.x * 10000⌋ : ℚ) / 10000,
        (⌊p.label_.y * 10000⌋ : ℚ) / 10000, (⌊p.label_.z * 10000⌋ : ℚ) / 10000⟩ := by
  unfold Train train_recurse
  rw [traverse_to_root_init]
  simp [Tree_init, heap_set, Node.fresh, make_leaf, leaf_mode_single c p hcluster]

/-- The statement of C9 at the label `(12345/100000, 0, 0)` with depth limit
`5`: the mode is `(1234/10000, 0, 0)`. -/
theorem Train_single_sample_leaf_witness :
    ∃ st root, Train threshold_two 1 () [sample_x (12345 / 100000)] 0 ⟨5, 640, 480⟩ = some st ∧
      st.heap 0 = some root ∧ root.is_leaf_ = true ∧ root.is_split_ = false ∧
      root.left_ = none ∧ root.right_ = none ∧
      root.mode_ = some ⟨1234 / 10000, 0, 0⟩ := by
  obtain ⟨st, root, h1, h2, h3, h4, h5, h6, h7⟩ :=
    Train_single_sample_leaf threshold_two 0 () (sample_x (12345 / 100000)) 0 ⟨5, 640, 480⟩
      (fun _ _ => rfl)
  refine ⟨st, root, h1, h2, h3, h4, h5, h6, ?_⟩
  rw [h7]
  norm_num [sample_x]

/-! ## Empty sample sets -/

/-- C10 (as amended): a call of `train_recurse` with an empty sample set, on a
node whose computed height is below the depth limit, deletes the node: its
cell holds no node afterwards (no flag, no mode), no node is created and the
random source is not used. -/
theorem train_recurse_empty_below_limit {D F R : Type} (c : Collaborators D F R)
    (settings : Settings) (data : D) (fuel node : ℕ) (st : TreeState F R) (t : ℕ)
    (ht : traverse_to_root st.heap st.next (some node) = some t)
    (hh : t % 2 ^ 16 < settings.max_tree_depth_) :
    ∃ st', train_recurse c settings data (fuel + 1) node [] st = some st' ∧
      st'.heap node = none ∧ (∀ a, a ≠ node → st'.heap a = st.heap a) ∧
      st'.next = st.next ∧ st'.random = st.random := by
  unfold train_recurse
  rw [ht]
  have h1 : ¬ ((0 : ℕ) = 1 ∨ t % 2 ^ 16 ≥ settings.max_tree_depth_) := by
    rintro (h | h)
    · cases h
    · omega
  simp only [List.length_nil]
  rw [if_neg h1, if_pos trivial]
  refine ⟨_, rfl, ?_, ?_, rfl, rfl⟩
  · simp [delete_node, heap_set]
  · intro a ha
    simp [delete_node, heap_set, ha]

/-- The statement of C10 as amended, at the root of a new tree with depth
limit `5`. -/
theorem train_recurse_empty_below_limit_witness :
    ∃ st', train_recurse threshold_two ⟨5, 640, 480⟩ () 1 0 [] (Tree_init (F := ℕ) (0 : ℕ)) =
        some st' ∧
      st'.heap 0 = none ∧ (∀ a, a ≠ 0 → st'.heap a = (Tree_init (F := ℕ) (0 : ℕ)).heap a) ∧
      st'.next = (Tree_init (F := ℕ) (0 : ℕ)).next ∧
      st'.random = (Tree_init (F := ℕ) (0 : ℕ)).random :=
  train_recurse_empty_below_limit threshold_two ⟨5, 640, 480⟩ () 0 0 (Tree_init 0) 1
    (traverse_to_root_init 0) (by decide)

/-- C10 (counterexample): with depth limit `0`, `train_recurse` on the root
with an empty sample set marks the root leaf and gives it the mode
`(0, 0, 0)`: the node is not discarded. -/
theorem train_recurse_empty_at_limit_is_leaf :
    ∃ st root, train_recurse threshold_two ⟨0, 640, 480⟩ () 1 0 []
        (Tree_init (F := ℕ) (0 : ℕ)) = some st ∧
      st.heap 0 = some root ∧ root.is_leaf_ = true ∧ root.mode_ = some ⟨0, 0, 0⟩ := by
  unfold train_recurse
  rw [traverse_to_root_init]
  simp [Tree_init, heap_set, Node.fresh, make_leaf, leaf_mode, threshold_two, find_mode]

/-! ## The three branches of `train_recurse` -/

theorem attach_children_heap_node {F R : Type} (st : TreeState F R) (node : ℕ) (n : Node F)
    (feat : F) (random : R) (hnode : node < st.next) :
    (attach_children st node n feat random).heap node =
      some { n with is_split_ := true, is_leaf_ := false, feature_ := some feat,
                    left_ := some st.next, right_ := some (st.next + 1) } := by
  have h1 : node ≠ st.next + 1 := by omega
  have h2 : node ≠ st.next := by omega
  simp [attach_children, heap_set, h1, h2]

/-- What a returning call of `train_recurse` on an allocated node did: one of
the leaf branch, the empty branch, and the split step followed by the two
recursive calls. -/
theorem train_recurse_cases {D F R : Type} (c : Collaborators D F R) (settings : Settings)
    (data : D) (fuel node : ℕ) (S : List LabeledPixel) (st st' : TreeState F R)
    (hnode : node < st.next)
    (h : train_recurse c settings data (fuel + 1) node S st = some st') :
    ∃ t, traverse_to_root st.heap st.next (some node) = some t ∧
      (((S.length = 1 ∨ t % 2 ^ 16 ≥ settings.max_tree_depth_) ∧
          ∃ n, st.heap node = some n ∧ st' = make_leaf st node n (leaf_mode c S)) ∨
       (¬ (S.length = 1 ∨ t % 2 ^ 16 ≥ settings.max_tree_depth_) ∧ S.length = 0 ∧
          st' = delete_node st node) ∨
       (¬ (S.length = 1 ∨ t % 2 ^ 16 ≥ settings.max_tree_depth_) ∧ S.length ≠ 0 ∧
          ∃ n ls feat st2, st.heap node = some n ∧
            split_candidates c settings data S st.random = some ls ∧
            ls.candidate_params[ls.feature]? = some feat ∧
            train_recurse c settings data fuel st.next ls.left_final
              (attach_children st node n feat ls.random) = some st2 ∧
            ∃ n2 r, st2.heap node = some n2 ∧ n2.right_ = some r ∧
              train_recurse c settings data fuel r ls.right_final st2 = some st')) := by
  unfold train_recurse at h
  split at h
  · cases h
  · rename_i t ht
    refine ⟨t, ht, ?_⟩
    simp only at h
    split at h
    · rename_i hleaf
      left
      refine ⟨hleaf, ?_⟩
      split at h
      · cases h
      · rename_i n hn
        exact ⟨n, hn, (Option.some.inj h).symm⟩
    · rename_i hleaf
      right
      split at h
      · rename_i h0
        left
        exact ⟨hleaf, h0, (Option.some.inj h).symm⟩
      · rename_i h0
        right
        refine ⟨hleaf, h0, ?_⟩
        split at h
        · cases h
        · rename_i n hn
          split at h
          · cases h
          · rename_i ls hls
            split at h
            · cases h
            · rename_i feat hfeat
              rw [attach_children_heap_node st node n feat ls.random hnode] at h
              simp only at h
              split at h
              · cases h
              · rename_i st2 hst2
                split at h
                · cases h
                · rename_i n2 hn2
                  split at h
                  · cases h
                  · rename_i r hr
                    exact ⟨n, ls, feat, st2, hn, hls, hfeat, hst2, n2, r, hn2, hr, h⟩

theorem train_recurse_leaf_eq {D F R : Type} (c : Collaborators D F R) (settings : Settings)
    (data : D) (fuel node : ℕ) (S : List LabeledPixel) (st : TreeState F R) (t : ℕ) (n : Node F)
    (ht : traverse_to_root st.heap st.next (some node) = some t)
    (hleaf : S.length = 1 ∨ t % 2 ^ 16 ≥ settings.max_tree_depth_)
    (hn : st.heap node = some n) :
    train_recurse c settings data (fuel + 1) node S st =
      some (make_leaf st node n (leaf_mode c S)) := by
  unfold train_recurse
  rw [ht]
  simp only [if_pos hleaf, hn]

theorem train_recurse_empty_eq {D F R : Type} (c : Collaborators D F R) (settings : Settings)
    (data : D) (fuel node : ℕ) (st : TreeState F R) (t : ℕ)
    (ht : traverse_to_root st.heap st.next (some node) = some t)
    (hh : t % 2 ^ 16 < settings.max_tree_depth_) :
    train_recurse c settings data (fuel + 1) node [] st = some (delete_node st node) := by
  have h1 : ¬ ((0 : ℕ) = 1 ∨ t % 2 ^ 16 ≥ settings.max_tree_depth_) := by
    rintro (h | h)
    · cases h
    · omega
  unfold train_recurse
  rw [ht]
  simp only [List.length_nil]
  rw [if_neg h1, if_pos trivial]

theorem train_recurse_split_eq {D F R : Type} (c : Collaborators D F R) (settings : Settings)
    (data : D) (fuel node : ℕ) (S : List LabeledPixel) (st st2 : TreeState F R) (t : ℕ)
    (n n2 : Node F) (ls : SplitState F R) (feat : F) (r : ℕ)
    (hnode : node < st.next)
    (ht : traverse_to_root st.heap st.next (some node) = some t)
    (hleaf : ¬ (S.length = 1 ∨ t % 2 ^ 16 ≥ settings.max_tree_depth_))
    (hS : S.length ≠ 0)
    (hn : st.heap node = some n)
    (hls : split_candidates c settings data S st.random = some ls)
    (hfeat : ls.candidate_params[ls.feature]? = some feat)
    (hst2 : train_recurse c settings data fuel st.next ls.left_final
      (attach_children st node n feat ls.random) = some st2)
    (hn2 : st2.heap node = some n2) (hr : n2.right_ = some r) :
    train_recurse c settings data (fuel + 1) node S st =
      train_recurse c settings data fuel r ls.right_final st2 := by
  conv_lhs => unfold train_recurse
  rw [ht]
  simp only [if_neg hleaf, if_neg hS, hn, hls, hfeat,
    attach_children_heap_node st node n feat ls.random hnode, hst2, hn2, hr]

/-! ## Frame of a call -/

theorem frame_make_leaf {F R : Type} (st : TreeState F R) (node : ℕ) (n : Node F)
    (mode : Point3) (hnode : node < st.next) (hn : st.heap node = some n) :
    frame st (make_leaf st node n mode) node := by
  refine ⟨le_refl _, ?_, ?_, ?_, ?_⟩
  · intro x _ hx
    simp [make_leaf, heap_set, hx]
  · intro x hx
    have hxn : x ≠ node := by
      simp only [make_leaf] at hx
      omega
    simp [make_leaf, heap_set, hxn]
  · intro n' hn'
    refine ⟨n, hn, ?_⟩
    simp [make_leaf, heap_set] at hn'
    rw [← hn']
  · intro x n' h1 h2
    simp only [make_leaf] at h2
    omega

theorem frame_delete_node {F R : Type} (st : TreeState F R) (node : ℕ)
    (hnode : node < st.next) : frame st (delete_node st node) node := by
  refine ⟨le_refl _, ?_, ?_, ?_, ?_⟩
  · intro x _ hx
    simp [delete_node, heap_set, hx]
  · intro x hx
    have hxn : x ≠ node := by
      simp only [delete_node] at hx
      omega
    simp [delete_node, heap_set, hxn]
  · intro n' hn'
    simp [delete_node, heap_set] at hn'
  · intro x n' h1 h2
    simp only [delete_node] at h2
    omega

theorem attach_children_next {F R : Type} (st : TreeState F R) (node : ℕ) (n : Node F)
    (feat : F) (random : R) : (attach_children st node n feat random).next = st.next + 2 := rfl

theorem attach_children_random {F R : Type} (st : TreeState F R) (node : ℕ) (n : Node F)
    (feat : F) (random : R) : (attach_children st node n feat random).random = random := rfl

theorem attach_children_heap_left {F R : Type} (st : TreeState F R) (node : ℕ) (n : Node F)
    (feat : F) (random : R) :
    (attach_children st node n feat random).heap st.next =
      some { Node.fresh with parent_ := some node } := by
  simp [attach_children, heap_set]

theorem attach_children_heap_right {F R : Type} (st : TreeState F R) (node : ℕ) (n : Node F)
    (feat : F) (random : R) :
    (attach_children st node n feat random).heap (st.next + 1) =
      some { Node.fresh with parent_ := some node } := by
  simp [attach_children, heap_set]

theorem attach_children_heap_other {F R : Type} (st : TreeState F R) (node : ℕ) (n : Node F)
    (feat : F) (random : R) (x : ℕ) (h1 : x ≠ node) (h2 : x ≠ st.next) (h3 : x ≠ st.next + 1) :
    (attach_children st node n feat random).heap x = st.heap x := by
  simp [attach_children, heap_set, h1, h2, h3]

/-- Every returning call of `train_recurse` on an allocated node changes the
state within `frame`. -/
theorem train_recurse_frame {D F R : Type} (c : Collaborators D F R) (settings : Settings)
    (data : D) :
    ∀ (fuel node : ℕ) (S : List LabeledPixel) (st st' : TreeState F R),
      node < st.next → train_recurse c settings data fuel node S st = some st' →
      frame st st' node := by
  intro fuel
  induction fuel with
  | zero =>
    intro node S st st' _ h
    simp [train_recurse] at h
  | succ fuel ih =>
    intro node S st st' hnode h
    obtain ⟨t, _, hc⟩ := train_recurse_cases c settings data fuel node S st st' hnode h
    rcases hc with ⟨_, n, hn, rfl⟩ | ⟨_, _, rfl⟩ |
      ⟨_, _, n, ls, feat, st2, hn, _, _, hst2, n2, r, hn2, hr, hst'⟩
    · exact frame_make_leaf st node n _ hnode hn
    · exact frame_delete_node st node hnode
    · have hnext1 := attach_children_next st node n feat ls.random
      have hl1 : st.next < (attach_children st node n feat ls.random).next := by
        rw [hnext1]; omega
      obtain ⟨a1, b1, c1, d1, e1⟩ := ih st.next ls.left_final _ st2 hl1 hst2
      rw [hnext1] at a1 b1 e1
      have hnode2 : st2.heap node = (attach_children st node n feat ls.random).heap node :=
        b1 node (by omega) (by omega)
      rw [attach_children_heap_node st node n feat ls.random hnode, hn2] at hnode2
      have hr' : r = st.next + 1 := by
        have h2 := Option.some.inj hnode2
        rw [h2] at hr
        exact (Option.some.inj hr).symm
      subst hr'
      obtain ⟨a2, b2, c2, d2, e2⟩ := ih (st.next + 1) ls.right_final st2 st' (by omega) hst'
      refine ⟨by omega, ?_, ?_, ?_, ?_⟩
      · intro x hx hxn
        rw [b2 x (by omega) (by omega), b1 x (by omega) (by omega)]
        exact attach_children_heap_other st node n feat ls.random x hxn (by omega) (by omega)
      · intro x hx
        rw [c2 x hx, c1 x (by omega)]
        exact attach_children_heap_other st node n feat ls.random x (by omega) (by omega)
          (by omega)
      · intro n' hn'
        rw [b2 node (by omega) (by omega), hn2] at hn'
        refine ⟨n, hn, ?_⟩
        rw [← Option.some.inj hn', Option.some.inj hnode2]
      · intro x n' hx1 hx2 hx
        by_cases hxl : x = st.next
        · subst hxl
          rw [b2 _ (by omega) (by omega)] at hx
          obtain ⟨m, hm, hp⟩ := d1 n' hx
          rw [attach_children_heap_left] at hm
          refine ⟨node, ?_, Or.inl rfl, hnode⟩
          rw [hp, ← Option.some.inj hm]
        · by_cases hxr : x = st.next + 1
          · subst hxr
            obtain ⟨m, hm, hp⟩ := d2 n' hx
            rw [b1 _ (by omega) (by omega), attach_children_heap_right] at hm
            refine ⟨node, ?_, Or.inl rfl, by omega⟩
            rw [hp, ← Option.some.inj hm]
          · by_cases hx3 : x < st2.next
            · rw [b2 x hx3 hxr] at hx
              obtain ⟨p, hp, hp1, hp2⟩ := e1 x n' (by omega) hx3 hx
              refine ⟨p, hp, Or.inr ?_, hp2⟩
              rcases hp1 with hp1 | hp1 <;> omega
            · obtain ⟨p, hp, hp1, hp2⟩ := e2 x n' (by omega) hx2 hx
              refine ⟨p, hp, Or.inr ?_, hp2⟩
              rcases hp1 with hp1 | hp1 <;> omega

/-! ## Walks to the root -/

theorem traverse_to_root_mono {F : Type} (heap : ℕ → Option (Node F)) :
    ∀ (f : ℕ) (p : Option ℕ) (t : ℕ), traverse_to_root heap f p = some t →
      ∀ f', f ≤ f' → traverse_to_root heap f' p = some t := by
  intro f
  induction f with
  | zero =>
    intro p t h f' _
    cases p with
    | none =>
      cases f' <;> simpa [traverse_to_root] using h
    | some a => simp [traverse_to_root] at h
  | succ f ih =>
    intro p t h f' hf
    cases p with
    | none =>
      cases f' <;> simpa [traverse_to_root] using h
    | some a =>
      obtain ⟨g, rfl⟩ : ∃ g, f' = g + 1 := ⟨f' - 1, by omega⟩
      simp only [traverse_to_root] at h ⊢
      cases hh : heap a with
      | none => simp [hh] at h
      | some n =>
        simp only [hh] at h ⊢
        cases hp : traverse_to_root heap f n.parent_ with
        | none => simp [hp] at h
        | some u =>
          rw [ih _ _ hp g (by omega)]
          simpa [hp] using h

/-- The walk from `a` reads only the `parent_` fields of cells at addresses up
to `a`, when parents lie below their children. -/
theorem traverse_to_root_congr {F : Type} (heap heap' : ℕ → Option (Node F))
    (hpb : parents_below heap) :
    ∀ (f a : ℕ),
      (∀ x, x ≤ a → (heap' x).map (fun n => n.parent_) = (heap x).map (fun n => n.parent_)) →
      traverse_to_root heap' f (some a) = traverse_to_root heap f (some a) := by
  intro f
  induction f with
  | zero => intro a _; simp [traverse_to_root]
  | succ f ih =>
    intro a hag
    have ha := hag a (le_refl _)
    simp only [traverse_to_root]
    cases hh : heap a with
    | none =>
      rw [hh] at ha
      cases hh' : heap' a with
      | none => rfl
      | some n' => simp [hh'] at ha
    | some n =>
      rw [hh] at ha
      cases hh' : heap' a with
      | none => simp [hh'] at ha
      | some n' =>
        rw [hh'] at ha
        simp only [Option.map_some', Option.some.injEq] at ha
        simp only [ha]
        cases hp : n.parent_ with
        | none => cases f <;> simp [traverse_to_root]
        | some p =>
          have hlt : p < a := hpb a n p hh hp
          rw [ih p (fun x hx => hag x (by omega))]

theorem parents_below_of_frame {F R : Type} (st st' : TreeState F R) (node : ℕ)
    (hnode : node < st.next) (hpb : parents_below st.heap) (hf : frame st st' node) :
    parents_below st'.heap := by
  obtain ⟨a1, b1, c1, d1, e1⟩ := hf
  intro x n' p hx hp
  by_cases h1 : x = node
  · subst h1
    obtain ⟨n, hn, hpar⟩ := d1 n' hx
    rw [hpar] at hp
    exact hpb x n p hn hp
  · by_cases h2 : x < st.next
    · rw [b1 x h2 h1] at hx
      exact hpb x n' p hx hp
    · by_cases h3 : x < st'.next
      · obtain ⟨q, hq, _, hlt⟩ := e1 x n' (by omega) h3 hx
        rw [hq] at hp
        rw [← Option.some.inj hp]
        exact hlt
      · rw [c1 x (by omega)] at hx
        exact hpb x n' p hx hp

/-! ## The run of `deep_chain` -/

theorem DBL_MAX_pos : 0 < DBL_MAX := by
  unfold DBL_MAX
  norm_num

theorem eval_learner_deep_chain (p : LabeledPixel) (f : ℕ) :
    eval_learner deep_chain () p f = if f < 5 * 65537 then OUT.LEFT else OUT.TRASH := by
  by_cases hf : f < 5 * 65537 <;> simp [eval_learner, deep_chain, hf]

theorem partition_deep_chain_left (f : ℕ) (hf : f < 5 * 65537) :
    partition deep_chain () two_samples f = some (two_samples, []) := by
  rw [partition_eq_filter deep_chain () two_samples f (by simp [two_samples])]
  simp [eval_learner_deep_chain, hf, two_samples]

theorem partition_deep_chain_trash (f : ℕ) (hf : 5 * 65537 ≤ f) :
    partition deep_chain () two_samples f = some ([], []) := by
  rw [partition_eq_filter deep_chain () two_samples f (by simp [two_samples])]
  simp [eval_learner_deep_chain, not_lt.mpr hf, two_samples]

theorem objective_two_samples_left : objective_function two_samples two_samples [] = 0 := by
  norm_num [objective_function, variance, sum_labels, sum_sq, two_samples]

theorem objective_two_samples_trash : objective_function two_samples [] [] = 0 := by
  norm_num [objective_function, variance, sum_labels, sum_sq, two_samples]

theorem candidate_step_deep_chain_left (settings : Settings) (i : ℕ) (ls : SplitState ℕ ℕ)
    (hlen : ls.candidate_params.length = i) (hr : ls.random < 5 * 65537) :
    candidate_step deep_chain settings () two_samples i ls =
      if 0 < ls.minimum_objective then
        some { candidate_params := ls.candidate_params ++ [ls.random], random := ls.random + 1,
               feature := i, minimum_objective := 0, left_final := two_samples,
               right_final := [] }
      else
        some { ls with candidate_params := ls.candidate_params ++ [ls.random],
                       random := ls.random + 1 } := by
  have hget : (ls.candidate_params ++ [ls.random])[i]? = some ls.random := by
    rw [← hlen]
    simp
  have hc : deep_chain.CreateRandom ls.random settings.image_width_ settings.image_height_ =
      (ls.random, ls.random + 1) := rfl
  simp only [candidate_step, hc, hget, partition_deep_chain_left _ hr,
    objective_two_samples_left]

theorem candidate_step_deep_chain_trash (settings : Settings) (i : ℕ) (ls : SplitState ℕ ℕ)
    (hlen : ls.candidate_params.length = i) (hr : 5 * 65537 ≤ ls.random) :
    candidate_step deep_chain settings () two_samples i ls =
      if 0 < ls.minimum_objective then
        some { candidate_params := ls.candidate_params ++ [ls.random], random := ls.random + 1,
               feature := i, minimum_objective := 0, left_final := [],
               right_final := [] }
      else
        some { ls with candidate_params := ls.candidate_params ++ [ls.random],
                       random := ls.random + 1 } := by
  have hget : (ls.candidate_params ++ [ls.random])[i]? = some ls.random := by
    rw [← hlen]
    simp
  have hc : deep_chain.CreateRandom ls.random settings.image_width_ settings.image_height_ =
      (ls.random, ls.random + 1) := rfl
  simp only [candidate_step, hc, hget, partition_deep_chain_trash _ hr,
    objective_two_samples_trash]

theorem split_candidates_deep_chain_left (settings : Settings) (r : ℕ)
    (hr : r + 4 < 5 * 65537) :
    split_candidates deep_chain settings () two_samples r =
      some { candidate_params := [r, r + 1, r + 2, r + 3, r + 4], random := r + 5, feature := 0,
             minimum_objective := 0, left_final := two_samples, right_final := [] } := by
  simp only [split_candidates, candidate_loop]
  rw [candidate_step_deep_chain_left settings 0 ⟨[], r, 0, DBL_MAX, [], []⟩ rfl
    (by simp only; omega)]
  simp only [DBL_MAX_pos, if_true, List.nil_append]
  rw [candidate_step_deep_chain_left settings 1 ⟨[r], r + 1, 0, 0, two_samples, []⟩ rfl
    (by simp only; omega)]
  simp only [lt_irrefl, if_false, List.cons_append, List.nil_append, add_assoc, Nat.reduceAdd]
  rw [candidate_step_deep_chain_left settings 2 ⟨[r, r + 1], r + 2, 0, 0, two_samples, []⟩ rfl
    (by simp only; omega)]
  simp only [lt_irrefl, if_false, List.cons_append, List.nil_append, add_assoc, Nat.reduceAdd]
  rw [candidate_step_deep_chain_left settings 3 ⟨[r, r + 1, r + 2], r + 3, 0, 0, two_samples, []⟩ rfl
    (by simp only; omega)]
  simp only [lt_irrefl, if_false, List.cons_append, List.nil_append, add_assoc, Nat.reduceAdd]
  rw [candidate_step_deep_chain_left settings 4 ⟨[r, r + 1, r + 2, r + 3], r + 4, 0, 0, two_samples, []⟩ rfl
    (by simp only; omega)]
  simp only [lt_irrefl, if_false, List.cons_append, List.nil_append, add_assoc, Nat.reduceAdd]

theorem split_candidates_deep_chain_trash (settings : Settings) (r : ℕ)
    (hr : 5 * 65537 ≤ r) :
    split_candidates deep_chain settings () two_samples r =
      some { candidate_params := [r, r + 1, r + 2, r + 3, r + 4], random := r + 5, feature := 0,
             minimum_objective := 0, left_final := [], right_final := [] } := by
  simp only [split_candidates, candidate_loop]
  rw [candidate_step_deep_chain_trash settings 0 ⟨[], r, 0, DBL_MAX, [], []⟩ rfl
    (by simp only; omega)]
  simp only [DBL_MAX_pos, if_true, List.nil_append]
  rw [candidate_step_deep_chain_trash settings 1 ⟨[r], r + 1, 0, 0, [], []⟩ rfl
    (by simp only; omega)]
  simp only [lt_irrefl, if_false, List.cons_append, List.nil_append, add_assoc, Nat.reduceAdd]
  rw [candidate_step_deep_chain_trash settings 2 ⟨[r, r + 1], r + 2, 0, 0, [], []⟩ rfl
    (by simp only; omega)]
  simp only [lt_irrefl, if_false, List.cons_append, List.nil_append, add_assoc, Nat.reduceAdd]
  rw [candidate_step_deep_chain_trash settings 3 ⟨[r, r + 1, r + 2], r + 3, 0, 0, [], []⟩ rfl
    (by simp only; omega)]
  simp only [lt_irrefl, if_false, List.cons_append, List.nil_append, add_assoc, Nat.reduceAdd]
  rw [candidate_step_deep_chain_trash settings 4 ⟨[r, r + 1, r + 2, r + 3], r + 4, 0, 0, [], []⟩ rfl
    (by simp only; omega)]
  simp only [lt_irrefl, if_false, List.cons_append, List.nil_append, add_assoc, Nat.reduceAdd]

/-! ## Heights of the children of a split node -/

theorem attach_children_parent_agree {F R : Type} (st : TreeState F R) (node : ℕ) (n : Node F)
    (feat : F) (random : R) (hnode : node < st.next) (hn : st.heap node = some n) (x : ℕ)
    (hx : x < st.next) :
    ((attach_children st node n feat random).heap x).map (fun m => m.parent_) =
      (st.heap x).map (fun m => m.parent_) := by
  by_cases hxn : x = node
  · subst hxn
    rw [attach_children_heap_node st x n feat random hnode, hn]
    rfl
  · rw [attach_children_heap_other st node n feat random x hxn (by omega) (by omega)]

theorem parents_below_attach_children {F R : Type} (st : TreeState F R) (node : ℕ)
    (n : Node F) (feat : F) (random : R) (hnode : node < st.next)
    (hn : st.heap node = some n) (hpb : parents_below st.heap) :
    parents_below (attach_children st node n feat random).heap := by
  intro x m p hx hp
  by_cases h1 : x = st.next
  · subst h1
    rw [attach_children_heap_left] at hx
    rw [← Option.some.inj hx] at hp
    simp only [Node.fresh] at hp
    rw [← Option.some.inj hp]
    exact hnode
  · by_cases h2 : x = st.next + 1
    · subst h2
      rw [attach_children_heap_right] at hx
      rw [← Option.some.inj hx] at hp
      simp only [Node.fresh] at hp
      rw [← Option.some.inj hp]
      omega
    · by_cases h3 : x = node
      · subst h3
        rw [attach_children_heap_node st x n feat random hnode] at hx
        rw [← Option.some.inj hx] at hp
        exact hpb x n p hn hp
      · rw [attach_children_heap_other st node n feat random x h3 h1 h2] at hx
        exact hpb x m p hx hp

theorem traverse_to_root_step {F : Type} (heap : ℕ → Option (Node F)) (f a : ℕ) (n : Node F)
    (hn : heap a = some n) :
    traverse_to_root heap (f + 1) (some a) =
      match traverse_to_root heap f n.parent_ with
      | none => none
      | some h => some ((1 + h) % 2 ^ 32) := by
  simp only [traverse_to_root, hn]

/-- The value of `traverse_to_root` at the new left child is one more (in
`uint32_t`) than at the split node. -/
theorem traverse_to_root_left_child {F R : Type} (st : TreeState F R) (node : ℕ) (n : Node F)
    (feat : F) (random : R) (t : ℕ) (hnode : node < st.next) (hn : st.heap node = some n)
    (hpb : parents_below st.heap)
    (ht : traverse_to_root st.heap st.next (some node) = some t) :
    traverse_to_root (attach_children st node n feat random).heap
      (attach_children st node n feat random).next (some st.next) = some ((1 + t) % 2 ^ 32) := by
  have hcongr := traverse_to_root_congr st.heap (attach_children st node n feat random).heap hpb
    (st.next + 1) node
    (fun x hx => attach_children_parent_agree st node n feat random hnode hn x (by omega))
  rw [traverse_to_root_mono st.heap _ _ _ ht (st.next + 1) (by omega)] at hcongr
  rw [attach_children_next, traverse_to_root_step _ (st.next + 1) _ _
    (attach_children_heap_left st node n feat random)]
  simp only [Node.fresh, hcongr]

/-- The value of `traverse_to_root` at the right child, after the recursive
call on the left child, is one more (in `uint32_t`) than it was at the split
node. -/
theorem traverse_to_root_right_child {F R : Type} (st st2 : TreeState F R) (node : ℕ)
    (n : Node F) (feat : F) (random : R) (t : ℕ) (hnode : node < st.next)
    (hn : st.heap node = some n) (hpb : parents_below st.heap)
    (ht : traverse_to_root st.heap st.next (some node) = some t)
    (hf : frame (attach_children st node n feat random) st2 st.next) :
    traverse_to_root st2.heap st2.next (some (st.next + 1)) = some ((1 + t) % 2 ^ 32) := by
  obtain ⟨a1, b1, _, _, _⟩ := hf
  rw [attach_children_next] at a1 b1
  obtain ⟨k, hk⟩ : ∃ k, st2.next = k + 1 := ⟨st2.next - 1, by omega⟩
  have hr : st2.heap (st.next + 1) = some { Node.fresh with parent_ := some node } := by
    rw [b1 _ (by omega) (by omega), attach_children_heap_right]
  have hcongr := traverse_to_root_congr st.heap st2.heap hpb k node
    (fun x hx => by
      rw [b1 x (by omega) (by omega)]
      exact attach_children_parent_agree st node n feat random hnode hn x (by omega))
  rw [traverse_to_root_mono st.heap _ _ _ ht k (by omega)] at hcongr
  rw [hk, traverse_to_root_step _ k _ _ hr]
  simp only [Node.fresh, hcongr]

/-! ## Ancestors -/

theorem ancestor_zero {F : Type} (heap : ℕ → Option (Node F)) (b : ℕ) (n : Node F)
    (hn : heap b = some n) : ancestor heap 0 b = some b := by
  simp only [ancestor, hn]

theorem ancestor_succ {F : Type} (heap : ℕ → Option (Node F)) (k b p : ℕ) (n : Node F)
    (hn : heap b = some n) (hp : n.parent_ = some p) :
    ancestor heap (k + 1) b = ancestor heap k p := by
  simp only [ancestor, hn, hp]

theorem ancestor_live {F : Type} (heap : ℕ → Option (Node F)) :
    ∀ (k b a : ℕ), ancestor heap k b = some a → ∃ n, heap a = some n := by
  intro k
  induction k with
  | zero =>
    intro b a h
    simp only [ancestor] at h
    split at h
    · cases h
    · rename_i n hn
      rw [← Option.some.inj h]
      exact ⟨n, hn⟩
  | succ k ih =>
    intro b a h
    simp only [ancestor] at h
    split at h
    · cases h
    · split at h
      · cases h
      · exact ih _ a h

theorem ancestor_add_le {F : Type} (heap : ℕ → Option (Node F)) (hpb : parents_below heap) :
    ∀ (k b a : ℕ), ancestor heap k b = some a → a + k ≤ b := by
  intro k
  induction k with
  | zero =>
    intro b a h
    simp only [ancestor] at h
    split at h
    · cases h
    · exact le_of_eq (Option.some.inj h).symm
  | succ k ih =>
    intro b a h
    simp only [ancestor] at h
    split at h
    · cases h
    · rename_i n hn
      split at h
      · cases h
      · rename_i p hp
        have := ih p a h
        have := hpb b n p hn hp
        omega

theorem ancestor_trans {F : Type} (heap : ℕ → Option (Node F)) (j : ℕ) :
    ∀ (k b m a : ℕ), ancestor heap k b = some m → ancestor heap j m = some a →
      ancestor heap (k + j) b = some a := by
  intro k
  induction k with
  | zero =>
    intro b m a h1 h2
    simp only [ancestor] at h1
    split at h1
    · cases h1
    · rw [Option.some.inj h1, Nat.zero_add]
      exact h2
  | succ k ih =>
    intro b m a h1 h2
    simp only [ancestor] at h1
    split at h1
    · cases h1
    · rename_i n hn
      split at h1
      · cases h1
      · rename_i p hp
        rw [show k + 1 + j = (k + j) + 1 by omega, ancestor_succ heap _ b p n hn hp]
        exact ih p m a h1 h2

/-- Deleting a node whose parent lies below `a` keeps every walk that ends at
a node `a` other than the deleted one. -/
theorem ancestor_delete {F : Type} (heap : ℕ → Option (Node F)) (hpb : parents_below heap)
    (r q : ℕ) (nr : Node F) (hr : heap r = some nr) (hq : nr.parent_ = some q) :
    ∀ (k b a : ℕ), ancestor heap k b = some a → q < a → a ≠ r →
      ancestor (heap_set heap r none) k b = some a := by
  intro k
  induction k with
  | zero =>
    intro b a h _ har
    simp only [ancestor] at h ⊢
    split at h
    · cases h
    · rename_i n hn
      have hba : b = a := Option.some.inj h
      subst hba
      simp [heap_set, har, hn]
  | succ k ih =>
    intro b a h hqa har
    simp only [ancestor] at h ⊢
    split at h
    · cases h
    · rename_i n hn
      split at h
      · cases h
      · rename_i p hp
        have hbr : b ≠ r := by
          intro hbr
          subst hbr
          rw [hr] at hn
          rw [← Option.some.inj hn, hq] at hp
          rw [← Option.some.inj hp] at h
          have := ancestor_add_le heap hpb k q a h
          omega
        simp only [heap_set, hbr, if_false, hn, hp]
        exact ih p a h hqa har

/-! ## The depth reached by the run of `deep_chain` -/

theorem two_samples_not_leaf (w h t : ℕ) :
    ¬ (two_samples.length = 1 ∨ t % 2 ^ 16 ≥ (⟨65536, w, h⟩ : Settings).max_tree_depth_) := by
  rintro (h1 | h1)
  · simp [two_samples] at h1
  · have := Nat.mod_lt t (show 0 < 2 ^ 16 by norm_num)
    simp only at h1
    omega

/-- With depth limit `65536`, the call of `train_recurse` on a node `a` that
lies `d` edges below the root, made when `5 * d` features have been drawn,
returns after building a chain of split nodes that reaches `n = 65537 - d`
edges below `a`. -/
theorem deep_chain_descent (w h : ℕ) :
    ∀ (n a d : ℕ) (st : TreeState ℕ ℕ) (na : Node ℕ),
      d + n = 65537 → st.random = 5 * d → a < st.next → parents_below st.heap →
      st.heap a = some na → traverse_to_root st.heap st.next (some a) = some (d + 1) →
      ∃ st' b, train_recurse deep_chain ⟨65536, w, h⟩ () (n + 2) a two_samples st = some st' ∧
        ancestor st'.heap n b = some a := by
  intro n
  induction n with
  | zero =>
    intro a d st na hd hrnd ha hpb hna ht
    have hls := split_candidates_deep_chain_trash ⟨65536, w, h⟩ st.random (by omega)
    have hl_t := traverse_to_root_left_child st a na st.random (st.random + 5) (d + 1) ha hna
      hpb ht
    have hst2 := train_recurse_empty_eq deep_chain ⟨65536, w, h⟩ () 0 st.next _ _ hl_t
      (Nat.lt_of_lt_of_le (Nat.mod_lt _ (by norm_num)) (le_refl _))
    have hframe := train_recurse_frame deep_chain ⟨65536, w, h⟩ () 1 st.next [] _ _
      (by rw [attach_children_next]; omega) hst2
    have hn2 : (delete_node (attach_children st a na st.random (st.random + 5)) st.next).heap a =
        some { na with is_split_ := true, is_leaf_ := false, feature_ := some st.random,
                       left_ := some st.next, right_ := some (st.next + 1) } := by
      rw [← attach_children_heap_node st a na st.random (st.random + 5) ha]
      simp [delete_node, heap_set, Nat.ne_of_lt ha]
    have hr_t := traverse_to_root_right_child st _ a na st.random (st.random + 5) (d + 1) ha hna
      hpb ht hframe
    have hst3 := train_recurse_empty_eq deep_chain ⟨65536, w, h⟩ () 0 (st.next + 1) _ _ hr_t
      (Nat.lt_of_lt_of_le (Nat.mod_lt _ (by norm_num)) (le_refl _))
    have heq := train_recurse_split_eq deep_chain ⟨65536, w, h⟩ () 1 a two_samples st _
      (d + 1) na _ _ st.random (st.next + 1) ha ht (two_samples_not_leaf w h _)
      (by simp [two_samples]) hna hls rfl hst2 hn2 rfl
    refine ⟨_, a, heq.trans hst3, ?_⟩
    apply ancestor_zero _ a
    have hne : a ≠ st.next + 1 := by omega
    simp only [delete_node, heap_set, hne, if_false]
    exact hn2
  | succ n ih =>
    intro a d st na hd hrnd ha hpb hna ht
    have hls := split_candidates_deep_chain_left ⟨65536, w, h⟩ st.random (by omega)
    have hl_t := traverse_to_root_left_child st a na st.random (st.random + 5) (d + 1) ha hna
      hpb ht
    have hmod : (1 + (d + 1)) % 2 ^ 32 = (d + 1) + 1 := by
      rw [Nat.mod_eq_of_lt (by omega)]
      omega
    rw [hmod] at hl_t
    have hpb1 := parents_below_attach_children st a na st.random (st.random + 5) ha hna hpb
    obtain ⟨st2, b, hst2, hanc⟩ := ih st.next (d + 1) (attach_children st a na st.random
      (st.random + 5)) _ (by omega) (by rw [attach_children_random, hrnd]; ring)
      (by rw [attach_children_next]; omega) hpb1 (attach_children_heap_left _ _ _ _ _) hl_t
    have hl1 : st.next < (attach_children st a na st.random (st.random + 5)).next := by
      rw [attach_children_next]; omega
    have hframe := train_recurse_frame deep_chain ⟨65536, w, h⟩ () (n + 2) st.next two_samples
      _ _ hl1 hst2
    have hpb2 := parents_below_of_frame _ _ _ hl1 hpb1 hframe
    obtain ⟨a1, b1, _, d1, _⟩ := hframe
    rw [attach_children_next] at a1 b1
    have hn2 : st2.heap a =
        some { na with is_split_ := true, is_leaf_ := false, feature_ := some st.random,
                       left_ := some st.next, right_ := some (st.next + 1) } := by
      rw [b1 a (by omega) (by omega)]
      exact attach_children_heap_node st a na st.random (st.random + 5) ha
    have hr_t := traverse_to_root_right_child st st2 a na st.random (st.random + 5) (d + 1) ha
      hna hpb ht (train_recurse_frame deep_chain ⟨65536, w, h⟩ () (n + 2) st.next two_samples
        _ _ hl1 hst2)
    have hst3 := train_recurse_empty_eq deep_chain ⟨65536, w, h⟩ () (n + 1) (st.next + 1) _ _
      hr_t (Nat.lt_of_lt_of_le (Nat.mod_lt _ (by norm_num)) (le_refl _))
    have heq := train_recurse_split_eq deep_chain ⟨65536, w, h⟩ () (n + 2) a two_samples st st2
      (d + 1) na _ _ st.random (st.next + 1) ha ht (two_samples_not_leaf w h _)
      (by simp [two_samples]) hna hls rfl hst2 hn2 rfl
    refine ⟨_, b, heq.trans hst3, ?_⟩
    have hr2 : st2.heap (st.next + 1) = some { Node.fresh with parent_ := some a } := by
      rw [b1 _ (by omega) (by omega), attach_children_heap_right]
    have hl_live : ∃ nl, st2.heap st.next = some nl ∧ nl.parent_ = some a := by
      obtain ⟨nl, hl2⟩ := ancestor_live st2.heap n b st.next hanc
      obtain ⟨m, hm, hp⟩ := d1 nl hl2
      rw [attach_children_heap_left] at hm
      refine ⟨nl, hl2, ?_⟩
      rw [hp, ← Option.some.inj hm]
    obtain ⟨nl, hnl, hpl⟩ := hl_live
    have hanc3 := ancestor_delete st2.heap hpb2 (st.next + 1) a _ hr2 rfl n b st.next hanc ha
      (by omega)
    have hstep : ancestor (heap_set st2.heap (st.next + 1) none) 1 st.next = some a := by
      have hne1 : st.next ≠ st.next + 1 := by omega
      have hne2 : a ≠ st.next + 1 := by omega
      rw [ancestor_succ _ 0 st.next a nl (by simp [heap_set, hnl]) hpl]
      exact ancestor_zero _ a _ (by simp only [heap_set, hne2, if_false]; exact hn2)
    exact ancestor_trans _ 1 n b st.next a hanc3 hstep

theorem parents_below_init {F R : Type} (random : R) :
    parents_below (Tree_init (F := F) random).heap := by
  intro x n p hx hp
  by_cases h0 : x = 0
  · subst h0
    simp [Tree_init, heap_set] at hx
    rw [← hx] at hp
    simp [Node.fresh] at hp
  · simp [Tree_init, heap_set, h0] at hx

/-- C7 (evaluation at the failing input): with `max_tree_depth = 65536`, two
samples and the collaborators `deep_chain`, `Train` returns, and the tree it
built has a node that lies `65537` edges below the root (address `0`). -/
theorem Train_outgrows_depth_limit :
    ∃ st b, Train deep_chain 65539 () two_samples 0 ⟨65536, 640, 480⟩ = some st ∧
      ancestor st.heap 65537 b = some 0 := by
  unfold Train
  exact deep_chain_descent 640 480 65537 0 0 (Tree_init 0) Node.fresh (by norm_num) rfl
    (by simp [Tree_init]) (parents_below_init 0) (by simp [Tree_init, heap_set])
    (traverse_to_root_init 0)

/-! ## The depth bound below the 16-bit limit -/

/-- A walk of `k` parent edges to the root gives `traverse_to_root` the value
`k + 1` in `uint32_t`. -/
theorem traverse_to_root_of_ancestor {F : Type} (heap : ℕ → Option (Node F))
    (hpb : parents_below heap) :
    ∀ (k x f : ℕ), ancestor heap k x = some 0 → k + 1 ≤ f →
      traverse_to_root heap f (some x) = some ((k + 1) % 2 ^ 32) := by
  intro k
  induction k with
  | zero =>
    intro x f h hf
    obtain ⟨g, rfl⟩ : ∃ g, f = g + 1 := ⟨f - 1, by omega⟩
    simp only [ancestor] at h
    split at h
    · cases h
    · rename_i n hn
      have hx : x = 0 := Option.some.inj h
      subst hx
      have hp : n.parent_ = none := by
        cases hp : n.parent_ with
        | none => rfl
        | some p => exact absurd (hpb 0 n p hn hp) (Nat.not_lt_zero _)
      rw [traverse_to_root_step heap g 0 n hn, hp]
      cases g <;> simp [traverse_to_root]
  | succ k ih =>
    intro x f h hf
    obtain ⟨g, rfl⟩ : ∃ g, f = g + 1 := ⟨f - 1, by omega⟩
    simp only [ancestor] at h
    split at h
    · cases h
    · rename_i n hn
      split at h
      · cases h
      · rename_i p hp
        rw [traverse_to_root_step heap g x n hn, hp, ih p g h (by omega)]
        simp only [Option.some.injEq]
        omega

/-- A walk reads only the `parent_` fields of cells at addresses up to its
start, when parents lie below their children. -/
theorem ancestor_congr {F : Type} (heap heap' : ℕ → Option (Node F))
    (hpb : parents_below heap) :
    ∀ (k x : ℕ),
      (∀ y, y ≤ x → (heap' y).map (fun n => n.parent_) = (heap y).map (fun n => n.parent_)) →
      ancestor heap' k x = ancestor heap k x := by
  intro k
  induction k with
  | zero =>
    intro x hag
    have hx := hag x (le_refl _)
    simp only [ancestor]
    cases hh : heap x <;> cases hh' : heap' x <;> simp [hh, hh'] at hx ⊢
  | succ k ih =>
    intro x hag
    have hx := hag x (le_refl _)
    simp only [ancestor]
    cases hh : heap x with
    | none =>
      cases hh' : heap' x with
      | none => rfl
      | some n' => simp [hh, hh'] at hx
    | some n =>
      cases hh' : heap' x with
      | none => simp [hh, hh'] at hx
      | some n' =>
        simp only [hh, hh', Option.map_some', Option.some.injEq] at hx
        simp only [hx]
        cases hp : n.parent_ with
        | none => rfl
        | some p =>
          have hlt : p < x := hpb x n p hh hp
          exact ih p (fun y hy => hag y (by omega))

/-- Deleting a node without children keeps the walks of all other nodes. -/
theorem ancestor_delete_childless {F : Type} (heap : ℕ → Option (Node F)) (node : ℕ)
    (hcl : childless heap node) :
    ∀ (k x a : ℕ), x ≠ node → ancestor heap k x = some a →
      ancestor (heap_set heap node none) k x = some a := by
  intro k
  induction k with
  | zero =>
    intro x a hx h
    simp only [ancestor] at h ⊢
    split at h
    · cases h
    · rename_i n hn
      simp only [heap_set, hx, if_false, hn]
      exact h
  | succ k ih =>
    intro x a hx h
    simp only [ancestor] at h ⊢
    split at h
    · cases h
    · rename_i n hn
      split at h
      · cases h
      · rename_i p hp
        have hpn : p ≠ node := by
          intro hpn
          subst hpn
          exact hcl x n hn hp
        simp only [heap_set, hx, if_false, hn, hp]
        exact ih p a hpn h

theorem depth_inv_of_parent_agree {F R : Type} (M : ℕ) (st st' : TreeState F R)
    (hinv : depth_inv M st) (hnext : st'.next = st.next)
    (hag : ∀ y, (st'.heap y).map (fun n => n.parent_) = (st.heap y).map (fun n => n.parent_)) :
    depth_inv M st' := by
  obtain ⟨hpb, hlive, hdepth⟩ := hinv
  have hback : ∀ x n', st'.heap x = some n' →
      ∃ n, st.heap x = some n ∧ n.parent_ = n'.parent_ := by
    intro x n' hx
    have h := hag x
    rw [hx] at h
    cases hh : st.heap x with
    | none => simp [hh] at h
    | some n =>
      refine ⟨n, rfl, ?_⟩
      simpa [hh] using h.symm
  refine ⟨?_, ?_, ?_⟩
  · intro x n' p hx hp
    obtain ⟨n, hn, hnp⟩ := hback x n' hx
    exact hpb x n p hn (hnp.trans hp)
  · intro x n' hx
    obtain ⟨n, hn, _⟩ := hback x n' hx
    rw [hnext]
    exact hlive x n hn
  · intro x n' hx
    obtain ⟨n, hn, _⟩ := hback x n' hx
    obtain ⟨k, hk, hb⟩ := hdepth x n hn
    refine ⟨k, ?_, hb⟩
    rw [ancestor_congr st.heap st'.heap hpb k x (fun y _ => hag y)]
    exact hk

theorem make_leaf_parent_agree {F R : Type} (st : TreeState F R) (node : ℕ) (n : Node F)
    (mode : Point3) (hn : st.heap node = some n) (y : ℕ) :
    ((make_leaf st node n mode).heap y).map (fun m => m.parent_) =
      (st.heap y).map (fun m => m.parent_) := by
  by_cases hy : y = node
  · subst hy
    simp [make_leaf, heap_set, hn]
  · simp [make_leaf, heap_set, hy]

theorem childless_of_parent_agree {F : Type} (heap heap' : ℕ → Option (Node F)) (y : ℕ)
    (hcl : childless heap y)
    (hag : ∀ x, (heap' x).map (fun n => n.parent_) = (heap x).map (fun n => n.parent_)) :
    childless heap' y := by
  intro x n' hx hp
  have h := hag x
  rw [hx] at h
  cases hh : heap x with
  | none => simp [hh] at h
  | some n =>
    have hnp : n'.parent_ = n.parent_ := by simpa [hh] using h
    exact hcl x n hh (hnp ▸ hp)

theorem depth_inv_delete_node {F R : Type} (M : ℕ) (st : TreeState F R) (node : ℕ)
    (hinv : depth_inv M st) (hcl : childless st.heap node) :
    depth_inv M (delete_node st node) := by
  obtain ⟨hpb, hlive, hdepth⟩ := hinv
  have hback : ∀ x n, (delete_node st node).heap x = some n → x ≠ node ∧ st.heap x = some n := by
    intro x n hx
    by_cases hxn : x = node
    · simp [delete_node, heap_set, hxn] at hx
    · refine ⟨hxn, ?_⟩
      simpa [delete_node, heap_set, hxn] using hx
  refine ⟨?_, ?_, ?_⟩
  · intro x n p hx hp
    exact hpb x n p (hback x n hx).2 hp
  · intro x n hx
    exact hlive x n (hback x n hx).2
  · intro x n hx
    obtain ⟨hxn, hx'⟩ := hback x n hx
    obtain ⟨k, hk, hb⟩ := hdepth x n hx'
    exact ⟨k, ancestor_delete_childless st.heap node hcl k x 0 hxn hk, hb⟩

theorem childless_delete_node {F R : Type} (st : TreeState F R) (node y : ℕ)
    (hcl : childless st.heap y) : childless (delete_node st node).heap y := by
  intro x n hx
  by_cases hxn : x = node
  · simp [delete_node, heap_set, hxn] at hx
  · have hx' : st.heap x = some n := by simpa [delete_node, heap_set, hxn] using hx
    exact hcl x n hx'

theorem attach_children_live {F R : Type} (st : TreeState F R) (node : ℕ) (n : Node F)
    (feat : F) (random : R) (hnode : node < st.next) (hn : st.heap node = some n)
    (x : ℕ) (m : Node F) (hx : (attach_children st node n feat random).heap x = some m) :
    (x = st.next ∧ m.parent_ = some node) ∨ (x = st.next + 1 ∧ m.parent_ = some node) ∨
      (x ≠ st.next ∧ x ≠ st.next + 1 ∧ ∃ m', st.heap x = some m' ∧ m'.parent_ = m.parent_) := by
  by_cases h1 : x = st.next
  · subst h1
    rw [attach_children_heap_left] at hx
    left
    refine ⟨rfl, ?_⟩
    rw [← Option.some.inj hx]
  · by_cases h2 : x = st.next + 1
    · subst h2
      rw [attach_children_heap_right] at hx
      right; left
      refine ⟨rfl, ?_⟩
      rw [← Option.some.inj hx]
    · right; right
      refine ⟨h1, h2, ?_⟩
      by_cases h3 : x = node
      · subst h3
        rw [attach_children_heap_node st x n feat random hnode] at hx
        refine ⟨n, hn, ?_⟩
        rw [← Option.some.inj hx]
      · rw [attach_children_heap_other st node n feat random x h3 h1 h2] at hx
        exact ⟨m, hx, rfl⟩

theorem depth_inv_attach_children {F R : Type} (M : ℕ) (st : TreeState F R) (node : ℕ)
    (n : Node F) (feat : F) (random : R) (k : ℕ) (hinv : depth_inv M st)
    (hn : st.heap node = some n) (hk : ancestor st.heap k node = some 0) (hkM : k + 2 ≤ M) :
    depth_inv M (attach_children st node n feat random) := by
  obtain ⟨hpb, hlive, hdepth⟩ := hinv
  have hnode : node < st.next := hlive node n hn
  have hcongr : ∀ j x, x < st.next →
      ancestor (attach_children st node n feat random).heap j x = ancestor st.heap j x :=
    fun j x hx => ancestor_congr st.heap _ hpb j x
      (fun y hy => attach_children_parent_agree st node n feat random hnode hn y (by omega))
  refine ⟨parents_below_attach_children st node n feat random hnode hn hpb, ?_, ?_⟩
  · intro x m hx
    rw [attach_children_next]
    rcases attach_children_live st node n feat random hnode hn x m hx with
      ⟨h, _⟩ | ⟨h, _⟩ | ⟨_, _, m', hm', _⟩
    · omega
    · omega
    · have := hlive x m' hm'
      omega
  · intro x m hx
    rcases attach_children_live st node n feat random hnode hn x m hx with
      ⟨h, hp⟩ | ⟨h, hp⟩ | ⟨_, _, m', hm', _⟩
    · refine ⟨k + 1, ?_, Or.inr (by omega)⟩
      rw [ancestor_succ _ k x node m hx hp, hcongr k node hnode]
      exact hk
    · refine ⟨k + 1, ?_, Or.inr (by omega)⟩
      rw [ancestor_succ _ k x node m hx hp, hcongr k node hnode]
      exact hk
    · obtain ⟨j, hj, hb⟩ := hdepth x m' hm'
      refine ⟨j, ?_, hb⟩
      rw [hcongr j x (hlive x m' hm')]
      exact hj

theorem childless_attach_children {F R : Type} (st : TreeState F R) (node : ℕ) (n : Node F)
    (feat : F) (random : R) (y : ℕ) (hnode : node < st.next) (hn : st.heap node = some n)
    (hy : y ≠ node) (hcl : childless st.heap y) :
    childless (attach_children st node n feat random).heap y := by
  intro x m hx hp
  rcases attach_children_live st node n feat random hnode hn x m hx with
    ⟨_, hq⟩ | ⟨_, hq⟩ | ⟨_, _, m', hm', hq⟩
  · rw [hq] at hp
    exact hy (Option.some.inj hp).symm
  · rw [hq] at hp
    exact hy (Option.some.inj hp).symm
  · exact hcl x m' hm' (hq.trans hp)

theorem childless_new_child {F R : Type} (M : ℕ) (st : TreeState F R) (node : ℕ) (n : Node F)
    (feat : F) (random : R) (y : ℕ) (hinv : depth_inv M st) (hn : st.heap node = some n)
    (hy : st.next ≤ y) : childless (attach_children st node n feat random).heap y := by
  obtain ⟨hpb, hlive, _⟩ := hinv
  have hnode : node < st.next := hlive node n hn
  intro x m hx hp
  rcases attach_children_live st node n feat random hnode hn x m hx with
    ⟨_, hq⟩ | ⟨_, hq⟩ | ⟨_, _, m', hm', hq⟩
  · rw [hq] at hp
    have := Option.some.inj hp
    omega
  · rw [hq] at hp
    have := Option.some.inj hp
    omega
  · have h1 := hpb x m' y hm' (hq.trans hp)
    have h2 := hlive x m' hm'
    omega

/-- With a depth limit that fits 16 bits, a returning call of `train_recurse`
on a node without children keeps the shape `depth_inv`, and keeps every other
old node without children so. -/
theorem train_recurse_depth_inv {D F R : Type} (c : Collaborators D F R) (M w h : ℕ)
    (hM : M ≤ 65535) (data : D) :
    ∀ (fuel node : ℕ) (S : List LabeledPixel) (st st' : TreeState F R) (n : Node F),
      train_recurse c ⟨M, w, h⟩ data fuel node S st = some st' →
      depth_inv M st → st.heap node = some n → childless st.heap node →
      depth_inv M st' ∧
        ∀ y, y < st.next → y ≠ node → childless st.heap y → childless st'.heap y := by
  intro fuel
  induction fuel with
  | zero =>
    intro node S st st' n hres
    simp [train_recurse] at hres
  | succ fuel ih =>
    intro node S st st' n hres hinv hn hcl
    have hnode : node < st.next := hinv.2.1 node n hn
    obtain ⟨t, ht, hc⟩ := train_recurse_cases c ⟨M, w, h⟩ data fuel node S st st' hnode hres
    rcases hc with ⟨_, n1, hn1, rfl⟩ | ⟨_, _, rfl⟩ |
      ⟨hleaf, _, n1, ls, feat, st2, hn1, _, _, hst2, n2, r, hn2, hr, hst'⟩
    · exact ⟨depth_inv_of_parent_agree M st _ hinv rfl (make_leaf_parent_agree st node n1 _ hn1),
        fun y _ _ hy => childless_of_parent_agree _ _ y hy
          (make_leaf_parent_agree st node n1 _ hn1)⟩
    · exact ⟨depth_inv_delete_node M st node hinv hcl,
        fun y _ _ hy => childless_delete_node st node y hy⟩
    · obtain ⟨k, hk, hb⟩ := hinv.2.2 node n1 hn1
      have hkle := ancestor_add_le st.heap hinv.1 k node 0 hk
      have htk := traverse_to_root_of_ancestor st.heap hinv.1 k node st.next hk (by omega)
      rw [ht] at htk
      have htk' : t = (k + 1) % 2 ^ 32 := Option.some.inj htk
      have hk2 : k + 2 ≤ M := by
        have h1 : ¬ (t % 2 ^ 16 ≥ M) := fun h1 => hleaf (Or.inr h1)
        omega
      have hinv1 := depth_inv_attach_children M st node n1 feat ls.random k hinv hn1 hk hk2
      have hnext1 := attach_children_next st node n1 feat ls.random
      have hl1 : st.next < (attach_children st node n1 feat ls.random).next := by
        rw [hnext1]; omega
      obtain ⟨hinv2, hpres1⟩ := ih st.next ls.left_final _ st2 _ hst2 hinv1
        (attach_children_heap_left st node n1 feat ls.random)
        (childless_new_child M st node n1 feat ls.random st.next hinv hn1 (le_refl _))
      obtain ⟨a1, b1, _, _, _⟩ := train_recurse_frame c ⟨M, w, h⟩ data fuel st.next
        ls.left_final _ st2 hl1 hst2
      rw [hnext1] at a1 b1
      have hnode2 : st2.heap node = (attach_children st node n1 feat ls.random).heap node :=
        b1 node (by omega) (by omega)
      rw [attach_children_heap_node st node n1 feat ls.random hnode, hn2] at hnode2
      have hr' : r = st.next + 1 := by
        have h2 := Option.some.inj hnode2
        rw [h2] at hr
        exact (Option.some.inj hr).symm
      subst hr'
      have hr2 : st2.heap (st.next + 1) = some { Node.fresh with parent_ := some node } := by
        rw [b1 _ (by omega) (by omega), attach_children_heap_right]
      have hcl_r2 : childless st2.heap (st.next + 1) :=
        hpres1 (st.next + 1) (by rw [hnext1]; omega) (by omega)
          (childless_new_child M st node n1 feat ls.random (st.next + 1) hinv hn1 (by omega))
      obtain ⟨hinv3, hpres2⟩ := ih (st.next + 1) ls.right_final st2 st' _ hst' hinv2 hr2 hcl_r2
      refine ⟨hinv3, ?_⟩
      intro y hy hyn hcy
      apply hpres2 y (by omega) (by omega)
      apply hpres1 y (by rw [hnext1]; omega) (by omega)
      exact childless_attach_children st node n1 feat ls.random y hnode hn1 hyn hcy

theorem depth_inv_init {F R : Type} (M : ℕ) (random : R) :
    depth_inv M (Tree_init (F := F) random) := by
  refine ⟨parents_below_init random, ?_, ?_⟩
  · intro x n hx
    by_cases h0 : x = 0
    · simp [h0, Tree_init]
    · simp [Tree_init, heap_set, h0] at hx
  · intro x n hx
    by_cases h0 : x = 0
    · subst h0
      exact ⟨0, ancestor_zero _ 0 n hx, Or.inl rfl⟩
    · simp [Tree_init, heap_set, h0] at hx

/-- With `max_tree_depth ≤ 65535`, every node of a tree that `Train` returns
is linked to the root by at most `max_tree_depth` parent edges. -/
theorem Train_depth_bound_16bit {D F R : Type} (c : Collaborators D F R) (M w h : ℕ)
    (hM : M ≤ 65535) (fuel : ℕ) (data : D) (S : List LabeledPixel) (random : R)
    (st : TreeState F R) (hres : Train c fuel data S random ⟨M, w, h⟩ = some st) :
    ∀ x n, st.heap x = some n → ∃ k, ancestor st.heap k x = some 0 ∧ k ≤ M := by
  unfold Train at hres
  have hcl : childless (Tree_init (F := F) random).heap 0 := by
    intro x n hx hp
    have := parents_below_init random x n 0 hx hp
    by_cases h0 : x = 0
    · omega
    · simp [Tree_init, heap_set, h0] at hx
  obtain ⟨⟨_, _, hdepth⟩, _⟩ := train_recurse_depth_inv c M w h hM data fuel 0 S _ st Node.fresh
    hres (depth_inv_init M random) (by simp [Tree_init, heap_set]) hcl
  intro x n hx
  obtain ⟨k, hk, hb⟩ := hdepth x n hx
  exact ⟨k, hk, by omega⟩

/-! ## Mode of a leaf without points -/

theorem leaf_mode_zero_points {D F R : Type} (c : Collaborators D F R) (S : List LabeledPixel)
    (hzero : (S.take (if S.length < 500 then S.length else 500)).map
      (fun p => (p.label_.x, p.label_.y, p.label_.z)) = [])
    (horacle : c.cluster [] (1 / 100) = []) : leaf_mode c S = ⟨0, 0, 0⟩ := by
  have hm : c.map_order [] = [] := List.perm_nil.mp (c.map_order_perm [])
  simp only [leaf_mode, hzero, horacle, List.map_nil, List.foldl_nil, hm, find_mode]

/-- C11: when the leaf branch of `train_recurse` runs on a sample set from
which no point is passed to the clustering, and the clustering returns no
centre for no point, the call returns with the node marked leaf and the mode
`(0, 0, 0)`. -/
theorem train_recurse_zero_points_leaf {D F R : Type} (c : Collaborators D F R)
    (settings : Settings) (data : D) (fuel node : ℕ) (S : List LabeledPixel)
    (st : TreeState F R) (t : ℕ) (n : Node F)
    (ht : traverse_to_root st.heap st.next (some node) = some t)
    (hleaf : S.length = 1 ∨ t % 2 ^ 16 ≥ settings.max_tree_depth_)
    (hn : st.heap node = some n)
    (hzero : (S.take (if S.length < 500 then S.length else 500)).map
      (fun p => (p.label_.x, p.label_.y, p.label_.z)) = [])
    (horacle : c.cluster [] (1 / 100) = []) :
    ∃ st' n', train_recurse c settings data (fuel + 1) node S st = some st' ∧
      st'.heap node = some n' ∧ n'.is_leaf_ = true ∧ n'.mode_ = some ⟨0, 0, 0⟩ := by
  rw [train_recurse_leaf_eq c settings data fuel node S st t n ht hleaf hn,
    leaf_mode_zero_points c S hzero horacle]
  refine ⟨_, { n with is_leaf_ := true, mode_ := some ⟨0, 0, 0⟩ }, rfl, ?_, rfl, rfl⟩
  simp [make_leaf, heap_set]

/-- The statement of C11 at the root of a new tree with depth limit `0` and
the empty sample set. -/
theorem train_recurse_zero_points_leaf_witness :
    ∃ st' n', train_recurse threshold_two ⟨0, 640, 480⟩ () 1 0 []
        (Tree_init (F := ℕ) (0 : ℕ)) = some st' ∧
      st'.heap 0 = some n' ∧ n'.is_leaf_ = true ∧ n'.mode_ = some ⟨0, 0, 0⟩ :=
  train_recurse_zero_points_leaf threshold_two ⟨0, 640, 480⟩ () 0 0 [] (Tree_init 0) 1
    Node.fresh (traverse_to_root_init 0) (Or.inr (Nat.zero_le _))
    (by simp [Tree_init, heap_set]) rfl rfl

/-! ## The height that `train_recurse` computes -/

theorem computed_height_of_ancestor {F R : Type} (st : TreeState F R) (x k : ℕ)
    (hpb : parents_below st.heap) (hx : x < st.next) (hk : ancestor st.heap k x = some 0)
    (h16 : k + 1 < 2 ^ 16) :
    traverse_to_root st.heap st.next (some x) = some (k + 1) ∧
      computed_height st x = some (k + 1) := by
  have hle := ancestor_add_le st.heap hpb k x 0 hk
  have ht := traverse_to_root_of_ancestor st.heap hpb k x st.next hk (by omega)
  rw [Nat.mod_eq_of_lt (by omega)] at ht
  refine ⟨ht, ?_⟩
  simp only [computed_height, ht, Option.map_some']
  rw [Nat.mod_eq_of_lt h16]

/-- C12 (as amended): for a node that lies `k` edges below the root, with
`k + 1` fitting 16 bits, the height that `train_recurse` computes is `k + 1`,
the number of nodes on the path to the root: the call makes the node a leaf
when `|S| = 1` or `k + 1 ≥ max_tree_depth`, and discards it on an empty `S`
when `k + 1 < max_tree_depth`. -/
theorem computed_height_eq_edges_succ {D F R : Type} (c : Collaborators D F R)
    (settings : Settings) (data : D) (st : TreeState F R) (x k : ℕ)
    (hpb : parents_below st.heap) (hx : x < st.next) (hk : ancestor st.heap k x = some 0)
    (h16 : k + 1 < 2 ^ 16) :
    computed_height st x = some (k + 1) ∧
    (∀ fuel S n, st.heap x = some n →
      (S.length = 1 ∨ k + 1 ≥ settings.max_tree_depth_) →
      train_recurse c settings data (fuel + 1) x S st =
        some (make_leaf st x n (leaf_mode c S))) ∧
    (∀ fuel, k + 1 < settings.max_tree_depth_ →
      train_recurse c settings data (fuel + 1) x [] st = some (delete_node st x)) := by
  obtain ⟨ht, hh⟩ := computed_height_of_ancestor st x k hpb hx hk h16
  have hmod : (k + 1) % 2 ^ 16 = k + 1 := Nat.mod_eq_of_lt h16
  refine ⟨hh, ?_, ?_⟩
  · intro fuel S n hn hleaf
    exact train_recurse_leaf_eq c settings data fuel x S st (k + 1) n ht (by rw [hmod]; exact hleaf)
      hn
  · intro fuel hlt
    exact train_recurse_empty_eq c settings data fuel x st (k + 1) ht (by rw [hmod]; exact hlt)

/-- The statement of C12 as amended, at the root of a new tree: `k = 0` edges,
height `1`. -/
theorem computed_height_eq_edges_succ_witness :
    computed_height (Tree_init (F := ℕ) (0 : ℕ)) 0 = some (0 + 1) ∧
    (∀ fuel S n, (Tree_init (F := ℕ) (0 : ℕ)).heap 0 = some n →
      (S.length = 1 ∨ 0 + 1 ≥ (⟨1, 640, 480⟩ : Settings).max_tree_depth_) →
      train_recurse threshold_two ⟨1, 640, 480⟩ () (fuel + 1) 0 S (Tree_init 0) =
        some (make_leaf (Tree_init 0) 0 n (leaf_mode threshold_two S))) ∧
    (∀ fuel, 0 + 1 < (⟨1, 640, 480⟩ : Settings).max_tree_depth_ →
      train_recurse threshold_two ⟨1, 640, 480⟩ () (fuel + 1) 0 [] (Tree_init 0) =
        some (delete_node (Tree_init 0) 0)) :=
  computed_height_eq_edges_succ threshold_two ⟨1, 640, 480⟩ () (Tree_init 0) 0 0
    (parents_below_init 0) (by simp [Tree_init])
    (ancestor_zero _ 0 Node.fresh (by simp [Tree_init, heap_set])) (by norm_num)

/-- C12 (counterexample): the root of a new tree lies `0` edges below the root
and `train_recurse` computes the height `1` for it; with depth limit `1`,
`Train` on two samples therefore makes the root a leaf. -/
theorem root_height_is_one :
    ancestor (Tree_init (F := ℕ) (0 : ℕ)).heap 0 0 = some 0 ∧
    computed_height (Tree_init (F := ℕ) (0 : ℕ)) 0 = some 1 ∧
    ∃ st root, Train threshold_two 1 () [sample_x 1, sample_x 3] 0 ⟨1, 640, 480⟩ = some st ∧
      st.heap 0 = some root ∧ root.is_leaf_ = true ∧ root.is_split_ = false := by
  refine ⟨ancestor_zero _ 0 Node.fresh (by simp [Tree_init, heap_set]), ?_, ?_⟩
  · simp [computed_height, traverse_to_root_init]
  · unfold Train
    rw [train_recurse_leaf_eq threshold_two ⟨1, 640, 480⟩ () 0 0 _ (Tree_init 0) 1 Node.fresh
      (traverse_to_root_init 0) (Or.inr (by norm_num)) (by simp [Tree_init, heap_set])]
    refine ⟨_, _, rfl, by simp [make_leaf, heap_set]; rfl, rfl, rfl⟩

/-! ## Variance of identical labels -/

theorem sum_map_eq_of_forall {α : Type} (l : List α) (f : α → ℚ) (a : ℚ)
    (h : ∀ p ∈ l, f p = a) : (l.map f).sum = (l.length : ℚ) * a := by
  induction l with
  | nil => simp
  | cons p ps ih =>
    have hp : f p = a := h p (List.mem_cons_self _ _)
    have hps : ∀ q ∈ ps, f q = a := fun q hq => h q (List.mem_cons_of_mem _ hq)
    simp only [List.map_cons, List.sum_cons, List.length_cons, ih hps, hp]
    push_cast
    ring

/-- On a non-empty list of fewer than `2 ^ 32` samples that all carry the same
label, `variance` returns `0`. -/
theorem variance_identical_labels (l : List LabeledPixel) (lab : Point3) (hne : l ≠ [])
    (hlen : l.length < 2 ^ 32) (hsame : ∀ p ∈ l, p.label_ = lab) : variance l = 0 := by
  have hq : (l.length : ℚ) ≠ 0 := by
    intro h
    exact hne (List.length_eq_zero.mp (Nat.cast_eq_zero.mp h))
  have hx := sum_map_eq_of_forall l (fun p => p.label_.x) lab.x
    (fun p hp => by simp only [hsame p hp])
  have hy := sum_map_eq_of_forall l (fun p => p.label_.y) lab.y
    (fun p hp => by simp only [hsame p hp])
  have hz := sum_map_eq_of_forall l (fun p => p.label_.z) lab.z
    (fun p hp => by simp only [hsame p hp])
  have hc : centroid l = lab := by
    simp only [centroid, hx, hy, hz]
    rw [mul_div_cancel_left₀ _ hq, mul_div_cancel_left₀ _ hq, mul_div_cancel_left₀ _ hq]
  have hs := sum_map_eq_of_forall l (fun p => sq_dist p.label_ (centroid l)) 0
    (fun p hp => by simp only [hsame p hp, hc]; simp [sq_dist])
  rw [variance_eq_spec l hne hlen]
  simp only [variance_spec, hne, if_false, hs, mul_zero]

/-! ## A run that does not return -/

theorem partition_always_left (f : ℕ) :
    partition always_left () two_samples f = some (two_samples, []) := by
  rw [partition_eq_filter always_left () two_samples f (by simp [two_samples])]
  simp [eval_learner, always_left, two_samples]

theorem candidate_step_always_left (settings : Settings) (i : ℕ) (ls : SplitState ℕ ℕ)
    (hlen : ls.candidate_params.length = i) :
    candidate_step always_left settings () two_samples i ls =
      if 0 < ls.minimum_objective then
        some { candidate_params := ls.candidate_params ++ [ls.random], random := ls.random + 1,
               feature := i, minimum_objective := 0, left_final := two_samples,
               right_final := [] }
      else
        some { ls with candidate_params := ls.candidate_params ++ [ls.random],
                       random := ls.random + 1 } := by
  have hget : (ls.candidate_params ++ [ls.random])[i]? = some ls.random := by
    rw [← hlen]
    simp
  have hc : always_left.CreateRandom ls.random settings.image_width_ settings.image_height_ =
      (ls.random, ls.random + 1) := rfl
  simp only [candidate_step, hc, hget, partition_always_left, objective_two_samples_left]

theorem split_candidates_always_left (settings : Settings) (r : ℕ) :
    split_candidates always_left settings () two_samples r =
      some { candidate_params := [r, r + 1, r + 2, r + 3, r + 4], random := r + 5, feature := 0,
             minimum_objective := 0, left_final := two_samples, right_final := [] } := by
  simp only [split_candidates, candidate_loop]
  rw [candidate_step_always_left settings 0 ⟨[], r, 0, DBL_MAX, [], []⟩ rfl]
  simp only [DBL_MAX_pos, if_true, List.nil_append]
  rw [candidate_step_always_left settings 1 ⟨[r], r + 1, 0, 0, two_samples, []⟩ rfl]
  simp only [lt_irrefl, if_false, List.cons_append, List.nil_append, add_assoc, Nat.reduceAdd]
  rw [candidate_step_always_left settings 2 ⟨[r, r + 1], r + 2, 0, 0, two_samples, []⟩ rfl]
  simp only [lt_irrefl, if_false, List.cons_append, List.nil_append, add_assoc, Nat.reduceAdd]
  rw [candidate_step_always_left settings 3 ⟨[r, r + 1, r + 2], r + 3, 0, 0, two_samples, []⟩ rfl]
  simp only [lt_irrefl, if_false, List.cons_append, List.nil_append, add_assoc, Nat.reduceAdd]
  rw [candidate_step_always_left settings 4 ⟨[r, r + 1, r + 2, r + 3], r + 4, 0, 0, two_samples, []⟩ rfl]
  simp only [lt_irrefl, if_false, List.cons_append, List.nil_append, add_assoc, Nat.reduceAdd]

/-- With depth limit `65536` and collaborators that route every sample `LEFT`,
no call of `train_recurse` on the two samples returns, whatever the bound on
the depth of the recursion: the 16-bit height stays below the limit and the
left child receives both samples again. -/
theorem train_recurse_always_left_none (w h : ℕ) :
    ∀ (fuel node : ℕ) (st : TreeState ℕ ℕ),
      train_recurse always_left ⟨65536, w, h⟩ () fuel node two_samples st = none := by
  intro fuel
  induction fuel with
  | zero => intro node st; rfl
  | succ fuel ih =>
    intro node st
    unfold train_recurse
    cases ht : traverse_to_root st.heap st.next (some node) with
    | none => rfl
    | some t =>
      simp only [if_neg (two_samples_not_leaf w h t),
        if_neg (show ¬ two_samples.length = 0 by simp [two_samples])]
      cases hn : st.heap node with
      | none => rfl
      | some n =>
        simp only [split_candidates_always_left ⟨65536, w, h⟩ st.random,
          List.getElem?_cons_zero]
        split
        · rfl
        · split
          · rfl
          · rw [ih]

/-- C16 (evaluation at the failing input): with `max_tree_depth = 65536`, two
samples and collaborators that route every sample `LEFT`, `Train` does not
return, whatever the bound on the depth of the recursion. -/
theorem Train_does_not_terminate (fuel : ℕ) :
    Train always_left fuel () two_samples 0 ⟨65536, 640, 480⟩ = none :=
  train_recurse_always_left_none 640 480 fuel 0 (Tree_init 0)

/-! ## The objective is a variance reduction -/

theorem sum_sq_shift (xs : List ℚ) (m : ℚ) :
    (xs.map (fun x => (x - m) ^ 2)).sum =
      (xs.map (fun x => x ^ 2)).sum - 2 * m * xs.sum + (xs.length : ℚ) * m ^ 2 := by
  induction xs with
  | nil => simp
  | cons x xs ih =>
    simp only [List.map_cons, List.sum_cons, List.length_cons, ih]
    push_cast
    ring

/-- The mean of a non-empty list minimises the sum of squared deviations. -/
theorem mean_minimises (xs : List ℚ) (hne : xs ≠ []) (m : ℚ) :
    (xs.map (fun x => (x - xs.sum / (xs.length : ℚ)) ^ 2)).sum ≤
      (xs.map (fun x => (x - m) ^ 2)).sum := by
  have hk : (0 : ℚ) < (xs.length : ℚ) := by
    have : 0 < xs.length := List.length_pos.mpr hne
    exact_mod_cast this
  rw [sum_sq_shift, sum_sq_shift]
  have hdiff : ((xs.map (fun x => x ^ 2)).sum - 2 * m * xs.sum + (xs.length : ℚ) * m ^ 2) -
      ((xs.map (fun x => x ^ 2)).sum - 2 * (xs.sum / (xs.length : ℚ)) * xs.sum +
        (xs.length : ℚ) * (xs.sum / (xs.length : ℚ)) ^ 2) =
      ((xs.length : ℚ) * m - xs.sum) ^ 2 / (xs.length : ℚ) := by
    field_simp
    ring
  have hnn : 0 ≤ ((xs.length : ℚ) * m - xs.sum) ^ 2 / (xs.length : ℚ) :=
    div_nonneg (sq_nonneg _) hk.le
  linarith

theorem scatter_coordinates (l : List LabeledPixel) (m : Point3) :
    (l.map (fun p => sq_dist p.label_ m)).sum =
      ((l.map (fun p => p.label_.x)).map (fun x => (x - m.x) ^ 2)).sum +
      ((l.map (fun p => p.label_.y)).map (fun x => (x - m.y) ^ 2)).sum +
      ((l.map (fun p => p.label_.z)).map (fun x => (x - m.z) ^ 2)).sum := by
  induction l with
  | nil => simp
  | cons p ps ih =>
    simp only [List.map_cons, List.sum_cons, ih]
    simp only [sq_dist]
    ring

/-- The centroid of a non-empty list minimises the sum of squared distances
to a point. -/
theorem centroid_minimises (l : List LabeledPixel) (hne : l ≠ []) (m : Point3) :
    (l.map (fun p => sq_dist p.label_ (centroid l))).sum ≤
      (l.map (fun p => sq_dist p.label_ m)).sum := by
  rw [scatter_coordinates, scatter_coordinates]
  have hx := mean_minimises (l.map (fun p => p.label_.x)) (by simpa using hne) m.x
  have hy := mean_minimises (l.map (fun p => p.label_.y)) (by simpa using hne) m.y
  have hz := mean_minimises (l.map (fun p => p.label_.z)) (by simpa using hne) m.z
  simp only [List.length_map] at hx hy hz
  simp only [centroid]
  linarith

/-- `|l| * variance l` is the sum of squared distances to the centroid, on a
list whose length fits `uint32_t`. -/
theorem length_mul_variance (l : List LabeledPixel) (hlen : l.length < 2 ^ 32) :
    (l.length : ℚ) * variance l = (l.map (fun p => sq_dist p.label_ (centroid l))).sum := by
  by_cases hne : l = []
  · subst hne
    simp [variance]
  · have hq : (l.length : ℚ) ≠ 0 := by
      intro h
      exact hne (List.length_eq_zero.mp (Nat.cast_eq_zero.mp h))
    rw [variance_eq_spec l hne hlen]
    simp only [variance_spec, hne, if_false]
    field_simp

theorem scatter_le_of_subperm (l₁ l₂ : List LabeledPixel) (m : Point3) (h : l₁.Subperm l₂) :
    (l₁.map (fun p => sq_dist p.label_ m)).sum ≤ (l₂.map (fun p => sq_dist p.label_ m)).sum := by
  obtain ⟨l, hp, hs⟩ := h
  rw [← (hp.map (fun p => sq_dist p.label_ m)).sum_eq]
  apply List.Sublist.sum_le_sum (hs.map _)
  intro a ha
  obtain ⟨p, _, rfl⟩ := List.mem_map.mp ha
  exact sq_dist_nonneg _ _

/-- On a non-empty `S` of fewer than `2 ^ 32` samples, the objective of any
two disjoint sub-collections `left`, `right` of `S` is non-negative. -/
theorem objective_nonneg_of_subperm (S left right : List LabeledPixel) (hS : S ≠ [])
    (hlen : S.length < 2 ^ 32) (hsub : (left ++ right).Subperm S) :
    0 ≤ objective_function S left right := by
  have hq : (0 : ℚ) < (S.length : ℚ) := by
    have : 0 < S.length := List.length_pos.mpr hS
    exact_mod_cast this
  have hle := hsub.length_le
  rw [List.length_append] at hle
  have hL := length_mul_variance left (by omega)
  have hR := length_mul_variance right (by omega)
  have hSv := length_mul_variance S hlen
  have hLc : (left.map (fun p => sq_dist p.label_ (centroid left))).sum ≤
      (left.map (fun p => sq_dist p.label_ (centroid S))).sum := by
    by_cases hl : left = []
    · subst hl; simp
    · exact centroid_minimises left hl _
  have hRc : (right.map (fun p => sq_dist p.label_ (centroid right))).sum ≤
      (right.map (fun p => sq_dist p.label_ (centroid S))).sum := by
    by_cases hr : right = []
    · subst hr; simp
    · exact centroid_minimises right hr _
  have happ := scatter_le_of_subperm (left ++ right) S (centroid S) hsub
  rw [List.map_append, List.sum_append] at happ
  have hkey : (left.length : ℚ) * variance left + (right.length : ℚ) * variance right ≤
      (S.length : ℚ) * variance S := by
    rw [hL, hR, hSv]
    linarith
  unfold objective_function
  have hrew : variance S - ((left.length : ℚ) / (S.length : ℚ) * variance left +
      (right.length : ℚ) / (S.length : ℚ) * variance right) =
      ((S.length : ℚ) * variance S - ((left.length : ℚ) * variance left +
        (right.length : ℚ) * variance right)) / (S.length : ℚ) := by
    field_simp
    ring
  simp only
  rw [hrew]
  exact div_nonneg (by linarith) hq.le

/-- Sending all of a non-empty `S` to the left (or to the right) gives the
objective `0`. -/
theorem objective_all_one_side (S : List LabeledPixel) (hS : S ≠ []) :
    objective_function S S [] = 0 ∧ objective_function S [] S = 0 := by
  have hq : (S.length : ℚ) ≠ 0 := by
    intro h
    exact hS (List.length_eq_zero.mp (Nat.cast_eq_zero.mp h))
  constructor
  · simp only [objective_function, List.length_nil, Nat.cast_zero, zero_div, zero_mul, add_zero]
    rw [div_self hq]
    ring
  · simp only [objective_function, List.length_nil, Nat.cast_zero, zero_div, zero_mul, zero_add]
    rw [div_self hq]
    ring

/-- C19 (evaluation at the failing input): with `S` made of `2 ^ 32 + 2`
samples labelled `(1, 0, 0)`, `left` the first `2 ^ 32 + 1` of them and `right`
empty, `left` and `right` are disjoint sub-collections of `S` and the
objective is negative. -/
theorem objective_negative_wrapped_size :
    (List.replicate (2 ^ 32 + 1) (sample_x 1) ++ []).Subperm
      (List.replicate (2 ^ 32 + 2) (sample_x 1)) ∧
    objective_function (List.replicate (2 ^ 32 + 2) (sample_x 1))
      (List.replicate (2 ^ 32 + 1) (sample_x 1)) [] < 0 := by
  constructor
  · rw [List.append_nil]
    exact (List.replicate_sublist_replicate (sample_x 1)).mpr (by norm_num) |>.subperm
  · simp only [objective_function, List.length_replicate, List.length_nil]
    rw [variance_replicate _ (by norm_num), variance_replicate _ (by norm_num)]
    norm_num [sample_x, sq_dist, variance]

/-! ## The candidate loop -/

theorem candidate_step_inv {D F R : Type} (c : Collaborators D F R) (settings : Settings)
    (data : D) (S : List LabeledPixel) (hS : S.length < 2 ^ 32) (i : ℕ) (ls : SplitState F R)
    (hlen : ls.candidate_params.length = i) (hinv : selection_inv c data S ls) :
    ∃ ls', candidate_step c settings data S i ls = some ls' ∧
      ls'.candidate_params = ls.candidate_params ++
        [(c.CreateRandom ls.random settings.image_width_ settings.image_height_).1] ∧
      ls'.random = (c.CreateRandom ls.random settings.image_width_ settings.image_height_).2 ∧
      selection_inv c data S ls' := by
  obtain ⟨hmin, hsel⟩ := hinv
  set f := (c.CreateRandom ls.random settings.image_width_ settings.image_height_).1 with hf
  have hget : (ls.candidate_params ++ [f])[i]? = some f := by
    rw [← hlen]
    simp
  have hold : ∀ j g, j < i → (ls.candidate_params ++ [f])[j]? = some g →
      ls.candidate_params[j]? = some g := by
    intro j g hj hg
    rwa [List.getElem?_append_left (by omega)] at hg
  have hnew : ∀ j g, (ls.candidate_params ++ [f])[j]? = some g →
      (j < i ∧ ls.candidate_params[j]? = some g) ∨ (j = i ∧ g = f) := by
    intro j g hg
    by_cases hj : j < i
    · exact Or.inl ⟨hj, hold j g hj hg⟩
    · right
      have hlt : j < (ls.candidate_params ++ [f]).length := by
        by_contra hcon
        rw [List.getElem?_eq_none (by omega)] at hg
        cases hg
      simp only [List.length_append, List.length_singleton] at hlt
      have hji : j = i := by omega
      subst hji
      rw [hget] at hg
      exact ⟨rfl, (Option.some.inj hg).symm⟩
  simp only [candidate_step, ← hf, hget, partition_eq_filter c data S f hS]
  by_cases hlt : candidate_objective c data S f < ls.minimum_objective
  · have hlt' : objective_function S
        (S.filter (fun p => eval_learner c data p f = OUT.LEFT))
        (S.filter (fun p => eval_learner c data p f = OUT.RIGHT)) < ls.minimum_objective := hlt
    rw [if_pos hlt']
    refine ⟨_, rfl, rfl, rfl, ?_, Or.inr ⟨f, hget, rfl, ?_, rfl, rfl, ?_⟩⟩
    · intro j g hg
      rcases hnew j g hg with ⟨_, hg'⟩ | ⟨_, rfl⟩
      · exact le_trans hlt.le (hmin j g hg')
      · exact le_refl _
    · rcases hsel with ⟨h1, _⟩ | ⟨_, _, _, h3, _⟩
      · exact h1 ▸ hlt
      · exact lt_trans hlt h3
    · intro j g hj hg
      exact lt_of_lt_of_le hlt (hmin j g (hold j g hj hg))
  · have hlt' : ¬ objective_function S
        (S.filter (fun p => eval_learner c data p f = OUT.LEFT))
        (S.filter (fun p => eval_learner c data p f = OUT.RIGHT)) < ls.minimum_objective := hlt
    rw [if_neg hlt']
    refine ⟨_, rfl, rfl, rfl, ?_, ?_⟩
    · intro j g hg
      rcases hnew j g hg with ⟨_, hg'⟩ | ⟨_, rfl⟩
      · exact hmin j g hg'
      · exact not_lt.mp hlt
    · rcases hsel with h | ⟨g, hg, h2, h3, h4, h5, h6⟩
      · exact Or.inl h
      · refine Or.inr ⟨g, ?_, h2, h3, h4, h5, ?_⟩
        · have hlt2 : ls.feature < ls.candidate_params.length := by
            by_contra hcon
            rw [List.getElem?_eq_none (by omega)] at hg
            cases hg
          show (ls.candidate_params ++ [f])[ls.feature]? = some g
          rw [List.getElem?_append_left hlt2]
          exact hg
        · intro j g' hj hg'
          have hlt2 : ls.feature < ls.candidate_params.length := by
            by_contra hcon
            rw [List.getElem?_eq_none (by omega)] at hg
            cases hg
          have hj' : j < ls.feature := hj
          exact h6 j g' hj' (hold j g' (by omega) hg')

theorem candidate_loop_inv {D F R : Type} (c : Collaborators D F R) (settings : Settings)
    (data : D) (S : List LabeledPixel) (hS : S.length < 2 ^ 32) :
    ∀ (n i : ℕ) (ls : SplitState F R), ls.candidate_params.length = i →
      selection_inv c data S ls →
      ∃ ls', candidate_loop c settings data S n i ls = some ls' ∧
        ls'.candidate_params.length = i + n ∧ selection_inv c data S ls' := by
  intro n
  induction n with
  | zero =>
    intro i ls hlen hinv
    exact ⟨ls, rfl, hlen, hinv⟩
  | succ n ih =>
    intro i ls hlen hinv
    obtain ⟨ls1, h1, hcp, _, hinv1⟩ := candidate_step_inv c settings data S hS i ls hlen hinv
    have hlen1 : ls1.candidate_params.length = i + 1 := by
      rw [hcp, List.length_append, hlen]
      rfl
    obtain ⟨ls', h2, hlen', hinv'⟩ := ih (i + 1) ls1 hlen1 hinv1
    refine ⟨ls', ?_, by omega, hinv'⟩
    simp only [candidate_loop, h1]
    exact h2

/-- On a sample set whose size fits the loop counter, the candidate loop of a
split step ends with five candidates and within `selection_inv`. -/
theorem split_candidates_selects {D F R : Type} (c : Collaborators D F R) (settings : Settings)
    (data : D) (S : List LabeledPixel) (hS : S.length < 2 ^ 32) (random : R) :
    ∃ ls, split_candidates c settings data S random = some ls ∧
      ls.candidate_params.length = 5 ∧ selection_inv c data S ls := by
  obtain ⟨ls, h, hlen, hinv⟩ := candidate_loop_inv c settings data S hS 5 0
    { candidate_params := [], random := random, feature := 0, minimum_objective := DBL_MAX,
      left_final := [], right_final := [] } rfl
    ⟨fun j f hj => by simp at hj, Or.inl ⟨rfl, rfl, rfl, rfl⟩⟩
  exact ⟨ls, h, by omega, hinv⟩

/-- When the objective of some drawn candidate is below `DBL_MAX`, the candidate
loop ends with `feature` at a drawn candidate whose objective is at most that
of every drawn candidate and strictly below that of every earlier one, and
with the partition this candidate makes of `S` in `left_final`,
`right_final`. -/
theorem winner_is_first_minimum {D F R : Type} (c : Collaborators D F R) (settings : Settings)
    (data : D) (S : List LabeledPixel) (hS : S.length < 2 ^ 32) (random : R)
    (ls : SplitState F R) (h : split_candidates c settings data S random = some ls)
    (hbelow : ∃ (j : ℕ) (f : F), ls.candidate_params[j]? = some f ∧
      candidate_objective c data S f < DBL_MAX) :
    ∃ f, ls.candidate_params[ls.feature]? = some f ∧
      (∀ (j : ℕ) (g : F), ls.candidate_params[j]? = some g →
        candidate_objective c data S f ≤ candidate_objective c data S g) ∧
      (∀ (j : ℕ) (g : F), j < ls.feature → ls.candidate_params[j]? = some g →
        candidate_objective c data S f < candidate_objective c data S g) ∧
      ls.left_final = S.filter (fun p => eval_learner c data p f = OUT.LEFT) ∧
      ls.right_final = S.filter (fun p => eval_learner c data p f = OUT.RIGHT) := by
  obtain ⟨ls0, h0, _, hmin, hsel⟩ := split_candidates_selects c settings data S hS random
  rw [h] at h0
  have hls : ls = ls0 := Option.some.inj h0
  subst hls
  obtain ⟨j, f, hjf, hlt⟩ := hbelow
  rcases hsel with ⟨h1, _⟩ | ⟨g, hg, h2, _, h4, h5, h6⟩
  · have := hmin j f hjf
    rw [h1] at this
    exact absurd hlt (not_lt.mpr this)
  · refine ⟨g, hg, ?_, ?_, h4, h5⟩
    · intro j' g' hg'
      rw [← h2]
      exact hmin j' g' hg'
    · intro j' g' hj' hg'
      rw [← h2]
      exact h6 j' g' hj' hg'

/-! ## The map of key counts -/

theorem map_increment_keys (m : List (Point3D × ℕ)) (p : Point3D) :
    (map_increment m p).map Prod.fst =
      if p ∈ m.map Prod.fst then m.map Prod.fst else m.map Prod.fst ++ [p] := by
  induction m with
  | nil => simp [map_increment]
  | cons e m ih =>
    obtain ⟨k, n⟩ := e
    by_cases hk : k = p
    · simp [map_increment, hk]
    · have hk' : ¬ p = k := fun h => hk h.symm
      by_cases hp : p ∈ m.map Prod.fst
      · simp only [map_increment, hk, if_false, List.map_cons, ih, hp, if_true, List.mem_cons,
          or_true]
      · simp only [map_increment, hk, if_false, List.map_cons, ih, hp, List.mem_cons, hk',
          or_self, List.cons_append]

theorem map_increment_mem_of_ne (m : List (Point3D × ℕ)) (p k : Point3D) (n : ℕ) (hk : k ≠ p) :
    (k, n) ∈ map_increment m p ↔ (k, n) ∈ m := by
  induction m with
  | nil =>
    simp only [map_increment, List.mem_singleton, Prod.mk.injEq, List.not_mem_nil, iff_false]
    exact fun h => hk h.1
  | cons e m ih =>
    obtain ⟨k', n'⟩ := e
    by_cases hk' : k' = p
    · subst hk'
      have hne : ¬ k = k' := hk
      simp [map_increment, hne]
    · simp only [map_increment, hk', if_false, List.mem_cons, ih]

theorem map_increment_mem_new (m : List (Point3D × ℕ)) (p : Point3D) (n : ℕ)
    (hp : p ∉ m.map Prod.fst) : (p, n) ∈ map_increment m p ↔ n = 1 := by
  induction m with
  | nil => simp [map_increment]
  | cons e m ih =>
    obtain ⟨k', n'⟩ := e
    simp only [List.map_cons, List.mem_cons, not_or] at hp
    have hk' : ¬ k' = p := fun h => hp.1 h.symm
    have hpk : ¬ p = k' := hp.1
    simp only [map_increment, hk', if_false, List.mem_cons, Prod.mk.injEq, hpk, false_and,
      false_or, ih hp.2]

theorem map_increment_mem_old (m : List (Point3D × ℕ)) (p : Point3D) (n0 n : ℕ)
    (hnd : (m.map Prod.fst).Nodup) (h0 : (p, n0) ∈ m) :
    (p, n) ∈ map_increment m p ↔ n = (n0 + 1) % 2 ^ 32 := by
  induction m with
  | nil => simp at h0
  | cons e m ih =>
    obtain ⟨k', n'⟩ := e
    simp only [List.map_cons, List.nodup_cons] at hnd
    by_cases hk' : k' = p
    · subst hk'
      have hnot : ∀ x, (k', x) ∉ m := by
        intro x hx
        exact hnd.1 (List.mem_map.mpr ⟨(k', x), hx, rfl⟩)
      have hn0 : n0 = n' := by
        rcases List.mem_cons.mp h0 with h | h
        · exact (Prod.mk.inj h).2
        · exact absurd h (hnot n0)
      subst hn0
      simp only [map_increment, if_true, List.mem_cons, Prod.mk.injEq, true_and, hnot,
        or_false]
    · have hpk : ¬ p = k' := fun h => hk' h.symm
      have h0' : (p, n0) ∈ m := by
        rcases List.mem_cons.mp h0 with h | h
        · exact absurd (Prod.mk.inj h).1 hpk
        · exact h
      simp only [map_increment, hk', if_false, List.mem_cons, Prod.mk.injEq, hpk, false_and,
        false_or, ih hnd.2 h0']

theorem counts_of_map_increment (m : List (Point3D × ℕ)) (l : List Point3D) (p : Point3D)
    (hinv : counts_of m l) (hlen : l.length + 1 < 2 ^ 32) :
    counts_of (map_increment m p) (l ++ [p]) := by
  obtain ⟨hnd, hmem⟩ := hinv
  have hkeys : ∀ k, k ∈ m.map Prod.fst ↔ 0 < l.count k := by
    intro k
    constructor
    · intro hk
      obtain ⟨⟨k', n⟩, he, rfl⟩ := List.mem_map.mp hk
      have hkn := (hmem k' n).mp he
      show 0 < l.count k'
      omega
    · intro hk
      exact List.mem_map.mpr ⟨(k, l.count k), (hmem k _).mpr ⟨rfl, hk⟩, rfl⟩
  refine ⟨?_, ?_⟩
  · rw [map_increment_keys]
    by_cases hp : p ∈ m.map Prod.fst
    · rw [if_pos hp]
      exact hnd
    · rw [if_neg hp]
      exact List.Nodup.append hnd (List.nodup_singleton p)
        (by
          intro a ha hb
          rw [List.mem_singleton] at hb
          exact hp (hb ▸ ha))
  · intro k n
    by_cases hk : k = p
    · subst hk
      have hc : (l ++ [k]).count k = l.count k + 1 := by
        simp
      by_cases hp : k ∈ m.map Prod.fst
      · have hpos := (hkeys k).mp hp
        have h0 : (k, l.count k) ∈ m := (hmem k _).mpr ⟨rfl, hpos⟩
        rw [map_increment_mem_old m k (l.count k) n hnd h0, hc]
        have hle : l.count k ≤ l.length := List.count_le_length _ _
        rw [Nat.mod_eq_of_lt (by omega)]
        omega
      · have hzero : l.count k = 0 := by
          by_contra hne
          exact hp ((hkeys k).mpr (Nat.pos_of_ne_zero hne))
        rw [map_increment_mem_new m k n hp, hc, hzero]
        omega
    · have hc : (l ++ [p]).count k = l.count k := by
        have hpk : ¬ p = k := fun h => hk h.symm
        simp [List.count_singleton, hpk]
      rw [map_increment_mem_of_ne m p k n hk, hc]
      exact hmem k n

theorem counts_of_foldl (l2 : List Point3D) :
    ∀ (l1 : List Point3D) (m : List (Point3D × ℕ)), counts_of m l1 →
      (l1 ++ l2).length < 2 ^ 32 → counts_of (l2.foldl map_increment m) (l1 ++ l2) := by
  induction l2 with
  | nil =>
    intro l1 m hinv _
    simpa using hinv
  | cons p ps ih =>
    intro l1 m hinv hlen
    have hlen' : l1.length + 1 < 2 ^ 32 := by
      simp only [List.length_append, List.length_cons] at hlen
      omega
    have h1 := counts_of_map_increment m l1 p hinv hlen'
    have h2 := ih (l1 ++ [p]) (map_increment m p) h1 (by simpa using hlen)
    simpa using h2

theorem counts_of_nil : counts_of [] [] := by
  refine ⟨by simp, ?_⟩
  intro k n
  simp

/-! ## The mode among the counted keys -/

theorem find_mode_spec (es : List (Point3D × ℕ)) :
    ∀ mode : Point3D × ℕ,
      (find_mode es mode = mode ∨ find_mode es mode ∈ es) ∧
      mode.2 ≤ (find_mode es mode).2 ∧
      ∀ e ∈ es, e.2 ≤ (find_mode es mode).2 := by
  induction es with
  | nil =>
    intro mode
    simp [find_mode]
  | cons h hs ih =>
    intro mode
    simp only [find_mode]
    obtain ⟨h1, h2, h3⟩ := ih (if h.2 > mode.2 then h else mode)
    by_cases hgt : h.2 > mode.2
    · simp only [hgt, if_true] at h1 h2 h3 ⊢
      refine ⟨Or.inr ?_, by omega, ?_⟩
      · rcases h1 with h1 | h1
        · rw [h1]
          exact List.mem_cons_self _ _
        · exact List.mem_cons_of_mem _ h1
      · intro e he
        rcases List.mem_cons.mp he with rfl | he
        · exact h2
        · exact h3 e he
    · simp only [hgt, if_false] at h1 h2 h3 ⊢
      refine ⟨?_, h2, ?_⟩
      · rcases h1 with h1 | h1
        · exact Or.inl h1
        · exact Or.inr (List.mem_cons_of_mem _ h1)
      · intro e he
        rcases List.mem_cons.mp he with rfl | he
        · omega
        · exact h3 e he

/-- The mode found among the counted keys of a non-empty list of fewer than
`2 ^ 32` keys is a key of the list whose number of occurrences is largest. -/
theorem find_mode_most_frequent {D F R : Type} (c : Collaborators D F R) (keys : List Point3D)
    (hne : keys ≠ []) (hlen : keys.length < 2 ^ 32) :
    (find_mode (c.map_order (keys.foldl map_increment [])) (⟨0, 0, 0⟩, 0)).1 ∈ keys ∧
    ∀ k ∈ keys, keys.count k ≤
      keys.count (find_mode (c.map_order (keys.foldl map_increment [])) (⟨0, 0, 0⟩, 0)).1 := by
  have hinv := counts_of_foldl keys [] [] counts_of_nil (by simpa using hlen)
  simp only [List.nil_append] at hinv
  obtain ⟨_, hmem⟩ := hinv
  set m := keys.foldl map_increment [] with hm
  have hperm := c.map_order_perm m
  obtain ⟨h1, _, h3⟩ := find_mode_spec (c.map_order m) (⟨0, 0, 0⟩, 0)
  set r := find_mode (c.map_order m) (⟨0, 0, 0⟩, 0) with hr
  have hin : ∀ k ∈ keys, (k, keys.count k) ∈ c.map_order m := by
    intro k hk
    exact hperm.mem_iff.mpr ((hmem k _).mpr ⟨rfl, List.count_pos_iff.mpr hk⟩)
  obtain ⟨k0, hk0⟩ := List.exists_mem_of_ne_nil keys hne
  have hpos : 0 < r.2 := lt_of_lt_of_le (List.count_pos_iff.mpr hk0) (h3 _ (hin k0 hk0))
  have hrm : r ∈ m := by
    rcases h1 with h1 | h1
    · rw [h1] at hpos
      exact absurd hpos (lt_irrefl 0)
    · exact hperm.mem_iff.mp h1
  have hrc := (hmem r.1 r.2).mp hrm
  refine ⟨List.count_pos_iff.mp (hrc.1 ▸ hrc.2), ?_⟩
  intro k hk
  rw [← hrc.1]
  exact h3 _ (hin k hk)

theorem subsample_size (n : ℕ) : (if n < 500 then n else 500) = min n 500 := by
  by_cases h : n < 500
  · rw [if_pos h, Nat.min_eq_left (by omega)]
  · rw [if_neg h, Nat.min_eq_right (by omega)]

/-- C14: when `train_recurse` makes a node a leaf on `S`, the clustering is
given the first `min(|S|, 500)` labels of `S` in order; each returned centre
is floored to four decimals per axis; and, when at least one centre is
returned (fewer than `2 ^ 32`, so that the `uint32_t` counts are the numbers of
occurrences), the stored mode is one of these keys, with a number of
occurrences at least that of every key. -/
theorem leaf_mode_is_most_frequent_key {D F R : Type} (c : Collaborators D F R)
    (settings : Settings) (data : D) (fuel node : ℕ) (S : List LabeledPixel)
    (st : TreeState F R) (t : ℕ) (n : Node F)
    (ht : traverse_to_root st.heap st.next (some node) = some t)
    (hleaf : S.length = 1 ∨ t % 2 ^ 16 ≥ settings.max_tree_depth_)
    (hn : st.heap node = some n)
    (hne : c.cluster ((S.take (min S.length 500)).map
      (fun p => (p.label_.x, p.label_.y, p.label_.z))) (1 / 100) ≠ [])
    (hlen : (c.cluster ((S.take (min S.length 500)).map
      (fun p => (p.label_.x, p.label_.y, p.label_.z))) (1 / 100)).length < 2 ^ 32) :
    ∃ st' n' key, train_recurse c settings data (fuel + 1) node S st = some st' ∧
      st'.heap node = some n' ∧ n'.is_leaf_ = true ∧
      key ∈ (c.cluster ((S.take (min S.length 500)).map
          (fun p => (p.label_.x, p.label_.y, p.label_.z))) (1 / 100)).map
        (fun ctr => (⟨(⌊ctr.1 * 10000⌋ : ℚ) / 10000, (⌊ctr.2.1 * 10000⌋ : ℚ) / 10000,
          (⌊ctr.2.2 * 10000⌋ : ℚ) / 10000⟩ : Point3D)) ∧
      n'.mode_ = some ⟨key.x, key.y, key.z⟩ ∧
      ∀ k ∈ (c.cluster ((S.take (min S.length 500)).map
          (fun p => (p.label_.x, p.label_.y, p.label_.z))) (1 / 100)).map
        (fun ctr => (⟨(⌊ctr.1 * 10000⌋ : ℚ) / 10000, (⌊ctr.2.1 * 10000⌋ : ℚ) / 10000,
          (⌊ctr.2.2 * 10000⌋ : ℚ) / 10000⟩ : Point3D)),
        ((c.cluster ((S.take (min S.length 500)).map
          (fun p => (p.label_.x, p.label_.y, p.label_.z))) (1 / 100)).map
        (fun ctr => (⟨(⌊ctr.1 * 10000⌋ : ℚ) / 10000, (⌊ctr.2.1 * 10000⌋ : ℚ) / 10000,
          (⌊ctr.2.2 * 10000⌋ : ℚ) / 10000⟩ : Point3D))).count k ≤
        ((c.cluster ((S.take (min S.length 500)).map
          (fun p => (p.label_.x, p.label_.y, p.label_.z))) (1 / 100)).map
        (fun ctr => (⟨(⌊ctr.1 * 10000⌋ : ℚ) / 10000, (⌊ctr.2.1 * 10000⌋ : ℚ) / 10000,
          (⌊ctr.2.2 * 10000⌋ : ℚ) / 10000⟩ : Point3D))).count key := by
  have hq : (fun ctr : ℚ × ℚ × ℚ => (⟨(⌊ctr.1 * 10000⌋ : ℚ) / 10000,
      (⌊ctr.2.1 * 10000⌋ : ℚ) / 10000, (⌊ctr.2.2 * 10000⌋ : ℚ) / 10000⟩ : Point3D)) = quantize :=
    rfl
  rw [hq]
  set keys := (c.cluster ((S.take (min S.length 500)).map
    (fun p => (p.label_.x, p.label_.y, p.label_.z))) (1 / 100)).map quantize with hkeys
  have hkne : keys ≠ [] := by
    intro h
    exact hne (List.map_eq_nil_iff.mp h)
  have hklen : keys.length < 2 ^ 32 := by
    rw [hkeys, List.length_map]
    exact hlen
  obtain ⟨h1, h2⟩ := find_mode_most_frequent c keys hkne hklen
  have hmode : leaf_mode c S =
      ⟨(find_mode (c.map_order (keys.foldl map_increment [])) (⟨0, 0, 0⟩, 0)).1.x,
       (find_mode (c.map_order (keys.foldl map_increment [])) (⟨0, 0, 0⟩, 0)).1.y,
       (find_mode (c.map_order (keys.foldl map_increment [])) (⟨0, 0, 0⟩, 0)).1.z⟩ := by
    simp only [leaf_mode, subsample_size, hkeys]
  rw [train_recurse_leaf_eq c settings data fuel node S st t n ht hleaf hn, hmode]
  refine ⟨_, { n with is_leaf_ := true, mode_ := some _ }, _, rfl, ?_, rfl, h1, rfl, h2⟩
  simp [make_leaf, heap_set]

/-- The statement of C14 at the root of a new tree with depth limit `0`, on
three samples with the labels `(1, 0, 0)`, `(1, 0, 0)`, `(3, 0, 0)` and a
clustering that returns its input. -/
theorem leaf_mode_is_most_frequent_key_witness :
    ∃ st' n' key, train_recurse threshold_two ⟨0, 640, 480⟩ () (0 + 1) 0
        [sample_x 1, sample_x 1, sample_x 3] (Tree_init (F := ℕ) (0 : ℕ)) = some st' ∧
      st'.heap 0 = some n' ∧ n'.is_leaf_ = true ∧
      key ∈ (threshold_two.cluster
          (([sample_x 1, sample_x 1, sample_x 3].take
            (min [sample_x 1, sample_x 1, sample_x 3].length 500)).map
          (fun p => (p.label_.x, p.label_.y, p.label_.z))) (1 / 100)).map
        (fun ctr => (⟨(⌊ctr.1 * 10000⌋ : ℚ) / 10000, (⌊ctr.2.1 * 10000⌋ : ℚ) / 10000,
          (⌊ctr.2.2 * 10000⌋ : ℚ) / 10000⟩ : Point3D)) ∧
      n'.mode_ = some ⟨key.x, key.y, key.z⟩ ∧
      ∀ k ∈ (threshold_two.cluster
          (([sample_x 1, sample_x 1, sample_x 3].take
            (min [sample_x 1, sample_x 1, sample_x 3].length 500)).map
          (fun p => (p.label_.x, p.label_.y, p.label_.z))) (1 / 100)).map
        (fun ctr => (⟨(⌊ctr.1 * 10000⌋ : ℚ) / 10000, (⌊ctr.2.1 * 10000⌋ : ℚ) / 10000,
          (⌊ctr.2.2 * 10000⌋ : ℚ) / 10000⟩ : Point3D)),
        ((threshold_two.cluster
          (([sample_x 1, sample_x 1, sample_x 3].take
            (min [sample_x 1, sample_x 1, sample_x 3].length 500)).map
          (fun p => (p.label_.x, p.label_.y, p.label_.z))) (1 / 100)).map
        (fun ctr => (⟨(⌊ctr.1 * 10000⌋ : ℚ) / 10000, (⌊ctr.2.1 * 10000⌋ : ℚ) / 10000,
          (⌊ctr.2.2 * 10000⌋ : ℚ) / 10000⟩ : Point3D))).count k ≤
        ((threshold_two.cluster
          (([sample_x 1, sample_x 1, sample_x 3].take
            (min [sample_x 1, sample_x 1, sample_x 3].length 500)).map
          (fun p => (p.label_.x, p.label_.y, p.label_.z))) (1 / 100)).map
        (fun ctr => (⟨(⌊ctr.1 * 10000⌋ : ℚ) / 10000, (⌊ctr.2.1 * 10000⌋ : ℚ) / 10000,
          (⌊ctr.2.2 * 10000⌋ : ℚ) / 10000⟩ : Point3D))).count key :=
  leaf_mode_is_most_frequent_key threshold_two ⟨0, 640, 480⟩ () 0 0
    [sample_x 1, sample_x 1, sample_x 3] (Tree_init 0) 1 Node.fresh (traverse_to_root_init 0)
    (Or.inr (Nat.zero_le _)) (by simp [Tree_init, heap_set]) (by simp [threshold_two])
    (by simp [threshold_two])

/-! ## Split steps -/

/-- A call of `train_recurse` on an empty sample set returns: the node becomes
a leaf when its height has reached the limit, and is deleted otherwise. -/
theorem train_recurse_nil {D F R : Type} (c : Collaborators D F R) (settings : Settings)
    (data : D) (fuel node : ℕ) (st : TreeState F R) (t : ℕ) (n : Node F)
    (ht : traverse_to_root st.heap st.next (some node) = some t)
    (hn : st.heap node = some n) :
    train_recurse c settings data (fuel + 1) node [] st =
      some (if t % 2 ^ 16 ≥ settings.max_tree_depth_ then make_leaf st node n (leaf_mode c [])
        else delete_node st node) := by
  by_cases hh : t % 2 ^ 16 ≥ settings.max_tree_depth_
  · rw [if_pos hh]
    exact train_recurse_leaf_eq c settings data fuel node [] st t n ht (Or.inr hh) hn
  · rw [if_neg hh]
    exact train_recurse_empty_eq c settings data fuel node st t ht (by omega)

/-- A returning call of `train_recurse` that took neither the leaf nor the
empty branch leaves the node marked split, not leaf, with a feature. -/
theorem train_recurse_marks_split {D F R : Type} (c : Collaborators D F R)
    (settings : Settings) (data : D) (fuel node : ℕ) (S : List LabeledPixel)
    (st st' : TreeState F R) (t : ℕ) (hnode : node < st.next)
    (ht : traverse_to_root st.heap st.next (some node) = some t)
    (hleaf : ¬ (S.length = 1 ∨ t % 2 ^ 16 ≥ settings.max_tree_depth_)) (hS : S.length ≠ 0)
    (h : train_recurse c settings data (fuel + 1) node S st = some st') :
    ∃ n' feat, st'.heap node = some n' ∧ n'.is_split_ = true ∧ n'.is_leaf_ = false ∧
      n'.feature_ = some feat := by
  obtain ⟨t', ht', hc⟩ := train_recurse_cases c settings data fuel node S st st' hnode h
  rw [ht] at ht'
  have htt : t = t' := Option.some.inj ht'
  subst htt
  rcases hc with ⟨hl, _⟩ | ⟨_, h0, _⟩ |
    ⟨_, _, n, ls, feat, st2, hn, _, _, hst2, n2, r, hn2, hr, hst'⟩
  · exact absurd hl hleaf
  · exact absurd h0 hS
  · have hnext1 := attach_children_next st node n feat ls.random
    obtain ⟨a1, b1, _, _, _⟩ := train_recurse_frame c settings data fuel st.next
      ls.left_final _ st2 (by rw [hnext1]; omega) hst2
    rw [hnext1] at a1 b1
    have hnode2 : st2.heap node = (attach_children st node n feat ls.random).heap node :=
      b1 node (by omega) (by omega)
    rw [attach_children_heap_node st node n feat ls.random hnode] at hnode2
    have hr' : r = st.next + 1 := by
      rw [hn2] at hnode2
      have h2 := Option.some.inj hnode2
      rw [h2] at hr
      exact (Option.some.inj hr).symm
    subst hr'
    obtain ⟨_, b2, _, _, _⟩ := train_recurse_frame c settings data fuel (st.next + 1)
      ls.right_final st2 st' (by omega) hst'
    refine ⟨{ n with is_split_ := true, is_leaf_ := false, feature_ := some feat,
                     left_ := some st.next, right_ := some (st.next + 1) }, feat, ?_, rfl, rfl,
      rfl⟩
    rw [b2 node (by omega) (by omega), hnode2]

theorem partition_all_trash {D F R : Type} (c : Collaborators D F R) (data : D)
    (S : List LabeledPixel) (f : F) (htrash : ∀ p ∈ S, eval_learner c data p f = OUT.TRASH)
    (left_data right_data : List LabeledPixel)
    (h : partition c data S f = some (left_data, right_data)) :
    left_data = [] ∧ right_data = [] := by
  by_cases hS : S.length < 2 ^ 32
  · rw [partition_eq_filter c data S f hS] at h
    have hl : S.filter (fun p => eval_learner c data p f = OUT.LEFT) = [] := by
      rw [List.filter_eq_nil_iff]
      intro p hp
      simp [htrash p hp]
    have hr : S.filter (fun p => eval_learner c data p f = OUT.RIGHT) = [] := by
      rw [List.filter_eq_nil_iff]
      intro p hp
      simp [htrash p hp]
    rw [hl, hr] at h
    have := Option.some.inj h
    exact ⟨(congrArg Prod.fst this).symm, (congrArg Prod.snd this).symm⟩
  · have hw := partition_loop_wraps c data S f (by omega) (S.length + 1) 0 [] [] (by norm_num)
    unfold partition at h
    rw [hw] at h
    cases h

theorem objective_no_subsets (S : List LabeledPixel) :
    objective_function S [] [] = variance S := by
  simp [objective_function, variance]

/-- A split step whose winner leaves both final lists empty returns: each
child is finished at once, as a leaf or by deletion. -/
theorem train_recurse_split_empty_finals {D F R : Type} (c : Collaborators D F R)
    (settings : Settings) (data : D) (fuel node : ℕ) (S : List LabeledPixel)
    (st : TreeState F R) (t : ℕ) (n : Node F) (ls : SplitState F R) (feat : F)
    (hnode : node < st.next) (hpb : parents_below st.heap)
    (ht : traverse_to_root st.heap st.next (some node) = some t)
    (hleaf : ¬ (S.length = 1 ∨ t % 2 ^ 16 ≥ settings.max_tree_depth_)) (hS : S.length ≠ 0)
    (hn : st.heap node = some n)
    (hls : split_candidates c settings data S st.random = some ls)
    (hfeat : ls.candidate_params[ls.feature]? = some feat)
    (hl : ls.left_final = []) (hr : ls.right_final = []) :
    ∃ st', train_recurse c settings data (fuel + 2) node S st = some st' := by
  have hl_t := traverse_to_root_left_child st node n feat ls.random t hnode hn hpb ht
  obtain ⟨st2, hst2⟩ : ∃ st2, train_recurse c settings data (fuel + 1) st.next []
      (attach_children st node n feat ls.random) = some st2 :=
    ⟨_, train_recurse_nil c settings data fuel st.next _ _ _ hl_t
      (attach_children_heap_left st node n feat ls.random)⟩
  have hnext1 := attach_children_next st node n feat ls.random
  have hframe := train_recurse_frame c settings data (fuel + 1) st.next [] _ st2
    (by rw [hnext1]; omega) hst2
  have hb1 := hframe.2.1
  have ha1 := hframe.1
  rw [hnext1] at hb1 ha1
  have hn2 := hb1 node (by omega) (by omega)
  rw [attach_children_heap_node st node n feat ls.random hnode] at hn2
  have hr2 := hb1 (st.next + 1) (by omega) (by omega)
  rw [attach_children_heap_right] at hr2
  have hr_t := traverse_to_root_right_child st st2 node n feat ls.random t hnode hn hpb ht
    hframe
  have hst3 := train_recurse_nil c settings data fuel (st.next + 1) st2 _ _ hr_t hr2
  rw [← hl] at hst2
  have heq := train_recurse_split_eq c settings data (fuel + 1) node S st st2 t n _ ls feat
    (st.next + 1) hnode ht hleaf hS hn hls hfeat hst2 hn2 rfl
  rw [hr] at heq
  exact ⟨_, heq.trans hst3⟩

theorem candidate_step_params {D F R : Type} (c : Collaborators D F R) (settings : Settings)
    (data : D) (S : List LabeledPixel) (i : ℕ) (ls ls' : SplitState F R)
    (h : candidate_step c settings data S i ls = some ls') :
    ls'.candidate_params = ls.candidate_params ++
        [(c.CreateRandom ls.random settings.image_width_ settings.image_height_).1] ∧
      ls'.random = (c.CreateRandom ls.random settings.image_width_ settings.image_height_).2 := by
  unfold candidate_step at h
  simp only [] at h
  split at h
  · cases h
  · split at h
    · cases h
    · split at h
      · cases h
        exact ⟨rfl, rfl⟩
      · cases h
        exact ⟨rfl, rfl⟩

theorem candidate_loop_params {D F R : Type} (c : Collaborators D F R) (settings : Settings)
    (data : D) (S : List LabeledPixel) :
    ∀ (n i : ℕ) (ls ls' : SplitState F R), candidate_loop c settings data S n i ls = some ls' →
      ls'.candidate_params = ls.candidate_params ++ draw_candidates c settings n ls.random := by
  intro n
  induction n with
  | zero =>
    intro i ls ls' h
    simp only [candidate_loop] at h
    rw [← Option.some.inj h]
    simp [draw_candidates]
  | succ n ih =>
    intro i ls ls' h
    simp only [candidate_loop] at h
    split at h
    · cases h
    · rename_i ls1 h1
      obtain ⟨hp, hr⟩ := candidate_step_params c settings data S i ls ls1 h1
      rw [ih (i + 1) ls1 ls' h, hp, hr]
      simp [draw_candidates]

/-- The candidates of a split step are the five draws from the random state
the step starts with. -/
theorem split_candidates_params {D F R : Type} (c : Collaborators D F R) (settings : Settings)
    (data : D) (S : List LabeledPixel) (random : R) (ls : SplitState F R)
    (h : split_candidates c settings data S random = some ls) :
    ls.candidate_params = draw_candidates c settings 5 random := by
  have := candidate_loop_params c settings data S 5 0 _ ls h
  simpa using this

/-! ## Calls do not touch the cell of a bystander -/

theorem traverse_to_root_heap_set {F : Type} (heap : ℕ → Option (Node F)) (a : ℕ)
    (v : Option (Node F)) (hcl : childless heap a) :
    ∀ (f x : ℕ), x ≠ a →
      traverse_to_root (heap_set heap a v) f (some x) = traverse_to_root heap f (some x) := by
  intro f
  induction f with
  | zero => intro x _; rfl
  | succ f ih =>
    intro x hx
    have hcell : heap_set heap a v x = heap x := by simp [heap_set, hx]
    cases hh : heap x with
    | none => simp only [traverse_to_root, hcell, hh]
    | some n =>
      rw [traverse_to_root_step _ f x n (hcell.trans hh), traverse_to_root_step _ f x n hh]
      cases hp : n.parent_ with
      | none => cases f <;> simp only [traverse_to_root]
      | some p =>
        have hpa : p ≠ a := by
          intro h
          exact hcl x n hh (h ▸ hp)
        rw [ih p hpa]

theorem heap_set_comm {F : Type} (heap : ℕ → Option (Node F)) (a b : ℕ)
    (v w : Option (Node F)) (hab : a ≠ b) :
    heap_set (heap_set heap a v) b w = heap_set (heap_set heap b w) a v := by
  funext x
  by_cases h1 : x = a
  · subst h1
    simp [heap_set, hab]
  · by_cases h2 : x = b
    · subst h2
      simp [heap_set, h1]
    · simp [heap_set, h1, h2]

theorem make_leaf_set_cell {F R : Type} (st : TreeState F R) (x a : ℕ) (n : Node F)
    (mode : Point3) (v : Option (Node F)) (hax : a ≠ x) :
    make_leaf (set_cell st a v) x n mode = set_cell (make_leaf st x n mode) a v := by
  simp only [make_leaf, set_cell, heap_set_comm st.heap a x v _ hax]

theorem delete_node_set_cell {F R : Type} (st : TreeState F R) (x a : ℕ)
    (v : Option (Node F)) (hax : a ≠ x) :
    delete_node (set_cell st a v) x = set_cell (delete_node st x) a v := by
  simp only [delete_node, set_cell, heap_set_comm st.heap a x v _ hax]

theorem attach_children_set_cell {F R : Type} (st : TreeState F R) (x a : ℕ) (n : Node F)
    (feat : F) (random : R) (v : Option (Node F)) (hax : a ≠ x) (ha : a < st.next) :
    attach_children (set_cell st a v) x n feat random =
      set_cell (attach_children st x n feat random) a v := by
  have h1 : a ≠ st.next := by omega
  have h2 : a ≠ st.next + 1 := by omega
  simp only [attach_children, set_cell]
  rw [heap_set_comm st.heap a x v _ hax, heap_set_comm _ a st.next v _ h1,
    heap_set_comm _ a (st.next + 1) v _ h2]

theorem childless_of_frame {F R : Type} (st st' : TreeState F R) (node y : ℕ)
    (hf : frame st st' node) (hy : y < st.next) (hyn : y ≠ node)
    (hlive : ∀ x m, st.heap x = some m → x < st.next)
    (hcl : childless st.heap y) : childless st'.heap y := by
  obtain ⟨a1, b1, c1, d1, e1⟩ := hf
  intro x m hx hp
  by_cases h1 : x = node
  · subst h1
    obtain ⟨n, hn, hpar⟩ := d1 m hx
    exact hcl x n hn (hpar ▸ hp)
  · by_cases h2 : x < st.next
    · rw [b1 x h2 h1] at hx
      exact hcl x m hx hp
    · by_cases h3 : x < st'.next
      · obtain ⟨q, hq, hq1, _⟩ := e1 x m (by omega) h3 hx
        rw [hq] at hp
        have := Option.some.inj hp
        rcases hq1 with hq1 | hq1 <;> omega
      · rw [c1 x (by omega)] at hx
        have := hlive x m hx
        omega

theorem live_of_frame {F R : Type} (st st' : TreeState F R) (node : ℕ)
    (hf : frame st st' node) (hlive : ∀ x m, st.heap x = some m → x < st.next) :
    ∀ x m, st'.heap x = some m → x < st'.next := by
  obtain ⟨a1, _, c1, _, _⟩ := hf
  intro x m hx
  by_contra hlt
  rw [c1 x (by omega)] at hx
  have := hlive x m hx
  omega

theorem live_attach_children {F R : Type} (st : TreeState F R) (node : ℕ) (n : Node F)
    (feat : F) (random : R) (hnode : node < st.next) (hn : st.heap node = some n)
    (hlive : ∀ x m, st.heap x = some m → x < st.next) :
    ∀ x m, (attach_children st node n feat random).heap x = some m →
      x < (attach_children st node n feat random).next := by
  intro x m hx
  rw [attach_children_next]
  rcases attach_children_live st node n feat random hnode hn x m hx with h | h | h
  · omega
  · omega
  · obtain ⟨_, _, m', hm', _⟩ := h
    have := hlive x m' hm'
    omega

/-- A call of `train_recurse` on `x` neither reads nor writes the cell of a
node `a` that is older than the call, is not `x` and is nobody's parent:
replacing the content of that cell before the call or after it gives the same
state, and the call returns in the one case exactly when it does in the
other. -/
theorem train_recurse_set_cell {D F R : Type} (c : Collaborators D F R) (settings : Settings)
    (data : D) (a : ℕ) (v : Option (Node F)) :
    ∀ (fuel x : ℕ) (S : List LabeledPixel) (st : TreeState F R),
      x < st.next → a < st.next → a ≠ x → childless st.heap a →
      (∀ y m, st.heap y = some m → y < st.next) →
      train_recurse c settings data fuel x S (set_cell st a v) =
        (train_recurse c settings data fuel x S st).map (fun st' => set_cell st' a v) := by
  intro fuel
  induction fuel with
  | zero =>
    intro x S st _ _ _ _ _
    rfl
  | succ fuel ih =>
    intro x S st hx ha hax hcl hlive
    have hxa : x ≠ a := fun h => hax h.symm
    have htr : traverse_to_root (set_cell st a v).heap (set_cell st a v).next (some x) =
        traverse_to_root st.heap st.next (some x) :=
      traverse_to_root_heap_set st.heap a v hcl st.next x hxa
    have hcell : (set_cell st a v).heap x = st.heap x := by simp [set_cell, heap_set, hxa]
    have hrand : (set_cell st a v).random = st.random := rfl
    unfold train_recurse
    rw [htr, hcell, hrand]
    cases ht : traverse_to_root st.heap st.next (some x) with
    | none => rfl
    | some t =>
      simp only []
      by_cases hleaf : S.length = 1 ∨ t % 2 ^ 16 ≥ settings.max_tree_depth_
      · simp only [if_pos hleaf]
        cases hn : st.heap x with
        | none => rfl
        | some n => simp only [Option.map_some', make_leaf_set_cell st x a n _ v hax]
      · simp only [if_neg hleaf]
        by_cases hS : S.length = 0
        · simp only [if_pos hS, Option.map_some', delete_node_set_cell st x a v hax]
        · simp only [if_neg hS]
          cases hn : st.heap x with
          | none => rfl
          | some n =>
            simp only []
            cases hsp : split_candidates c settings data S st.random with
            | none => rfl
            | some ls =>
              simp only []
              cases hfeat : ls.candidate_params[ls.feature]? with
              | none => rfl
              | some feat =>
                simp only []
                rw [attach_children_set_cell st x a n feat ls.random v hax ha]
                have hnext : (attach_children st x n feat ls.random).next = st.next + 2 :=
                  attach_children_next st x n feat ls.random
                have h1x : (set_cell (attach_children st x n feat ls.random) a v).heap x =
                    (attach_children st x n feat ls.random).heap x := by
                  simp [set_cell, heap_set, hxa]
                have hlive1 := live_attach_children st x n feat ls.random hx hn hlive
                have hcl1 := childless_attach_children st x n feat ls.random a hx hn hax hcl
                rw [h1x, attach_children_heap_node st x n feat ls.random hx]
                simp only []
                rw [ih st.next ls.left_final (attach_children st x n feat ls.random)
                  (by omega) (by omega) (by omega) hcl1 hlive1]
                cases h2 : train_recurse c settings data fuel st.next ls.left_final
                    (attach_children st x n feat ls.random) with
                | none => rfl
                | some st2 =>
                  simp only [Option.map_some']
                  have hfr := train_recurse_frame c settings data fuel st.next ls.left_final
                    _ st2 (by omega) h2
                  have h2x : (set_cell st2 a v).heap x = st2.heap x := by
                    simp [set_cell, heap_set, hxa]
                  have h2n := hfr.2.1 x (by omega) (by omega)
                  rw [attach_children_heap_node st x n feat ls.random hx] at h2n
                  rw [h2x, h2n]
                  simp only []
                  have hle := hfr.1
                  exact ih (st.next + 1) ls.right_final st2 (by omega) (by omega) (by omega)
                    (childless_of_frame _ st2 st.next a hfr (by omega) (by omega) hlive1 hcl1)
                    (live_of_frame _ st2 st.next hfr hlive1)

/-! ## The order of the two recursive calls -/

/-- The split branch of `train_recurse` ends with `grow_left_then_right`. -/
theorem train_recurse_split_grow {D F R : Type} (c : Collaborators D F R) (settings : Settings)
    (data : D) (fuel node : ℕ) (S : List LabeledPixel) (st : TreeState F R) (t : ℕ)
    (n : Node F) (ls : SplitState F R) (feat : F)
    (ht : traverse_to_root st.heap st.next (some node) = some t)
    (hleaf : ¬ (S.length = 1 ∨ t % 2 ^ 16 ≥ settings.max_tree_depth_))
    (hS : S.length ≠ 0) (hn : st.heap node = some n)
    (hsp : split_candidates c settings data S st.random = some ls)
    (hfeat : ls.candidate_params[ls.feature]? = some feat) :
    train_recurse c settings data (fuel + 1) node S st =
      grow_left_then_right c settings data fuel node ls.left_final ls.right_final
        (attach_children st node n feat ls.random) := by
  unfold train_recurse
  simp only [ht, if_neg hleaf, if_neg hS, hn, hsp, hfeat, grow_left_then_right]

theorem frame_refl {F R : Type} (st : TreeState F R) (node : ℕ) : frame st st node := by
  refine ⟨le_refl _, fun _ _ _ => rfl, fun _ _ => rfl, fun n' h => ⟨n', h, rfl⟩, ?_⟩
  intro x n' h1 h2 _
  omega

/-- The value of `traverse_to_root` at a new child, after a recursive call on
the other child, is one more (in `uint32_t`) than it was at the split node. -/
theorem traverse_to_root_child_after {F R : Type} (st st2 : TreeState F R) (node : ℕ)
    (n : Node F) (feat : F) (random : R) (t child other : ℕ) (hnode : node < st.next)
    (hn : st.heap node = some n) (hpb : parents_below st.heap)
    (ht : traverse_to_root st.heap st.next (some node) = some t)
    (hchild : child = st.next ∨ child = st.next + 1) (hother : st.next ≤ other)
    (hne : child ≠ other)
    (hf : frame (attach_children st node n feat random) st2 other) :
    traverse_to_root st2.heap st2.next (some child) = some ((1 + t) % 2 ^ 32) := by
  obtain ⟨a1, b1, _, _, _⟩ := hf
  rw [attach_children_next] at a1 b1
  obtain ⟨k, hk⟩ : ∃ k, st2.next = k + 1 := ⟨st2.next - 1, by omega⟩
  have hr : st2.heap child = some { Node.fresh with parent_ := some node } := by
    rw [b1 _ (by omega) hne]
    rcases hchild with h | h
    · rw [h, attach_children_heap_left]
    · rw [h, attach_children_heap_right]
  have hcongr := traverse_to_root_congr st.heap st2.heap hpb k node
    (fun x hx => by
      rw [b1 x (by omega) (by omega)]
      exact attach_children_parent_agree st node n feat random hnode hn x (by omega))
  rw [traverse_to_root_mono st.heap _ _ _ ht k (by omega)] at hcongr
  rw [hk, traverse_to_root_step _ k _ _ hr]
  simp only [Node.fresh, hcongr]

theorem childless_fresh_child {F R : Type} (st : TreeState F R) (node : ℕ) (n : Node F)
    (feat : F) (random : R) (y : ℕ) (hnode : node < st.next) (hn : st.heap node = some n)
    (hpb : parents_below st.heap) (hlive : ∀ x m, st.heap x = some m → x < st.next)
    (hy : st.next ≤ y) : childless (attach_children st node n feat random).heap y := by
  intro x m hx hp
  rcases attach_children_live st node n feat random hnode hn x m hx with
    ⟨_, hq⟩ | ⟨_, hq⟩ | ⟨_, _, m', hm', hq⟩
  · rw [hq] at hp
    have := Option.some.inj hp
    omega
  · rw [hq] at hp
    have := Option.some.inj hp
    omega
  · have h1 := hpb x m' y hm' (hq.trans hp)
    have h2 := hlive x m' hm'
    omega

/-- A call on a node whose sample list has at most one sample, or whose
16-bit height has reached the limit, only replaces the node's own cell, by a
value that depends on the cell, the list and the height alone. -/
theorem train_recurse_terminal {D F R : Type} (c : Collaborators D F R) (settings : Settings)
    (data : D) (fuel x : ℕ) (S : List LabeledPixel) (m : Node F) (t : ℕ)
    (hterm : S.length ≤ 1 ∨ t % 2 ^ 16 ≥ settings.max_tree_depth_) :
    ∃ v : Option (Node F), ∀ s : TreeState F R,
      traverse_to_root s.heap s.next (some x) = some t → s.heap x = some m →
      train_recurse c settings data (fuel + 1) x S s = some (set_cell s x v) := by
  by_cases hleaf : S.length = 1 ∨ t % 2 ^ 16 ≥ settings.max_tree_depth_
  · refine ⟨some { m with is_leaf_ := true, mode_ := some (leaf_mode c S) }, ?_⟩
    intro s ht hm
    unfold train_recurse
    simp only [ht, if_pos hleaf, hm]
    rfl
  · have hS : S.length = 0 := by
      rcases hterm with h | h
      · by_contra h0
        exact hleaf (Or.inl (by omega))
      · exact absurd (Or.inr h) hleaf
    refine ⟨none, ?_⟩
    intro s ht _
    unfold train_recurse
    simp only [ht, if_neg hleaf, if_pos hS]
    rfl

/-- C17 (as amended): at a split node one of whose children is finished
without drawing a candidate feature (its sample list has at most one sample,
or its 16-bit height has reached `max_tree_depth_`), growing the left child
and then the right child gives the same state, hence the same tree, as growing
the right child and then the left child; the one order returns exactly when
the other does. `st` is the state before the children are created, in a heap
where parents lie below their children and every node is at an allocated
address; `t` is the value of `traverse_to_root` at the split node. -/
theorem grow_order_irrelevant_finished_child {D F R : Type} (c : Collaborators D F R)
    (settings : Settings) (data : D) (fuel node : ℕ)
    (left_final right_final : List LabeledPixel) (st : TreeState F R) (n : Node F) (feat : F)
    (random : R) (t : ℕ) (hnode : node < st.next) (hn : st.heap node = some n)
    (hpb : parents_below st.heap) (hlive : ∀ y m, st.heap y = some m → y < st.next)
    (ht : traverse_to_root st.heap st.next (some node) = some t)
    (hterm :
      (left_final.length ≤ 1 ∨ ((1 + t) % 2 ^ 32) % 2 ^ 16 ≥ settings.max_tree_depth_) ∨
      (right_final.length ≤ 1 ∨ ((1 + t) % 2 ^ 32) % 2 ^ 16 ≥ settings.max_tree_depth_)) :
    grow_left_then_right c settings data fuel node left_final right_final
        (attach_children st node n feat random) =
      grow_right_then_left c settings data fuel node left_final right_final
        (attach_children st node n feat random) := by
  have h1n := attach_children_heap_node st node n feat random hnode
  have hnext := attach_children_next st node n feat random
  have hlive1 := live_attach_children st node n feat random hnode hn hlive
  have hcl_l := childless_fresh_child st node n feat random st.next hnode hn hpb hlive
    (le_refl _)
  have hcl_r := childless_fresh_child st node n feat random (st.next + 1) hnode hn hpb hlive
    (by omega)
  have htl := traverse_to_root_left_child st node n feat random t hnode hn hpb ht
  have htr := traverse_to_root_child_after st _ node n feat random t (st.next + 1) st.next
    hnode hn hpb ht (Or.inr rfl) (le_refl _) (by omega) (frame_refl _ _)
  have hl1 := attach_children_heap_left st node n feat random
  have hr1 := attach_children_heap_right st node n feat random
  have hnl : node ≠ st.next := by omega
  have hnr : node ≠ st.next + 1 := by omega
  cases fuel with
  | zero => simp only [grow_left_then_right, grow_right_then_left, h1n, train_recurse]
  | succ fuel =>
    unfold grow_left_then_right grow_right_then_left
    rw [h1n]
    simp only []
    rcases hterm with hterm | hterm
    · obtain ⟨v, hv⟩ := train_recurse_terminal (R := R) c settings data fuel st.next left_final
        { Node.fresh with parent_ := some node } ((1 + t) % 2 ^ 32) hterm
      rw [hv _ htl hl1]
      simp only []
      have hx : (set_cell (attach_children st node n feat random) st.next v).heap node =
          (attach_children st node n feat random).heap node := by
        simp [set_cell, heap_set, hnl]
      rw [hx, h1n]
      simp only []
      rw [train_recurse_set_cell c settings data st.next v (fuel + 1) (st.next + 1) right_final
        _ (by rw [hnext]; omega) (by rw [hnext]; omega) (by omega) hcl_l hlive1]
      cases h2 : train_recurse c settings data (fuel + 1) (st.next + 1) right_final
          (attach_children st node n feat random) with
      | none => rfl
      | some st2 =>
        simp only [Option.map_some']
        have hfr := train_recurse_frame c settings data (fuel + 1) (st.next + 1) right_final
          _ st2 (by rw [hnext]; omega) h2
        have h2n := hfr.2.1 node (by rw [hnext]; omega) hnr
        rw [h1n] at h2n
        have h2l := hfr.2.1 st.next (by rw [hnext]; omega) (by omega)
        rw [hl1] at h2l
        have ht2 := traverse_to_root_child_after st st2 node n feat random t st.next
          (st.next + 1) hnode hn hpb ht (Or.inl rfl) (by omega) (by omega) hfr
        rw [h2n]
        simp only []
        rw [hv st2 ht2 h2l]
    · obtain ⟨v, hv⟩ := train_recurse_terminal (R := R) c settings data fuel (st.next + 1)
        right_final { Node.fresh with parent_ := some node } ((1 + t) % 2 ^ 32) hterm
      rw [hv _ htr hr1]
      simp only []
      have hx : (set_cell (attach_children st node n feat random) (st.next + 1) v).heap node =
          (attach_children st node n feat random).heap node := by
        simp [set_cell, heap_set, hnr]
      rw [hx, h1n]
      simp only []
      rw [train_recurse_set_cell c settings data (st.next + 1) v (fuel + 1) st.next left_final
        _ (by rw [hnext]; omega) (by rw [hnext]; omega) (by omega) hcl_r hlive1]
      cases h2 : train_recurse c settings data (fuel + 1) st.next left_final
          (attach_children st node n feat random) with
      | none => rfl
      | some st2 =>
        simp only [Option.map_some']
        have hfr := train_recurse_frame c settings data (fuel + 1) st.next left_final
          _ st2 (by rw [hnext]; omega) h2
        have h2n := hfr.2.1 node (by rw [hnext]; omega) hnl
        rw [h1n] at h2n
        have h2r := hfr.2.1 (st.next + 1) (by rw [hnext]; omega) (by omega)
        rw [hr1] at h2r
        have ht2 := traverse_to_root_right_child st st2 node n feat random t hnode hn hpb ht hfr
        rw [h2n]
        simp only []
        rw [hv st2 ht2 h2r]

/-- The statement of C17 as amended, at the root of a new tree with depth
limit `5`, whose left child gets one sample and whose right child gets two,
with the collaborators `threshold_two`: both orders return, with the same
state; in it the left child is a leaf with mode `(1, 0, 0)` and the right
child is split on draw `5`. -/
theorem grow_order_irrelevant_finished_child_witness :
    (([sample_x 1] : List LabeledPixel).length ≤ 1 ∨ ((1 + 1) % 2 ^ 32) % 2 ^ 16 ≥ 5) ∧
    grow_left_then_right threshold_two ⟨5, 640, 480⟩ () 4 0 [sample_x 1]
        [sample_x 3, sample_x 4] (attach_children (Tree_init 0) 0 Node.fresh 0 5) =
      grow_right_then_left threshold_two ⟨5, 640, 480⟩ () 4 0 [sample_x 1]
        [sample_x 3, sample_x 4] (attach_children (Tree_init 0) 0 Node.fresh 0 5) ∧
    (grow_left_then_right threshold_two ⟨5, 640, 480⟩ () 4 0 [sample_x 1]
        [sample_x 3, sample_x 4] (attach_children (Tree_init 0) 0 Node.fresh 0 5)).isSome =
      true ∧
    (grow_right_then_left threshold_two ⟨5, 640, 480⟩ () 4 0 [sample_x 1]
        [sample_x 3, sample_x 4] (attach_children (Tree_init 0) 0 Node.fresh 0 5)).isSome =
      true ∧
    ((grow_right_then_left threshold_two ⟨5, 640, 480⟩ () 4 0 [sample_x 1]
        [sample_x 3, sample_x 4] (attach_children (Tree_init 0) 0 Node.fresh 0 5)).bind
          (fun st => st.heap 1)).map (fun n => (n.is_leaf_, n.mode_)) =
      some (true, some ⟨1, 0, 0⟩) ∧
    ((grow_right_then_left threshold_two ⟨5, 640, 480⟩ () 4 0 [sample_x 1]
        [sample_x 3, sample_x 4] (attach_children (Tree_init 0) 0 Node.fresh 0 5)).bind
          (fun st => st.heap 2)).map (fun n => (n.is_split_, n.feature_)) =
      some (true, some 5) :=
  ⟨Or.inl (by decide),
    grow_order_irrelevant_finished_child threshold_two ⟨5, 640, 480⟩ () 4 0 [sample_x 1]
      [sample_x 3, sample_x 4] (Tree_init 0) Node.fresh 0 5 1 (by simp [Tree_init])
      (by simp [Tree_init, heap_set]) (parents_below_init 0) (depth_inv_init 0 0).2.1
      (traverse_to_root_init 0) (Or.inl (Or.inl (by decide))),
    by decide!, by decide!, by decide!, by decide!⟩

/-- C17 (counterexample): on `four_samples` with depth limit `3` and the
collaborators `threshold_by_draw`, the split step at the root stores draw `0`,
passes the labels `0, 20` to the left child and `100, 120` to the right child,
and leaves the random source at draw `5`; `Train` continues with
`grow_left_then_right`. Growing left first, the left child draws `5..9` and
stores draw `5` (threshold `10`), and its right child is a leaf with mode
`(20, 0, 0)`; growing right first, the left child draws `10..14` and stores
draw `10` (threshold `110`), and its right child is a leaf with mode
`(0, 0, 0)`. -/
theorem growth_order_changes_tree :
    (split_candidates threshold_by_draw ⟨3, 640, 480⟩ () four_samples 0).map
        (fun ls => (ls.candidate_params[ls.feature]?, ls.left_final, ls.right_final,
          ls.random)) =
      some (some 0, [sample_x 0, sample_x 20], [sample_x 100, sample_x 120], 5) ∧
    Train threshold_by_draw 3 () four_samples 0 ⟨3, 640, 480⟩ =
      grow_left_then_right threshold_by_draw ⟨3, 640, 480⟩ () 2 0 [sample_x 0, sample_x 20]
        [sample_x 100, sample_x 120] (attach_children (Tree_init 0) 0 Node.fresh 0 5) ∧
    ((grow_left_then_right threshold_by_draw ⟨3, 640, 480⟩ () 2 0 [sample_x 0, sample_x 20]
        [sample_x 100, sample_x 120] (attach_children (Tree_init 0) 0 Node.fresh 0 5)).bind
          (fun st => st.heap 1)).map (fun n => n.feature_) = some (some 5) ∧
    ((grow_right_then_left threshold_by_draw ⟨3, 640, 480⟩ () 2 0 [sample_x 0, sample_x 20]
        [sample_x 100, sample_x 120] (attach_children (Tree_init 0) 0 Node.fresh 0 5)).bind
          (fun st => st.heap 1)).map (fun n => n.feature_) = some (some 10) ∧
    threshold_by_draw.GetThreshold 5 = 10 ∧ threshold_by_draw.GetThreshold 10 = 110 ∧
    (grow_left_then_right threshold_by_draw ⟨3, 640, 480⟩ () 2 0 [sample_x 0, sample_x 20]
        [sample_x 100, sample_x 120] (attach_children (Tree_init 0) 0 Node.fresh 0 5)).bind
          (fun st => (st.heap 1).bind (fun n => n.right_.bind (fun r =>
            (st.heap r).map (fun m => (m.is_leaf_, m.mode_))))) =
      some (true, some ⟨20, 0, 0⟩) ∧
    (grow_right_then_left threshold_by_draw ⟨3, 640, 480⟩ () 2 0 [sample_x 0, sample_x 20]
        [sample_x 100, sample_x 120] (attach_children (Tree_init 0) 0 Node.fresh 0 5)).bind
          (fun st => (st.heap 1).bind (fun n => n.right_.bind (fun r =>
            (st.heap r).map (fun m => (m.is_leaf_, m.mode_))))) =
      some (true, some ⟨0, 0, 0⟩) := by
  have h1 : (split_candidates threshold_by_draw ⟨3, 640, 480⟩ () four_samples 0).map
        (fun ls => (ls.candidate_params[ls.feature]?, ls.left_final, ls.right_final,
          ls.random)) =
      some (some 0, [sample_x 0, sample_x 20], [sample_x 100, sample_x 120], 5) := by
    decide!
  refine ⟨h1, ?_, by decide!, by decide!, by decide!, by decide!, by decide!, by decide!⟩
  cases hsp : split_candidates threshold_by_draw ⟨3, 640, 480⟩ () four_samples 0 with
  | none =>
    rw [hsp] at h1
    cases h1
  | some ls =>
    rw [hsp] at h1
    simp only [Option.map_some', Option.some.injEq, Prod.mk.injEq] at h1
    obtain ⟨hf, hl, hr, hrand⟩ := h1
    have h := train_recurse_split_grow threshold_by_draw ⟨3, 640, 480⟩ () 2 0 four_samples
      (Tree_init 0) 1 Node.fresh ls 0 (traverse_to_root_init 0) (by decide) (by decide)
      (by simp [Tree_init, heap_set]) hsp hf
    rw [hl, hr, hrand] at h
    exact h

/-! ## Termination below the 16-bit limit -/

/-- With a depth limit that fits 16 bits, a call of `train_recurse` on a node
without children, `k` edges below the root, with fewer than `2 ^ 32` samples,
returns once the bound on the recursion depth covers the levels that are left
down to the limit. -/
theorem train_recurse_returns {D F R : Type} (c : Collaborators D F R) (M w h : ℕ)
    (hM : M ≤ 65535) (data : D) :
    ∀ (fuel node : ℕ) (S : List LabeledPixel) (st : TreeState F R) (n : Node F) (k : ℕ),
      depth_inv M st → st.heap node = some n → childless st.heap node →
      ancestor st.heap k node = some 0 → (k = 0 ∨ k + 1 ≤ M) → M ≤ fuel + (k + 1) →
      S.length < 2 ^ 32 →
      ∃ st', train_recurse c ⟨M, w, h⟩ data (fuel + 1) node S st = some st' := by
  intro fuel
  induction fuel with
  | zero =>
    intro node S st n k hinv hn _ hk hb hfuel _
    have hkle := ancestor_add_le st.heap hinv.1 k node 0 hk
    have hnode : node < st.next := hinv.2.1 node n hn
    have ht := traverse_to_root_of_ancestor st.heap hinv.1 k node st.next hk (by omega)
    refine ⟨_, train_recurse_leaf_eq c ⟨M, w, h⟩ data 0 node S st _ n ht (Or.inr ?_) hn⟩
    show M ≤ (k + 1) % 2 ^ 32 % 2 ^ 16
    omega
  | succ fuel ih =>
    intro node S st n k hinv hn hcl hk hb hfuel hS
    have hkle := ancestor_add_le st.heap hinv.1 k node 0 hk
    have hnode : node < st.next := hinv.2.1 node n hn
    have ht := traverse_to_root_of_ancestor st.heap hinv.1 k node st.next hk (by omega)
    by_cases hleaf : S.length = 1 ∨
        (k + 1) % 2 ^ 32 % 2 ^ 16 ≥ (⟨M, w, h⟩ : Settings).max_tree_depth_
    · exact ⟨_, train_recurse_leaf_eq c ⟨M, w, h⟩ data (fuel + 1) node S st _ n ht hleaf hn⟩
    · have hlt : (k + 1) % 2 ^ 32 % 2 ^ 16 < M := by
        by_contra hge
        exact hleaf (Or.inr (not_lt.mp hge))
      have hk2 : k + 2 ≤ M := by omega
      by_cases hS0 : S.length = 0
      · have hnil : S = [] := List.length_eq_zero.mp hS0
        subst hnil
        exact ⟨_, train_recurse_empty_eq c ⟨M, w, h⟩ data (fuel + 1) node st _ ht hlt⟩
      · obtain ⟨ls, hls, hlen, _, hsel⟩ := split_candidates_selects c ⟨M, w, h⟩ data S hS
          st.random
        obtain ⟨feat, hfeat, hll, hrl⟩ : ∃ feat, ls.candidate_params[ls.feature]? = some feat ∧
            ls.left_final.length ≤ S.length ∧ ls.right_final.length ≤ S.length := by
          rcases hsel with ⟨_, hf0, hl0, hr0⟩ | ⟨f, hf, _, _, hl, hr, _⟩
          · refine ⟨ls.candidate_params[0], ?_, ?_, ?_⟩
            · rw [hf0]
              exact List.getElem?_eq_getElem (by omega)
            · rw [hl0]
              exact Nat.zero_le _
            · rw [hr0]
              exact Nat.zero_le _
          · refine ⟨f, hf, ?_, ?_⟩
            · rw [hl]
              exact List.length_filter_le _ _
            · rw [hr]
              exact List.length_filter_le _ _
        have hinv1 := depth_inv_attach_children M st node n feat ls.random k hinv hn hk hk2
        have hnext1 := attach_children_next st node n feat ls.random
        have hl1 := attach_children_heap_left st node n feat ls.random
        have hanc1 : ancestor (attach_children st node n feat ls.random).heap (k + 1) st.next =
            some 0 := by
          rw [ancestor_succ _ k st.next node _ hl1 rfl,
            ancestor_congr st.heap _ hinv.1 k node
              (fun y hy => attach_children_parent_agree st node n feat ls.random hnode hn y
                (by omega))]
          exact hk
        obtain ⟨st2, hst2⟩ := ih st.next ls.left_final _ _ (k + 1) hinv1 hl1
          (childless_new_child M st node n feat ls.random st.next hinv hn (le_refl _))
          hanc1 (Or.inr (by omega)) (by omega) (by omega)
        obtain ⟨hinv2, hpres1⟩ := train_recurse_depth_inv c M w h hM data (fuel + 1) st.next
          ls.left_final _ st2 _ hst2 hinv1 hl1
          (childless_new_child M st node n feat ls.random st.next hinv hn (le_refl _))
        have hfr := train_recurse_frame c ⟨M, w, h⟩ data (fuel + 1) st.next ls.left_final _ st2
          (by rw [hnext1]; omega) hst2
        have hn2 := hfr.2.1 node (by rw [hnext1]; omega) (by omega)
        rw [attach_children_heap_node st node n feat ls.random hnode] at hn2
        have hr2 := hfr.2.1 (st.next + 1) (by rw [hnext1]; omega) (by omega)
        rw [attach_children_heap_right] at hr2
        have hcl2 : childless st2.heap (st.next + 1) :=
          hpres1 (st.next + 1) (by rw [hnext1]; omega) (by omega)
            (childless_new_child M st node n feat ls.random (st.next + 1) hinv hn (by omega))
        obtain ⟨k2, hk2a, hk2b⟩ := hinv2.2.2 (st.next + 1) _ hr2
        have hkle2 := ancestor_add_le st2.heap hinv2.1 k2 (st.next + 1) 0 hk2a
        have ht2 := traverse_to_root_of_ancestor st2.heap hinv2.1 k2 (st.next + 1) st2.next hk2a
          (by have := hfr.1; rw [hnext1] at this; omega)
        rw [traverse_to_root_right_child st st2 node n feat ls.random _ hnode hn hinv.1 ht hfr]
          at ht2
        have hk2eq := Option.some.inj ht2
        obtain ⟨st', hst'⟩ := ih (st.next + 1) ls.right_final st2 _ k2 hinv2 hr2 hcl2 hk2a hk2b
          (by omega) (by omega)
        refine ⟨st', ?_⟩
        rw [train_recurse_split_eq c ⟨M, w, h⟩ data (fuel + 1) node S st st2 _ n _ ls feat
          (st.next + 1) hnode ht hleaf hS0 hn hls hfeat hst2 hn2 rfl]
        exact hst'

/-- With `max_tree_depth ≤ 65535` and fewer than `2 ^ 32` samples, `Train`
returns, whatever the collaborators do. -/
theorem Train_returns_16bit {D F R : Type} (c : Collaborators D F R) (M w h : ℕ)
    (hM : M ≤ 65535) (data : D) (S : List LabeledPixel) (hS : S.length < 2 ^ 32) (random : R) :
    ∃ st : TreeState F R, Train c (M + 1) data S random ⟨M, w, h⟩ = some st := by
  have hcl : childless (Tree_init (F := F) random).heap 0 := by
    intro x n hx hp
    have := parents_below_init random x n 0 hx hp
    by_cases h0 : x = 0
    · omega
    · simp [Tree_init, heap_set, h0] at hx
  exact train_recurse_returns c M w h hM data M 0 S (Tree_init random) Node.fresh 0
    (depth_inv_init M random) (by simp [Tree_init, heap_set]) hcl
    (ancestor_zero _ 0 Node.fresh (by simp [Tree_init, heap_set])) (Or.inl rfl) (by omega) hS

/-! ## IEEE 754 arithmetic -/

namespace IEEE

/-! ### Powers of two -/

theorem pow2_eq_zpow (e : ℤ) : pow2 e = (2 : ℚ) ^ e := by
  unfold pow2
  split
  · rename_i h
    conv_rhs => rw [← Int.toNat_of_nonneg h]
    rw [zpow_natCast]
    push_cast
    rfl
  · rename_i h
    have h' : 0 ≤ -e := by omega
    have h2 : e = -((-e).toNat : ℤ) := by rw [Int.toNat_of_nonneg h']; ring
    conv_rhs => rw [h2]
    rw [zpow_neg, zpow_natCast]
    push_cast
    rw [one_div]

theorem pow2_pos (e : ℤ) : 0 < pow2 e := by
  rw [pow2_eq_zpow]
  exact zpow_pos (by norm_num) e

theorem pow2_add (a b : ℤ) : pow2 (a + b) = pow2 a * pow2 b := by
  simp only [pow2_eq_zpow]
  exact zpow_add₀ (by norm_num) a b

theorem pow2_le_iff (a b : ℤ) : pow2 a ≤ pow2 b ↔ a ≤ b := by
  simp only [pow2_eq_zpow]
  exact zpow_le_zpow_iff_right₀ (by norm_num)

theorem pow2_lt_iff (a b : ℤ) : pow2 a < pow2 b ↔ a < b := by
  simp only [pow2_eq_zpow]
  exact zpow_lt_zpow_iff_right₀ (by norm_num)

theorem pow2_natCast (n : ℕ) : pow2 (n : ℤ) = (2 : ℚ) ^ n := by
  rw [pow2_eq_zpow, zpow_natCast]

/-! ### The exponent search -/

theorem scan_down_ge (x : ℚ) (emin : ℤ) :
    ∀ (fuel : ℕ) (e : ℤ), emin ≤ scan_down x emin fuel e := by
  intro fuel
  induction fuel with
  | zero => intro e; exact le_refl _
  | succ fuel ih =>
    intro e
    unfold scan_down
    split
    · exact le_refl _
    · split
      · omega
      · exact ih _

theorem scan_down_spec (x : ℚ) (emin : ℤ) : ∀ (fuel : ℕ) (e : ℤ),
    scan_down x emin fuel e = emin ∨ pow2 (scan_down x emin fuel e) ≤ x := by
  intro fuel
  induction fuel with
  | zero => intro e; exact Or.inl rfl
  | succ fuel ih =>
    intro e
    unfold scan_down
    split
    · exact Or.inl rfl
    · split
      · rename_i h
        exact Or.inr h
      · exact ih _

theorem scan_up_ge (x : ℚ) : ∀ (fuel : ℕ) (e : ℤ), e ≤ scan_up x fuel e := by
  intro fuel
  induction fuel with
  | zero => intro e; exact le_refl _
  | succ fuel ih =>
    intro e
    unfold scan_up
    split
    · have := ih (e + 1)
      omega
    · exact le_refl _

theorem scan_up_low (x : ℚ) (emin : ℤ) : ∀ (fuel : ℕ) (e : ℤ), (e = emin ∨ pow2 e ≤ x) →
    (scan_up x fuel e = emin ∨ pow2 (scan_up x fuel e) ≤ x) := by
  intro fuel
  induction fuel with
  | zero => intro e h; exact h
  | succ fuel ih =>
    intro e h
    unfold scan_up
    split
    · rename_i h1
      exact ih (e + 1) (Or.inr h1)
    · exact h

theorem scan_up_high (x : ℚ) : ∀ (fuel : ℕ) (e : ℤ),
    x < pow2 (scan_up x fuel e + 1) ∨ scan_up x fuel e = e + fuel := by
  intro fuel
  induction fuel with
  | zero => intro e; right; simp [scan_up]
  | succ fuel ih =>
    intro e
    unfold scan_up
    split
    · rcases ih (e + 1) with h | h
      · exact Or.inl h
      · right
        rw [h]
        push_cast
        ring
    · rename_i h1
      exact Or.inl (not_le.mp h1)

theorem find_exp_spec (fmt : Format) (x : ℚ) (he : fmt.emin ≤ fmt.emax) :
    fmt.emin ≤ find_exp fmt x ∧ (find_exp fmt x = fmt.emin ∨ pow2 (find_exp fmt x) ≤ x) ∧
      (x < pow2 (find_exp fmt x + 1) ∨ fmt.emax + 2 ≤ find_exp fmt x) := by
  unfold find_exp
  simp only []
  refine ⟨le_trans (scan_down_ge x fmt.emin _ _) (scan_up_ge x _ _),
    scan_up_low x fmt.emin _ _ (scan_down_spec x fmt.emin _ _), ?_⟩
  rcases scan_up_high x (fmt.emax + 2 - fmt.emin).toNat
    (scan_down x fmt.emin (fmt.emax + 2 - fmt.emin).toNat
      (min ((bit_length x.num.natAbs x.num.natAbs : ℤ) - (bit_length x.den x.den : ℤ))
        (fmt.emax + 1))) with h | h
  · exact Or.inl h
  · right
    rw [h]
    have h1 := scan_down_ge x fmt.emin (fmt.emax + 2 - fmt.emin).toNat
      (min ((bit_length x.num.natAbs x.num.natAbs : ℤ) - (bit_length x.den x.den : ℤ))
        (fmt.emax + 1))
    have h2 : ((fmt.emax + 2 - fmt.emin).toNat : ℤ) = fmt.emax + 2 - fmt.emin :=
      Int.toNat_of_nonneg (by omega)
    omega

/-! ### Rounding a quotient to an integer -/

theorem round_half_even_le (m : ℚ) (N : ℤ) (h : m ≤ (N : ℚ)) : round_half_even m ≤ N := by
  have hf : ⌊m⌋ ≤ N := by
    have := Int.floor_le m
    exact_mod_cast (le_trans this h)
  have hcase : 1 ≤ 2 * (m - ⌊m⌋) → ⌊m⌋ + 1 ≤ N := by
    intro h1
    have h2 : ((⌊m⌋ : ℤ) : ℚ) < (N : ℚ) := by linarith
    have h3 : ⌊m⌋ < N := by exact_mod_cast h2
    omega
  unfold round_half_even
  simp only []
  split
  · exact hf
  · rename_i h1
    have h1' : 1 ≤ 2 * (m - ⌊m⌋) := not_lt.mp h1
    split
    · exact hcase h1'
    · split
      · exact hf
      · exact hcase h1'

theorem le_round_half_even (m : ℚ) (N : ℤ) (h : (N : ℚ) ≤ m) : N ≤ round_half_even m := by
  have hf : N ≤ ⌊m⌋ := Int.le_floor.mpr h
  unfold round_half_even
  simp only []
  split
  · exact hf
  · split
    · omega
    · split
      · exact hf
      · omega

/-! ### Representable values -/

theorem is_rep_lt (fmt : Format) (v : ℚ) (hv : is_rep fmt v) : v < pow2 (fmt.emax + 1) := by
  obtain ⟨n, k, hn, _, hk, rfl⟩ := hv
  have h1 : (n : ℚ) < pow2 (fmt.p : ℤ) := by
    rw [pow2_natCast]
    exact_mod_cast hn
  calc (n : ℚ) * pow2 k < pow2 (fmt.p : ℤ) * pow2 k :=
        mul_lt_mul_of_pos_right h1 (pow2_pos k)
    _ = pow2 ((fmt.p : ℤ) + k) := (pow2_add _ _).symm
    _ ≤ pow2 (fmt.emax + 1) := (pow2_le_iff _ _).mpr (by omega)

theorem is_rep_nonneg (fmt : Format) (v : ℚ) (hv : is_rep fmt v) : 0 ≤ v := by
  obtain ⟨n, k, _, _, _, rfl⟩ := hv
  exact mul_nonneg (Nat.cast_nonneg n) (pow2_pos k).le

theorem is_rep_multiple (fmt : Format) (v : ℚ) (e : ℤ) (hv : is_rep fmt v)
    (hlow : e = fmt.emin ∨ pow2 e ≤ v) :
    ∃ N : ℤ, v = (N : ℚ) * pow2 (e - fmt.p + 1) := by
  obtain ⟨n, k, hn, hk1, _, rfl⟩ := hv
  have hk : e - fmt.p + 1 ≤ k := by
    rcases hlow with h | h
    · omega
    · have h1 : (n : ℚ) < pow2 (fmt.p : ℤ) := by
        rw [pow2_natCast]
        exact_mod_cast hn
      have h2 : pow2 e < pow2 ((fmt.p : ℤ) + k) := by
        calc pow2 e ≤ (n : ℚ) * pow2 k := h
          _ < pow2 (fmt.p : ℤ) * pow2 k := mul_lt_mul_of_pos_right h1 (pow2_pos k)
          _ = pow2 ((fmt.p : ℤ) + k) := (pow2_add _ _).symm
      have := (pow2_lt_iff _ _).mp h2
      omega
  refine ⟨(n : ℤ) * 2 ^ (k - (e - fmt.p + 1)).toNat, ?_⟩
  have h3 : k = ((k - (e - fmt.p + 1)).toNat : ℤ) + (e - fmt.p + 1) := by
    rw [Int.toNat_of_nonneg (by omega)]
    ring
  conv_lhs => rw [h3, pow2_add, pow2_natCast]
  push_cast
  ring

/-! ### Rounding a positive number -/

theorem round_pos_le (fmt : Format) (he : fmt.emin ≤ fmt.emax) (x v : ℚ) (hx : 0 < x)
    (hxv : x ≤ v) (hv : is_rep fmt v) :
    ∃ r, round_pos fmt x = Fl.fin r ∧ 0 ≤ r ∧ r ≤ v := by
  obtain ⟨_, h2, _⟩ := find_exp_spec fmt x he
  obtain ⟨N, hN⟩ := is_rep_multiple fmt v (find_exp fmt x) hv
    (h2.imp id (fun h => le_trans h hxv))
  have hupos : 0 < pow2 (find_exp fmt x - fmt.p + 1) := pow2_pos _
  have hm : x / pow2 (find_exp fmt x - fmt.p + 1) ≤ (N : ℚ) := by
    rw [div_le_iff₀ hupos, ← hN]
    exact hxv
  have hn := round_half_even_le _ N hm
  have hn0 : (0 : ℤ) ≤ round_half_even (x / pow2 (find_exp fmt x - fmt.p + 1)) :=
    le_round_half_even _ 0 (by
      push_cast
      exact div_nonneg hx.le hupos.le)
  have hr : (round_half_even (x / pow2 (find_exp fmt x - fmt.p + 1)) : ℚ) *
      pow2 (find_exp fmt x - fmt.p + 1) ≤ v := by
    rw [hN]
    exact mul_le_mul_of_nonneg_right (by exact_mod_cast hn) hupos.le
  refine ⟨_, ?_, mul_nonneg (by exact_mod_cast hn0) hupos.le, hr⟩
  unfold round_pos
  simp only []
  rw [if_neg (not_le.mpr (lt_of_le_of_lt hr (is_rep_lt fmt v hv)))]

theorem round_pos_cases (fmt : Format) (x : ℚ) (hx : 0 < x) :
    round_pos fmt x = Fl.pinf ∨ ∃ r, round_pos fmt x = Fl.fin r ∧ 0 ≤ r := by
  have hupos : 0 < pow2 (find_exp fmt x - fmt.p + 1) := pow2_pos _
  have hn0 : (0 : ℤ) ≤ round_half_even (x / pow2 (find_exp fmt x - fmt.p + 1)) :=
    le_round_half_even _ 0 (by
      push_cast
      exact div_nonneg hx.le hupos.le)
  unfold round_pos
  simp only []
  split
  · exact Or.inl rfl
  · exact Or.inr ⟨_, rfl, mul_nonneg (by exact_mod_cast hn0) hupos.le⟩

/-- The value before the overflow test is at least every representable value
below `x`. -/
theorem round_pos_ge (fmt : Format) (hp : 1 ≤ fmt.p) (he : fmt.emin ≤ fmt.emax) (x w : ℚ)
    (hwx : w ≤ x) (hw : is_rep fmt w) :
    round_pos fmt x = Fl.pinf ∨ ∃ r, round_pos fmt x = Fl.fin r ∧ w ≤ r := by
  obtain ⟨_, h2, _⟩ := find_exp_spec fmt x he
  have hupos : 0 < pow2 (find_exp fmt x - fmt.p + 1) := pow2_pos _
  have key : w ≤ (round_half_even (x / pow2 (find_exp fmt x - fmt.p + 1)) : ℚ) *
      pow2 (find_exp fmt x - fmt.p + 1) := by
    by_cases hcase : find_exp fmt x = fmt.emin ∨ pow2 (find_exp fmt x) ≤ w
    · obtain ⟨N, hN⟩ := is_rep_multiple fmt w (find_exp fmt x) hw hcase
      have hm : (N : ℚ) ≤ x / pow2 (find_exp fmt x - fmt.p + 1) := by
        rw [le_div_iff₀ hupos, ← hN]
        exact hwx
      have hn := le_round_half_even _ N hm
      rw [hN]
      exact mul_le_mul_of_nonneg_right (by exact_mod_cast hn) hupos.le
    · have hne : find_exp fmt x ≠ fmt.emin := fun h => hcase (Or.inl h)
      have hlt : w < pow2 (find_exp fmt x) := not_le.mp (fun h => hcase (Or.inr h))
      have hle : pow2 (find_exp fmt x) ≤ x := by
        rcases h2 with h | h
        · exact absurd h hne
        · exact h
      have hsplit : pow2 (find_exp fmt x) =
          ((2 ^ (fmt.p - 1) : ℤ) : ℚ) * pow2 (find_exp fmt x - fmt.p + 1) := by
        have h3 : find_exp fmt x = ((fmt.p - 1 : ℕ) : ℤ) + (find_exp fmt x - fmt.p + 1) := by
          have : ((fmt.p - 1 : ℕ) : ℤ) = (fmt.p : ℤ) - 1 := by omega
          rw [this]
          ring
        conv_lhs => rw [h3, pow2_add, pow2_natCast]
        push_cast
        rfl
      have hm : ((2 ^ (fmt.p - 1) : ℤ) : ℚ) ≤ x / pow2 (find_exp fmt x - fmt.p + 1) := by
        rw [le_div_iff₀ hupos, ← hsplit]
        exact hle
      have hn := le_round_half_even _ _ hm
      calc w ≤ pow2 (find_exp fmt x) := hlt.le
        _ = ((2 ^ (fmt.p - 1) : ℤ) : ℚ) * pow2 (find_exp fmt x - fmt.p + 1) := hsplit
        _ ≤ _ := mul_le_mul_of_nonneg_right (by exact_mod_cast hn) hupos.le
  unfold round_pos
  simp only []
  split
  · exact Or.inl rfl
  · exact Or.inr ⟨_, rfl, key⟩


/-- A finite result of rounding a positive number is a value of the format. -/
theorem round_pos_rep (fmt : Format) (hp : 1 ≤ fmt.p) (he : fmt.emin ≤ fmt.emax) (x r : ℚ)
    (hx : 0 < x) (h : round_pos fmt x = Fl.fin r) : is_rep fmt r := by
  obtain ⟨h1, h2, h3⟩ := find_exp_spec fmt x he
  have hupos : 0 < pow2 (find_exp fmt x - fmt.p + 1) := pow2_pos _
  have hn0 : (0 : ℤ) ≤ round_half_even (x / pow2 (find_exp fmt x - fmt.p + 1)) :=
    le_round_half_even _ 0 (by
      push_cast
      exact div_nonneg hx.le hupos.le)
  have hsplit : ∀ j : ℤ, pow2 (find_exp fmt x + j) =
      ((2 ^ fmt.p : ℤ) : ℚ) * pow2 (j - 1) * pow2 (find_exp fmt x - fmt.p + 1) := by
    intro j
    have h4 : find_exp fmt x + j = (fmt.p : ℤ) + (j - 1) + (find_exp fmt x - fmt.p + 1) := by
      ring
    conv_lhs => rw [h4, pow2_add, pow2_add, pow2_natCast]
    push_cast
    rfl
  unfold round_pos at h
  simp only [] at h
  split at h
  · cases h
  · rename_i hno
    have hr := Fl.fin.inj h
    have hlow : pow2 (find_exp fmt x) ≤ x →
        pow2 (find_exp fmt x) ≤ (round_half_even (x / pow2 (find_exp fmt x - fmt.p + 1)) : ℚ) *
          pow2 (find_exp fmt x - fmt.p + 1) := by
      intro hle
      have hs : pow2 (find_exp fmt x) =
          ((2 ^ (fmt.p - 1) : ℤ) : ℚ) * pow2 (find_exp fmt x - fmt.p + 1) := by
        have h5 : find_exp fmt x = ((fmt.p - 1 : ℕ) : ℤ) + (find_exp fmt x - fmt.p + 1) := by
          have : ((fmt.p - 1 : ℕ) : ℤ) = (fmt.p : ℤ) - 1 := by omega
          rw [this]
          ring
        conv_lhs => rw [h5, pow2_add, pow2_natCast]
        push_cast
        rfl
      have hm : ((2 ^ (fmt.p - 1) : ℤ) : ℚ) ≤ x / pow2 (find_exp fmt x - fmt.p + 1) := by
        rw [le_div_iff₀ hupos, ← hs]
        exact hle
      have hn := le_round_half_even _ _ hm
      calc pow2 (find_exp fmt x)
          = ((2 ^ (fmt.p - 1) : ℤ) : ℚ) * pow2 (find_exp fmt x - fmt.p + 1) := hs
        _ ≤ _ := mul_le_mul_of_nonneg_right (by exact_mod_cast hn) hupos.le
    have hemax : find_exp fmt x ≤ fmt.emax := by
      by_contra hgt
      have hne : find_exp fmt x ≠ fmt.emin := by omega
      have hle : pow2 (find_exp fmt x) ≤ x := by
        rcases h2 with h | h
        · exact absurd h hne
        · exact h
      exact hno (le_trans ((pow2_le_iff _ _).mpr (by omega)) (hlow hle))
    have hxlt : x < pow2 (find_exp fmt x + 1) := by
      rcases h3 with h | h
      · exact h
      · omega
    have hm : x / pow2 (find_exp fmt x - fmt.p + 1) ≤ ((2 ^ fmt.p : ℤ) : ℚ) := by
      rw [div_le_iff₀ hupos]
      have := hsplit 1
      simp only [sub_self] at this
      have h0 : pow2 0 = 1 := by rw [pow2_eq_zpow]; norm_num
      rw [h0, mul_one] at this
      rw [← this]
      exact hxlt.le
    have hn := round_half_even_le _ _ hm
    by_cases htop : round_half_even (x / pow2 (find_exp fmt x - fmt.p + 1)) = 2 ^ fmt.p
    · have hval : r = pow2 (find_exp fmt x + 1) := by
        rw [← hr, htop]
        have := hsplit 1
        simp only [sub_self] at this
        have h0 : pow2 0 = 1 := by rw [pow2_eq_zpow]; norm_num
        rw [h0, mul_one] at this
        rw [this]
      have hrlt : r < pow2 (fmt.emax + 1) := by
        rw [← hr]
        exact not_le.mp hno
      rw [hval] at hrlt
      have hlt : find_exp fmt x + 1 < fmt.emax + 1 := (pow2_lt_iff _ _).mp hrlt
      refine ⟨2 ^ (fmt.p - 1), find_exp fmt x - fmt.p + 2, ?_, by omega, by omega, ?_⟩
      · exact Nat.pow_lt_pow_right (by norm_num) (by omega)
      · rw [hval]
        have h5 : find_exp fmt x + 1 =
            ((fmt.p - 1 : ℕ) : ℤ) + (find_exp fmt x - fmt.p + 2) := by
          have : ((fmt.p - 1 : ℕ) : ℤ) = (fmt.p : ℤ) - 1 := by omega
          rw [this]
          ring
        conv_lhs => rw [h5, pow2_add, pow2_natCast]
        push_cast
        rfl
    · have hlt : round_half_even (x / pow2 (find_exp fmt x - fmt.p + 1)) < 2 ^ fmt.p :=
        lt_of_le_of_ne hn htop
      refine ⟨(round_half_even (x / pow2 (find_exp fmt x - fmt.p + 1))).toNat,
        find_exp fmt x - fmt.p + 1, ?_, by omega, by omega, ?_⟩
      · have := Int.toNat_of_nonneg hn0
        zify
        rw [this]
        exact hlt
      · rw [← hr]
        congr 1
        have := Int.toNat_of_nonneg hn0
        exact_mod_cast this.symm

/-! ### Rounding -/

theorem is_rep_zero (fmt : Format) (he : fmt.emin ≤ fmt.emax) : is_rep fmt 0 :=
  ⟨0, fmt.emin - fmt.p + 1, Nat.pos_pow_of_pos _ (by norm_num), le_refl _, by omega, by simp⟩

theorem is_rep_pow2 (fmt : Format) (hp : 1 ≤ fmt.p) (j : ℤ) (h1 : fmt.emin - fmt.p + 1 ≤ j)
    (h2 : j ≤ fmt.emax - fmt.p + 1) : is_rep fmt (pow2 j) :=
  ⟨1, j, Nat.one_lt_two_pow (by omega), h1, h2, by simp⟩

theorem round_nearest_zero (fmt : Format) : round_nearest fmt 0 = Fl.fin 0 := by
  simp [round_nearest]

theorem round_nearest_of_pos (fmt : Format) (x : ℚ) (hx : 0 < x) :
    round_nearest fmt x = round_pos fmt x := by
  unfold round_nearest
  rw [if_neg hx.ne', if_pos hx]

theorem round_nearest_of_neg (fmt : Format) (x : ℚ) (hx : x < 0) :
    round_nearest fmt x = Fl.neg (round_pos fmt (-x)) := by
  unfold round_nearest
  rw [if_neg hx.ne, if_neg (not_lt.mpr hx.le)]

/-- Rounding keeps a number between two values of the format. -/
theorem round_nearest_between (fmt : Format) (hp : 1 ≤ fmt.p) (he : fmt.emin ≤ fmt.emax)
    (w x v : ℚ) (hw : is_rep fmt w) (hv : is_rep fmt v) (h1 : w ≤ x) (h2 : x ≤ v) :
    ∃ r, round_nearest fmt x = Fl.fin r ∧ w ≤ r ∧ r ≤ v := by
  have hw0 := is_rep_nonneg fmt w hw
  rcases lt_or_eq_of_le (le_trans hw0 h1) with hx | hx
  · rw [round_nearest_of_pos fmt x hx]
    obtain ⟨r, hr, _, hrv⟩ := round_pos_le fmt he x v hx h2 hv
    rcases round_pos_ge fmt hp he x w h1 hw with h | ⟨r', hr', hwr⟩
    · rw [hr] at h
      cases h
    · rw [hr] at hr'
      have := Fl.fin.inj hr'
      subst this
      exact ⟨r, hr, hwr, hrv⟩
  · subst hx
    exact ⟨0, round_nearest_zero fmt, h1, h2⟩

/-- A finite result of rounding a non-negative number is a value of the
format. -/
theorem round_nearest_rep (fmt : Format) (hp : 1 ≤ fmt.p) (he : fmt.emin ≤ fmt.emax) (x r : ℚ)
    (hx : 0 ≤ x) (h : round_nearest fmt x = Fl.fin r) : is_rep fmt r := by
  rcases lt_or_eq_of_le hx with hx | hx
  · rw [round_nearest_of_pos fmt x hx] at h
    exact round_pos_rep fmt hp he x r hx h
  · subst hx
    rw [round_nearest_zero] at h
    rw [← Fl.fin.inj h]
    exact is_rep_zero fmt he


theorem round_pos_shape (fmt : Format) (x : ℚ) :
    round_pos fmt x = Fl.pinf ∨ ∃ r, round_pos fmt x = Fl.fin r := by
  unfold round_pos
  simp only []
  split
  · exact Or.inl rfl
  · exact Or.inr ⟨_, rfl⟩

theorem round_nearest_ne_nan (fmt : Format) (x : ℚ) : round_nearest fmt x ≠ Fl.nan := by
  unfold round_nearest
  split
  · simp
  · split
    · rcases round_pos_shape fmt x with h | ⟨r, h⟩ <;> rw [h] <;> simp
    · rcases round_pos_shape fmt (-x) with h | ⟨r, h⟩ <;> rw [h] <;> simp [Fl.neg]

theorem round_nearest_nonneg (fmt : Format) (x : ℚ) (hx : 0 ≤ x) :
    Fl.le (Fl.fin 0) (round_nearest fmt x) = true := by
  rcases lt_or_eq_of_le hx with hx | hx
  · rw [round_nearest_of_pos fmt x hx]
    rcases round_pos_cases fmt x hx with h | ⟨r, h, hr⟩
    · rw [h]
      rfl
    · rw [h]
      simpa [Fl.le] using hr
  · rw [← hx, round_nearest_zero]
    simp [Fl.le]

/-- Rounding is below every value of the format that the number is below. -/
theorem round_nearest_le_rep (fmt : Format) (he : fmt.emin ≤ fmt.emax) (x v : ℚ)
    (hv : is_rep fmt v) (hxv : x ≤ v) : Fl.le (round_nearest fmt x) (Fl.fin v) = true := by
  have hv0 := is_rep_nonneg fmt v hv
  rcases lt_trichotomy x 0 with hx | hx | hx
  · rw [round_nearest_of_neg fmt x hx]
    rcases round_pos_cases fmt (-x) (by linarith) with h | ⟨r, h, hr⟩
    · rw [h]
      rfl
    · rw [h]
      simp only [Fl.neg, Fl.le, decide_eq_true_eq]
      linarith
  · rw [hx, round_nearest_zero]
    simpa [Fl.le] using hv0
  · rw [round_nearest_of_pos fmt x hx]
    obtain ⟨r, hr, _, hrv⟩ := round_pos_le fmt he x v hx hxv hv
    rw [hr]
    simpa [Fl.le] using hrv

/-! ### Arithmetic on values that are not NaN -/

theorem Fl.add_fin_fin (fmt : Format) (a b : ℚ) :
    Fl.add fmt (Fl.fin a) (Fl.fin b) = round_nearest fmt (a + b) := rfl

theorem Fl.sub_fin_fin (fmt : Format) (a b : ℚ) :
    Fl.sub fmt (Fl.fin a) (Fl.fin b) = round_nearest fmt (a + -b) := rfl

theorem Fl.mul_fin_fin (fmt : Format) (a b : ℚ) :
    Fl.mul fmt (Fl.fin a) (Fl.fin b) = round_nearest fmt (a * b) := rfl

theorem Fl.div_fin_fin (fmt : Format) (a b : ℚ) (hb : b ≠ 0) :
    Fl.div fmt (Fl.fin a) (Fl.fin b) = round_nearest fmt (a / b) := by
  simp only [Fl.div, if_neg hb]

theorem Fl.nan_add (fmt : Format) (a : Fl) : Fl.add fmt Fl.nan a = Fl.nan := by
  cases a <;> rfl

theorem Fl.add_nan (fmt : Format) (a : Fl) : Fl.add fmt a Fl.nan = Fl.nan := by
  cases a <;> rfl

theorem Fl.sub_nan (fmt : Format) (a : Fl) : Fl.sub fmt a Fl.nan = Fl.nan := by
  cases a <;> rfl

theorem Fl.nan_mul (fmt : Format) (a : Fl) : Fl.mul fmt Fl.nan a = Fl.nan := by
  cases a <;> rfl

theorem Fl.mul_nan (fmt : Format) (a : Fl) : Fl.mul fmt a Fl.nan = Fl.nan := by
  cases a <;> rfl

theorem Fl.is_finite_iff (a : Fl) : a.is_finite = true ↔ ∃ q, a = Fl.fin q := by
  cases a <;> simp [Fl.is_finite]

theorem Fl.neg_ne_nan (a : Fl) (ha : a ≠ Fl.nan) : Fl.neg a ≠ Fl.nan := by
  cases a <;> simp_all [Fl.neg]

theorem Fl.add_fin_ne_nan (fmt : Format) (a : Fl) (b : ℚ) (ha : a ≠ Fl.nan) :
    Fl.add fmt a (Fl.fin b) ≠ Fl.nan := by
  cases a with
  | fin q => exact round_nearest_ne_nan fmt _
  | pinf => simp [Fl.add]
  | ninf => simp [Fl.add]
  | nan => exact absurd rfl ha

theorem Fl.fin_add_ne_nan (fmt : Format) (a : Fl) (b : ℚ) (ha : a ≠ Fl.nan) :
    Fl.add fmt (Fl.fin b) a ≠ Fl.nan := by
  cases a with
  | fin q => exact round_nearest_ne_nan fmt _
  | pinf => simp [Fl.add]
  | ninf => simp [Fl.add]
  | nan => exact absurd rfl ha

theorem Fl.div_pos_ne_nan (fmt : Format) (a : Fl) (s : ℚ) (ha : a ≠ Fl.nan) (hs : 0 < s) :
    Fl.div fmt a (Fl.fin s) ≠ Fl.nan := by
  cases a with
  | fin q =>
    simp only [Fl.div, if_neg hs.ne']
    exact round_nearest_ne_nan fmt _
  | pinf => simp [Fl.div, hs.le]
  | ninf => simp [Fl.div, hs.le]
  | nan => exact absurd rfl ha

theorem Fl.nonneg_mul_self (fmt : Format) (a : Fl) (ha : a ≠ Fl.nan) :
    Fl.le (Fl.fin 0) (Fl.mul fmt a a) = true := by
  cases a with
  | fin q => exact round_nearest_nonneg fmt _ (mul_self_nonneg q)
  | pinf => rfl
  | ninf => rfl
  | nan => exact absurd rfl ha

theorem Fl.nonneg_cases (a : Fl) (ha : Fl.le (Fl.fin 0) a = true) :
    a = Fl.pinf ∨ ∃ q, 0 ≤ q ∧ a = Fl.fin q := by
  cases a with
  | fin q => exact Or.inr ⟨q, by simpa [Fl.le] using ha, rfl⟩
  | pinf => exact Or.inl rfl
  | ninf => simp [Fl.le] at ha
  | nan => simp [Fl.le] at ha

theorem Fl.nonneg_add (fmt : Format) (a b : Fl) (ha : Fl.le (Fl.fin 0) a = true)
    (hb : Fl.le (Fl.fin 0) b = true) : Fl.le (Fl.fin 0) (Fl.add fmt a b) = true := by
  rcases Fl.nonneg_cases a ha with rfl | ⟨q, hq, rfl⟩ <;>
    rcases Fl.nonneg_cases b hb with rfl | ⟨q', hq', rfl⟩
  · rfl
  · rfl
  · rfl
  · exact round_nearest_nonneg fmt _ (add_nonneg hq hq')

theorem Fl.nonneg_mul_pos (fmt : Format) (r : ℚ) (b : Fl) (hr : 0 < r)
    (hb : Fl.le (Fl.fin 0) b = true) : Fl.le (Fl.fin 0) (Fl.mul fmt (Fl.fin r) b) = true := by
  rcases Fl.nonneg_cases b hb with rfl | ⟨q, hq, rfl⟩
  · simp [Fl.mul, hr.ne', hr, Fl.le]
  · exact round_nearest_nonneg fmt _ (mul_nonneg hr.le hq)

/-! ### Sizes as floating-point values -/

theorem binary32_p : 1 ≤ binary32.p := by decide
theorem binary32_e : binary32.emin ≤ binary32.emax := by decide
theorem binary64_p : 1 ≤ binary64.p := by decide
theorem binary64_e : binary64.emin ≤ binary64.emax := by decide

theorem pow2_zero : pow2 0 = 1 := by
  rw [pow2_eq_zpow]
  norm_num

theorem pow2_32 : pow2 32 = 2 ^ 32 := by
  rw [show (32 : ℤ) = ((32 : ℕ) : ℤ) from rfl, pow2_natCast]

theorem pow2_neg_32 : pow2 (-32) = 1 / 2 ^ 32 := by
  rw [pow2_eq_zpow, zpow_neg, show (32 : ℤ) = ((32 : ℕ) : ℤ) from rfl, zpow_natCast, one_div]

/-- A size from `1` to `2 ^ 32` converts to a finite value in the same range,
in `float` and in `double`. -/
theorem round_size (fmt : Format) (hp : 1 ≤ fmt.p) (he : fmt.emin ≤ fmt.emax)
    (h1 : fmt.emin - fmt.p + 1 ≤ -32) (h2 : 32 ≤ fmt.emax - fmt.p + 1) (n : ℕ) (hn1 : 1 ≤ n)
    (hn2 : n ≤ 2 ^ 32) :
    ∃ s, round_nearest fmt (n : ℚ) = Fl.fin s ∧ 1 ≤ s ∧ s ≤ 2 ^ 32 := by
  have := round_nearest_between fmt hp he (pow2 0) n (pow2 32)
    (is_rep_pow2 fmt hp 0 (by omega) (by omega)) (is_rep_pow2 fmt hp 32 (by omega) h2)
    (by rw [pow2_zero]; exact_mod_cast hn1) (by rw [pow2_32]; exact_mod_cast hn2)
  rw [pow2_zero, pow2_32] at this
  exact this

/-- The quotient of two values between `1` and `2 ^ 32` is finite and
positive. -/
theorem div_sizes_pos (fmt : Format) (hp : 1 ≤ fmt.p) (he : fmt.emin ≤ fmt.emax)
    (h1 : fmt.emin - fmt.p + 1 ≤ -32) (h2 : 32 ≤ fmt.emax - fmt.p + 1) (a s : ℚ)
    (ha1 : 1 ≤ a) (ha2 : a ≤ 2 ^ 32) (hs1 : 1 ≤ s) (hs2 : s ≤ 2 ^ 32) :
    ∃ r, Fl.div fmt (Fl.fin a) (Fl.fin s) = Fl.fin r ∧ 0 < r := by
  have hs0 : 0 < s := by linarith
  have hlow : pow2 (-32) ≤ a / s := by
    rw [pow2_neg_32, le_div_iff₀ hs0]
    calc 1 / 2 ^ 32 * s ≤ 1 / 2 ^ 32 * 2 ^ 32 :=
          mul_le_mul_of_nonneg_left hs2 (by positivity)
      _ = 1 := by norm_num
      _ ≤ a := ha1
  have hhigh : a / s ≤ pow2 32 := by
    rw [pow2_32, div_le_iff₀ hs0]
    calc a ≤ 2 ^ 32 := ha2
      _ = 2 ^ 32 * 1 := by ring
      _ ≤ 2 ^ 32 * s := mul_le_mul_of_nonneg_left hs1 (by positivity)
  obtain ⟨r, hr, hr1, _⟩ := round_nearest_between fmt hp he (pow2 (-32)) (a / s) (pow2 32)
    (is_rep_pow2 fmt hp (-32) h1 (by omega)) (is_rep_pow2 fmt hp 32 (by omega) h2) hlow hhigh
  refine ⟨r, ?_, lt_of_lt_of_le (pow2_pos _) hr1⟩
  simp only [Fl.div, if_neg hs0.ne']
  exact hr


/-! ### Variance and objective in floating point -/

theorem Point3f.finite_coords (a : Point3f) (h : a.is_finite = true) :
    ∃ x y z, a = ⟨Fl.fin x, Fl.fin y, Fl.fin z⟩ := by
  obtain ⟨ax, ay, az⟩ := a
  simp only [Point3f.is_finite, Bool.and_eq_true] at h
  obtain ⟨⟨h1, h2⟩, h3⟩ := h
  obtain ⟨x, rfl⟩ := (Fl.is_finite_iff ax).mp h1
  obtain ⟨y, rfl⟩ := (Fl.is_finite_iff ay).mp h2
  obtain ⟨z, rfl⟩ := (Fl.is_finite_iff az).mp h3
  exact ⟨x, y, z, rfl⟩

theorem sum_labels_ne_nan : ∀ (l : List LabeledPixel) (tmp : Point3f),
    (∀ p ∈ l, p.label_.is_finite = true) → tmp.x ≠ Fl.nan → tmp.y ≠ Fl.nan →
    tmp.z ≠ Fl.nan →
    (sum_labels l tmp).x ≠ Fl.nan ∧ (sum_labels l tmp).y ≠ Fl.nan ∧
      (sum_labels l tmp).z ≠ Fl.nan := by
  intro l
  induction l with
  | nil => intro tmp _ hx hy hz; exact ⟨hx, hy, hz⟩
  | cons p ps ih =>
    intro tmp hfin hx hy hz
    obtain ⟨x, y, z, hp⟩ := Point3f.finite_coords p.label_ (hfin p (List.mem_cons_self _ _))
    simp only [sum_labels, hp]
    exact ih _ (fun q hq => hfin q (List.mem_cons_of_mem _ hq))
      (Fl.add_fin_ne_nan _ _ _ hx) (Fl.add_fin_ne_nan _ _ _ hy) (Fl.add_fin_ne_nan _ _ _ hz)

theorem sum_sq_nonneg (mean : Point3f) (hx : mean.x ≠ Fl.nan) (hy : mean.y ≠ Fl.nan)
    (hz : mean.z ≠ Fl.nan) : ∀ (l : List LabeledPixel) (sum : Fl),
    (∀ p ∈ l, p.label_.is_finite = true) → Fl.le (Fl.fin 0) sum = true →
    Fl.le (Fl.fin 0) (sum_sq mean l sum) = true := by
  intro l
  induction l with
  | nil => intro sum _ h; exact h
  | cons p ps ih =>
    intro sum hfin hsum
    obtain ⟨x, y, z, hp⟩ := Point3f.finite_coords p.label_ (hfin p (List.mem_cons_self _ _))
    simp only [sum_sq, hp]
    apply ih _ (fun q hq => hfin q (List.mem_cons_of_mem _ hq))
    apply Fl.nonneg_add _ _ _ hsum
    apply Fl.nonneg_add
    · apply Fl.nonneg_add
      · exact Fl.nonneg_mul_self _ _ (Fl.fin_add_ne_nan _ _ _ (Fl.neg_ne_nan _ hx))
      · exact Fl.nonneg_mul_self _ _ (Fl.fin_add_ne_nan _ _ _ (Fl.neg_ne_nan _ hy))
    · exact Fl.nonneg_mul_self _ _ (Fl.fin_add_ne_nan _ _ _ (Fl.neg_ne_nan _ hz))

/-- On a non-empty list of fewer than `2 ^ 32` samples with finite labels,
`variance` is the product of a positive finite `V` and a sum that is
non-negative or `+inf`. -/
theorem variance_shape (l : List LabeledPixel) (hne : l ≠ []) (hlen : l.length < 2 ^ 32)
    (hfin : ∀ p ∈ l, p.label_.is_finite = true) :
    ∃ (r : ℚ) (s : Fl), 0 < r ∧ Fl.le (Fl.fin 0) s = true ∧
      variance l = Fl.mul binary64 (Fl.fin r) s := by
  have h0 : l.length ≠ 0 := fun h => hne (List.length_eq_zero.mp h)
  obtain ⟨s64, hs64, hs64a, hs64b⟩ := round_size binary64 binary64_p binary64_e (by decide)
    (by decide) l.length (by omega) (by omega)
  obtain ⟨r, hr, hrpos⟩ := div_sizes_pos binary64 binary64_p binary64_e (by decide) (by decide)
    1 s64 (le_refl _) (by norm_num) hs64a hs64b
  obtain ⟨s32, hs32, hs32a, _⟩ := round_size binary32 binary32_p binary32_e (by decide)
    (by decide) l.length (by omega) (by omega)
  have hs32pos : 0 < s32 := by linarith
  obtain ⟨hx, hy, hz⟩ := sum_labels_ne_nan l ⟨Fl.fin 0, Fl.fin 0, Fl.fin 0⟩ hfin (by simp)
    (by simp) (by simp)
  refine ⟨r, _, hrpos, sum_sq_nonneg
    ⟨Fl.div binary32 (sum_labels l ⟨Fl.fin 0, Fl.fin 0, Fl.fin 0⟩).x (Fl.fin s32),
     Fl.div binary32 (sum_labels l ⟨Fl.fin 0, Fl.fin 0, Fl.fin 0⟩).y (Fl.fin s32),
     Fl.div binary32 (sum_labels l ⟨Fl.fin 0, Fl.fin 0, Fl.fin 0⟩).z (Fl.fin s32)⟩
    (Fl.div_pos_ne_nan _ _ _ hx hs32pos) (Fl.div_pos_ne_nan _ _ _ hy hs32pos)
    (Fl.div_pos_ne_nan _ _ _ hz hs32pos) l (Fl.fin 0) hfin (by simp [Fl.le]), ?_⟩
  unfold variance
  rw [if_neg h0]
  simp only [Nat.mod_eq_of_lt hlen, hs64, hs32, hr]

theorem variance_nonneg_of_finite (l : List LabeledPixel) (hlen : l.length < 2 ^ 32)
    (hfin : ∀ p ∈ l, p.label_.is_finite = true) : Fl.le (Fl.fin 0) (variance l) = true := by
  by_cases hne : l = []
  · subst hne
    simp [variance, Fl.le]
  · obtain ⟨r, s, hr, hs, h⟩ := variance_shape l hne hlen hfin
    rw [h]
    exact Fl.nonneg_mul_pos _ r s hr hs

/-- A finite variance is a `double`. -/
theorem variance_rep (l : List LabeledPixel) (hlen : l.length < 2 ^ 32)
    (hfin : ∀ p ∈ l, p.label_.is_finite = true) (v : ℚ) (hv : variance l = Fl.fin v) :
    is_rep binary64 v := by
  by_cases hne : l = []
  · subst hne
    have h0 : variance [] = Fl.fin 0 := by simp [variance]
    rw [h0] at hv
    rw [← Fl.fin.inj hv]
    exact is_rep_zero binary64 binary64_e
  · obtain ⟨r, s, hr, hs, h⟩ := variance_shape l hne hlen hfin
    rw [h] at hv
    rcases Fl.nonneg_cases s hs with rfl | ⟨q, hq, rfl⟩
    · simp [Fl.mul, hr.ne', hr] at hv
    · exact round_nearest_rep binary64 binary64_p binary64_e (r * q) v (mul_nonneg hr.le hq) hv

/-- The term `(|L| / |S|) * variance(L)` of the objective is non-negative or
`+inf`. -/
theorem weighted_variance_nonneg (S L : List LabeledPixel) (hS : S ≠ [])
    (hSlen : S.length < 2 ^ 32) (hLlen : L.length < 2 ^ 32)
    (hfin : ∀ p ∈ L, p.label_.is_finite = true) :
    Fl.le (Fl.fin 0) (Fl.mul binary64
      (Fl.div binary64 (round_nearest binary64 (L.length : ℚ))
        (round_nearest binary64 (S.length : ℚ))) (variance L)) = true := by
  have h0 : S.length ≠ 0 := fun h => hS (List.length_eq_zero.mp h)
  obtain ⟨s, hs, hs1, hs2⟩ := round_size binary64 binary64_p binary64_e (by decide)
    (by decide) S.length (by omega) (by omega)
  rw [hs]
  by_cases hL : L = []
  · subst hL
    have hs0 : s ≠ 0 := by linarith
    simp [variance, round_nearest_zero, Fl.div, Fl.mul, hs0, Fl.le]
  · have hL0 : L.length ≠ 0 := fun h => hL (List.length_eq_zero.mp h)
    obtain ⟨a, ha, ha1, ha2⟩ := round_size binary64 binary64_p binary64_e (by decide)
      (by decide) L.length (by omega) (by omega)
    obtain ⟨r, hr, hrpos⟩ := div_sizes_pos binary64 binary64_p binary64_e (by decide)
      (by decide) a s ha1 ha2 hs1 hs2
    rw [ha, hr]
    exact Fl.nonneg_mul_pos _ r _ hrpos (variance_nonneg_of_finite L hLlen hfin)

theorem objective_le_of_finite (S left right : List LabeledPixel) (hS : S ≠ [])
    (hSlen : S.length < 2 ^ 32) (hfin : ∀ p ∈ S, p.label_.is_finite = true)
    (hsub : (left ++ right).Subperm S) (v : ℚ) (hv : variance S = Fl.fin v) :
    Fl.le (objective_function S left right) (variance S) = true := by
  have hlenle := hsub.length_le
  rw [List.length_append] at hlenle
  have hmem : ∀ p, p ∈ left ++ right → p ∈ S := fun p hp => hsub.subset hp
  have hl := weighted_variance_nonneg S left hS hSlen (by omega)
    (fun p hp => hfin p (hmem p (List.mem_append_left _ hp)))
  have hr := weighted_variance_nonneg S right hS hSlen (by omega)
    (fun p hp => hfin p (hmem p (List.mem_append_right _ hp)))
  have hsum := Fl.nonneg_add binary64 _ _ hl hr
  have hrep := variance_rep S hSlen hfin v hv
  unfold objective_function
  simp only []
  rw [hv]
  rcases Fl.nonneg_cases _ hsum with h | ⟨q, hq, h⟩
  · rw [h]
    rfl
  · rw [h]
    simp only [Fl.sub, Fl.neg, Fl.add]
    exact round_nearest_le_rep binary64 binary64_e _ v hrep (by linarith)


/-! ### Identical labels -/

theorem sum_labels_identical (ax ay az : ℚ) : ∀ (l : List LabeledPixel) (k : ℕ),
    (∀ p ∈ l, p.label_ = ⟨Fl.fin ax, Fl.fin ay, Fl.fin az⟩) →
    (∀ j : ℕ, k < j → j ≤ k + l.length →
      round_nearest binary32 (j * ax) = Fl.fin (j * ax) ∧
      round_nearest binary32 (j * ay) = Fl.fin (j * ay) ∧
      round_nearest binary32 (j * az) = Fl.fin (j * az)) →
    sum_labels l ⟨Fl.fin (k * ax), Fl.fin (k * ay), Fl.fin (k * az)⟩ =
      ⟨Fl.fin (((k + l.length : ℕ) : ℚ) * ax), Fl.fin (((k + l.length : ℕ) : ℚ) * ay),
        Fl.fin (((k + l.length : ℕ) : ℚ) * az)⟩ := by
  intro l
  induction l with
  | nil => intro k _ _; simp [sum_labels]
  | cons p ps ih =>
    intro k hsame hex
    have hp := hsame p (List.mem_cons_self _ _)
    obtain ⟨h1, h2, h3⟩ := hex (k + 1) (by omega) (by simp)
    have e1 : (k : ℚ) * ax + ax = ((k + 1 : ℕ) : ℚ) * ax := by push_cast; ring
    have e2 : (k : ℚ) * ay + ay = ((k + 1 : ℕ) : ℚ) * ay := by push_cast; ring
    have e3 : (k : ℚ) * az + az = ((k + 1 : ℕ) : ℚ) * az := by push_cast; ring
    simp only [sum_labels, hp, Fl.add_fin_fin, e1, e2, e3, h1, h2, h3]
    rw [ih (k + 1) (fun q hq => hsame q (List.mem_cons_of_mem _ hq))
      (fun j hj1 hj2 => hex j (by omega) (by simp only [List.length_cons]; omega))]
    simp only [List.length_cons]
    have : k + 1 + ps.length = k + (ps.length + 1) := by omega
    rw [this]

theorem sum_sq_identical (ax ay az : ℚ) : ∀ (l : List LabeledPixel),
    (∀ p ∈ l, p.label_ = ⟨Fl.fin ax, Fl.fin ay, Fl.fin az⟩) →
    sum_sq ⟨Fl.fin ax, Fl.fin ay, Fl.fin az⟩ l (Fl.fin 0) = Fl.fin 0 := by
  intro l
  induction l with
  | nil => intro _; rfl
  | cons p ps ih =>
    intro hsame
    have hp := hsame p (List.mem_cons_self _ _)
    simp only [sum_sq, hp, Fl.sub_fin_fin, Fl.add_fin_fin, Fl.mul_fin_fin, add_neg_cancel,
      mul_zero, add_zero, round_nearest_zero]
    exact ih (fun q hq => hsame q (List.mem_cons_of_mem _ hq))

theorem variance_identical (l : List LabeledPixel) (ax ay az : ℚ) (hne : l ≠ [])
    (hlen : l.length < 2 ^ 32)
    (hsame : ∀ p ∈ l, p.label_ = ⟨Fl.fin ax, Fl.fin ay, Fl.fin az⟩)
    (hsum : ∀ j : ℕ, 1 ≤ j → j ≤ l.length →
      round_nearest binary32 (j * ax) = Fl.fin (j * ax) ∧
      round_nearest binary32 (j * ay) = Fl.fin (j * ay) ∧
      round_nearest binary32 (j * az) = Fl.fin (j * az))
    (hcount : round_nearest binary32 (l.length : ℚ) = Fl.fin (l.length : ℚ)) :
    variance l = Fl.fin 0 := by
  have h0 : l.length ≠ 0 := fun h => hne (List.length_eq_zero.mp h)
  have hq0 : (l.length : ℚ) ≠ 0 := by exact_mod_cast h0
  obtain ⟨s64, hs64, hs64a, hs64b⟩ := round_size binary64 binary64_p binary64_e (by decide)
    (by decide) l.length (by omega) (by omega)
  obtain ⟨r, hr, _⟩ := div_sizes_pos binary64 binary64_p binary64_e (by decide) (by decide)
    1 s64 (le_refl _) (by norm_num) hs64a hs64b
  have hsl := sum_labels_identical ax ay az l 0 hsame
    (fun j hj1 hj2 => hsum j (by omega) (by omega))
  simp only [Nat.cast_zero, zero_mul, zero_add] at hsl
  obtain ⟨h1x, h1y, h1z⟩ := hsum 1 (le_refl _) (by omega)
  simp only [Nat.cast_one, one_mul] at h1x h1y h1z
  unfold variance
  rw [if_neg h0]
  simp only [Nat.mod_eq_of_lt hlen, hs64, hr, hcount, hsl, Fl.div_fin_fin _ _ _ hq0,
    mul_div_cancel_left₀ _ hq0, h1x, h1y, h1z, sum_sq_identical ax ay az l hsame,
    Fl.mul_fin_fin, mul_zero, round_nearest_zero]

/-! ### A wrapped size -/

theorem sum_labels_zero : ∀ (n : ℕ),
    sum_labels (List.replicate n (sample_x 0)) ⟨Fl.fin 0, Fl.fin 0, Fl.fin 0⟩ =
      ⟨Fl.fin 0, Fl.fin 0, Fl.fin 0⟩ := by
  intro n
  induction n with
  | zero => rfl
  | succ n ih =>
    simp only [List.replicate_succ, sum_labels, sample_x, Fl.add_fin_fin, add_zero,
      round_nearest_zero]
    exact ih

theorem sum_sq_nan_mean (mean : Point3f) (hx : mean.x = Fl.nan) : ∀ (l : List LabeledPixel)
    (sum : Fl), l ≠ [] → sum_sq mean l sum = Fl.nan := by
  have hacc : ∀ (l : List LabeledPixel), sum_sq mean l Fl.nan = Fl.nan := by
    intro l
    induction l with
    | nil => rfl
    | cons p ps ih =>
      simp only [sum_sq, Fl.nan_add]
      exact ih
  intro l sum hl
  cases l with
  | nil => exact absurd rfl hl
  | cons p ps =>
    simp only [sum_sq, hx, Fl.sub_nan, Fl.nan_mul, Fl.nan_add, Fl.add_nan]
    exact hacc ps

/-- At a length that is a non-zero multiple of `2 ^ 32`, `uint32_t size` is
`0`: on labels `(0, 0, 0)` the mean is `0.0f / 0` and the variance is NaN. -/
theorem variance_wrapped_size_nan (n : ℕ) (hn : n ≠ 0) (hmod : n % 2 ^ 32 = 0) :
    variance (List.replicate n (sample_x 0)) = Fl.nan := by
  unfold variance
  rw [if_neg (by simpa using hn)]
  simp only [List.length_replicate, hmod, Nat.cast_zero, round_nearest_zero, sum_labels_zero]
  rw [sum_sq_nan_mean _ (by simp [Fl.div]) _ _ (by
    intro h
    have := congrArg List.length h
    simp at this
    exact hn this)]
  exact Fl.mul_nan _ _

end IEEE

namespace IEEE

/-! ### Claims about the floating-point values -/

/-- Rounding leaves a value of the format as it is. -/
theorem round_nearest_of_rep (fmt : Format) (hp : 1 ≤ fmt.p) (he : fmt.emin ≤ fmt.emax)
    (v : ℚ) (hv : is_rep fmt v) : round_nearest fmt v = Fl.fin v := by
  obtain ⟨r, hr, h1, h2⟩ := round_nearest_between fmt hp he v v v hv hv (le_refl _) (le_refl _)
  rw [hr, le_antisymm h2 h1]

/-- With both subsets empty the objective is the variance of `S`, also in
floating point. -/
theorem objective_without_subsets (S : List LabeledPixel) (hS : S ≠ [])
    (hlen : S.length < 2 ^ 32) (hfin : ∀ p ∈ S, p.label_.is_finite = true) :
    objective_function S [] [] = variance S := by
  have h0 : S.length ≠ 0 := fun h => hS (List.length_eq_zero.mp h)
  obtain ⟨s, hs, hs1, _⟩ := round_size binary64 binary64_p binary64_e (by decide)
    (by decide) S.length (by omega) (by omega)
  have hs0 : s ≠ 0 := by linarith
  have hnil : variance [] = Fl.fin 0 := by simp [variance]
  unfold objective_function
  simp only [List.length_nil, Nat.cast_zero, round_nearest_zero, hs, Fl.div_fin_fin _ _ _ hs0,
    zero_div, hnil, Fl.mul_fin_fin, mul_zero, Fl.add_fin_fin, add_zero]
  rcases Fl.nonneg_cases _ (variance_nonneg_of_finite S hlen hfin) with h | ⟨v, _, h⟩
  · rw [h]
    rfl
  · rw [h, Fl.sub_fin_fin, neg_zero, add_zero]
    exact round_nearest_of_rep binary64 binary64_p binary64_e v (variance_rep S hlen hfin v h)

/-- C4 (as amended): on every list of fewer than `2 ^ 32` samples whose labels
are finite, the value of `variance` is not NaN and not negative (`0 <=
variance` holds; the value is `+inf` when the squares overflow), and on the
empty list it is exactly `0`. -/
theorem variance_nonneg_finite_labels (l : List LabeledPixel) (hlen : l.length < 2 ^ 32)
    (hfin : ∀ p ∈ l, p.label_.is_finite = true) :
    Fl.le (Fl.fin 0) (variance l) = true ∧ variance l ≠ Fl.nan ∧ variance [] = Fl.fin 0 := by
  have h := variance_nonneg_of_finite l hlen hfin
  refine ⟨h, ?_, by simp [variance]⟩
  intro hnan
  rw [hnan] at h
  simp [Fl.le] at h

/-- The statement of C4 as amended on three samples with the labels
`(1, 0, 0)`, `(3, 0, 0)`, `(5, 0, 0)`, and on the two samples `(0, 0, 0)`,
`(1e30f, 0, 0)`, whose squares overflow: the variance is `+inf` there. -/
theorem variance_nonneg_finite_labels_witness :
    (Fl.le (Fl.fin 0) (variance [sample_x 1, sample_x 3, sample_x 5]) = true ∧
      variance [sample_x 1, sample_x 3, sample_x 5] ≠ Fl.nan ∧ variance [] = Fl.fin 0) ∧
    (Fl.le (Fl.fin 0) (variance [sample_x 0, sample_x flt_1e30]) = true ∧
      variance [sample_x 0, sample_x flt_1e30] ≠ Fl.nan ∧ variance [] = Fl.fin 0) ∧
    variance [sample_x 0, sample_x flt_1e30] = Fl.pinf :=
  ⟨variance_nonneg_finite_labels [sample_x 1, sample_x 3, sample_x 5] (by simp)
      (by intro p hp; simp at hp; rcases hp with rfl | rfl | rfl <;> rfl),
    variance_nonneg_finite_labels [sample_x 0, sample_x flt_1e30] (by simp)
      (by intro p hp; simp at hp; rcases hp with rfl | rfl <;> rfl),
    by decide!⟩

/-- C4 (counterexample): a label with an infinite coordinate makes the sum and
the mean infinite and the difference `inf - inf` NaN; the variance is NaN, and
`0 <= NaN` is false. -/
theorem variance_nan_infinite_label :
    variance [sample_inf] = Fl.nan ∧
    variance [sample_x 0, sample_x 1, sample_inf] = Fl.nan ∧
    Fl.le (Fl.fin 0) (variance [sample_x 0, sample_x 1, sample_inf]) = false := by
  refine ⟨by decide!, by decide!, by decide!⟩

/-- C5 (as amended): for non-empty `S` of fewer than `2 ^ 32` samples with
finite labels whose variance is finite, and for `left`, `right` that are
disjoint sub-collections of `S`, `objective <= variance(S)` holds. -/
theorem objective_le_finite_variance (S left right : List LabeledPixel) (hS : S ≠ [])
    (hSlen : S.length < 2 ^ 32) (hfin : ∀ p ∈ S, p.label_.is_finite = true)
    (hsub : (left ++ right).Subperm S) (hvar : (variance S).is_finite = true) :
    Fl.le (objective_function S left right) (variance S) = true := by
  obtain ⟨v, hv⟩ := (Fl.is_finite_iff _).mp hvar
  exact objective_le_of_finite S left right hS hSlen hfin hsub v hv

/-- The bound of C5 as amended at a four-sample set with the labels `1, 3, 5,
7` split into two samples and one sample: the variance is `5`, the objective
`5 - (2/4 * 1 + 1/4 * 0) = 4.5`. -/
theorem objective_le_finite_variance_witness :
    variance [sample_x 1, sample_x 3, sample_x 5, sample_x 7] = Fl.fin 5 ∧
    objective_function [sample_x 1, sample_x 3, sample_x 5, sample_x 7]
        [sample_x 1, sample_x 3] [sample_x 7] = Fl.fin (9 / 2) ∧
    Fl.le (objective_function [sample_x 1, sample_x 3, sample_x 5, sample_x 7]
        [sample_x 1, sample_x 3] [sample_x 7])
      (variance [sample_x 1, sample_x 3, sample_x 5, sample_x 7]) = true :=
  ⟨by decide!, by decide!,
    objective_le_finite_variance [sample_x 1, sample_x 3, sample_x 5, sample_x 7]
      [sample_x 1, sample_x 3] [sample_x 7] (by simp) (by simp)
      (by intro p hp; simp at hp; rcases hp with rfl | rfl | rfl | rfl <;> rfl)
      (List.Sublist.subperm
        (List.Sublist.cons₂ _ (List.Sublist.cons₂ _ (List.Sublist.cons _
          (List.Sublist.cons₂ _ List.Sublist.slnil)))))
      (by decide!)⟩

/-- C5 (counterexample): on `S` with the labels `(0, 0, 0)` and
`(1e30f, 0, 0)` the `float` product `val.x * val.x` overflows and
`variance(S)` is `+inf`; with `left = S` and `right` empty the objective is
`inf - inf`, NaN, and `objective <= variance(S)` is false. -/
theorem objective_nan_on_overflow :
    round_nearest binary32 (10 ^ 30) = Fl.fin flt_1e30 ∧
    variance [sample_x 0, sample_x flt_1e30] = Fl.pinf ∧
    objective_function [sample_x 0, sample_x flt_1e30] [sample_x 0, sample_x flt_1e30] [] =
      Fl.nan ∧
    Fl.le (objective_function [sample_x 0, sample_x flt_1e30]
        [sample_x 0, sample_x flt_1e30] [])
      (variance [sample_x 0, sample_x flt_1e30]) = false := by
  refine ⟨by decide!, by decide!, by decide!, by decide!⟩

/-- C18 (as amended): on a non-empty list of fewer than `2 ^ 32` samples that
all have the label `(ax, ay, az)`, `variance` returns exactly `0` whenever the
partial sums `j * ax`, `j * ay`, `j * az` for `j = 1, ..., n` and the count
`n` are values of `float`. -/
theorem variance_identical_exact_sums (l : List LabeledPixel) (ax ay az : ℚ) (hne : l ≠ [])
    (hlen : l.length < 2 ^ 32)
    (hsame : ∀ p ∈ l, p.label_ = ⟨Fl.fin ax, Fl.fin ay, Fl.fin az⟩)
    (hsum : ∀ j : ℕ, 1 ≤ j → j ≤ l.length →
      round_nearest binary32 (j * ax) = Fl.fin (j * ax) ∧
      round_nearest binary32 (j * ay) = Fl.fin (j * ay) ∧
      round_nearest binary32 (j * az) = Fl.fin (j * az))
    (hcount : round_nearest binary32 (l.length : ℚ) = Fl.fin (l.length : ℚ)) :
    variance l = Fl.fin 0 :=
  variance_identical l ax ay az hne hlen hsame hsum hcount

/-- Scenario D: two samples with the label `(0.1f, 0.1f, 0.1f)` have the
variance `0`. -/
theorem variance_identical_exact_sums_witness :
    round_nearest binary32 (1 / 10) = Fl.fin flt_tenth ∧
    variance [sample_diag flt_tenth, sample_diag flt_tenth] = Fl.fin 0 :=
  ⟨by decide!,
    variance_identical_exact_sums _ flt_tenth flt_tenth flt_tenth (by simp) (by simp)
      (by intro p hp; simp at hp; rw [hp]; rfl)
      (by
        intro j h1 h2
        simp only [List.length_cons, List.length_nil] at h2
        interval_cases j <;> refine ⟨by decide!, by decide!, by decide!⟩)
      (by decide!)⟩

/-- C18 (counterexample): seven samples with the label `(0.1f, 0.1f, 0.1f)`:
the `float` sum of seven times `0.1f` is rounded, the mean differs from
`0.1f` in the last place, and the variance is `3 * 2 ^ (-54)`, about
`1.67e-16`, not `0`. -/
theorem variance_identical_rounded :
    round_nearest binary32 (1 / 10) = Fl.fin flt_tenth ∧
    (∀ p ∈ List.replicate 7 (sample_diag flt_tenth),
      p.label_ = ⟨Fl.fin flt_tenth, Fl.fin flt_tenth, Fl.fin flt_tenth⟩) ∧
    variance (List.replicate 7 (sample_diag flt_tenth)) = Fl.fin (3 / 2 ^ 54) ∧
    variance (List.replicate 7 (sample_diag flt_tenth)) ≠ Fl.fin 0 := by
  refine ⟨by decide!, ?_, by decide!, by decide!⟩
  intro p hp
  rw [List.eq_of_mem_replicate hp]
  rfl

/-- C20: on `S` with the labels `(0, 0, 0)` and `(1e30f, 0, 0)`, with the
collaborators `threshold_one`: every candidate routes the first sample `LEFT`
and the second `RIGHT`, and its objective is `+inf`, not below `DBL_MAX`. The
loop ends with candidate `0` as the feature to store and with `left_final` and
`right_final` empty, not the two one-sample lists that candidate `0` makes. -/
theorem finals_empty_under_splitting_feature :
    round_nearest binary32 (10 ^ 30) = Fl.fin flt_1e30 ∧
    partition threshold_one () [sample_x 0, sample_x flt_1e30] 0 =
      some ([sample_x 0], [sample_x flt_1e30]) ∧
    objective_function [sample_x 0, sample_x flt_1e30] [sample_x 0] [sample_x flt_1e30] =
      Fl.pinf ∧
    Fl.lt Fl.pinf (Fl.fin DBL_MAX) = false ∧
    (split_candidates threshold_one ⟨5, 640, 480⟩ () [sample_x 0, sample_x flt_1e30] 0).map
        (fun ls => (ls.candidate_params[ls.feature]?, ls.left_final, ls.right_final)) =
      some (some 0, [], []) := by
  refine ⟨by decide!, by decide!, by decide!, by decide!, by decide!⟩

end IEEE

/-! ## A split step whose candidates route nothing -/

/-- C15 (as amended): in a split step on `S` with `|S| ≥ 2` in which each of
the five candidate features the step draws routes every sample of `S` to
`TRASH`, each candidate's `left_data` and `right_data` are empty and its
objective is `variance S`; the call returns when `|S| < 2 ^ 32`, and when it
returns the node is marked split, not leaf, with a feature. The objective of
a candidate without subsets is the variance of the sample set in `double`
arithmetic too, for finite labels. -/
theorem split_all_trash {D F R : Type} (c : Collaborators D F R) (settings : Settings)
    (data : D) (fuel node : ℕ) (S : List LabeledPixel) (st : TreeState F R) (t : ℕ)
    (n : Node F) (hS2 : 2 ≤ S.length)
    (htrash : ∀ f ∈ draw_candidates c settings 5 st.random,
      ∀ p ∈ S, eval_learner c data p f = OUT.TRASH)
    (hnode : node < st.next) (hpb : parents_below st.heap)
    (ht : traverse_to_root st.heap st.next (some node) = some t)
    (hh : t % 2 ^ 16 < settings.max_tree_depth_) (hn : st.heap node = some n) :
    (∀ f ∈ draw_candidates c settings 5 st.random, ∀ left_data right_data,
      partition c data S f = some (left_data, right_data) →
      left_data = [] ∧ right_data = [] ∧ objective_function S left_data right_data = variance S) ∧
    (S.length < 2 ^ 32 →
      ∃ st', train_recurse c settings data (fuel + 2) node S st = some st') ∧
    (∀ st', train_recurse c settings data (fuel + 2) node S st = some st' →
      ∃ n' feat, st'.heap node = some n' ∧ n'.is_split_ = true ∧ n'.is_leaf_ = false ∧
        n'.feature_ = some feat) ∧
    (∀ T : List IEEE.LabeledPixel, T ≠ [] → T.length < 2 ^ 32 →
      (∀ p ∈ T, p.label_.is_finite = true) →
      IEEE.objective_function T [] [] = IEEE.variance T) := by
  have hleaf : ¬ (S.length = 1 ∨ t % 2 ^ 16 ≥ settings.max_tree_depth_) := by
    rintro (h | h) <;> omega
  have hS0 : S.length ≠ 0 := by omega
  refine ⟨?_, ?_, ?_, IEEE.objective_without_subsets⟩
  · intro f hf l r h
    obtain ⟨hl, hr⟩ := partition_all_trash c data S f (htrash f hf) l r h
    subst hl
    subst hr
    exact ⟨rfl, rfl, objective_no_subsets S⟩
  · intro hlen
    obtain ⟨ls, hls, hcp, _, hsel⟩ := split_candidates_selects c settings data S hlen st.random
    have hparams := split_candidates_params c settings data S st.random ls hls
    have hnil : ∀ f ∈ draw_candidates c settings 5 st.random,
        S.filter (fun p => eval_learner c data p f = OUT.LEFT) = [] ∧
        S.filter (fun p => eval_learner c data p f = OUT.RIGHT) = [] := by
      intro f hf
      constructor <;>
      · rw [List.filter_eq_nil_iff]
        intro p hp
        simp [htrash f hf p hp]
    rcases hsel with ⟨_, h0, hl, hr⟩ | ⟨f, hf, _, _, hl, hr, _⟩
    · have hlt : ls.feature < ls.candidate_params.length := by omega
      exact train_recurse_split_empty_finals c settings data fuel node S st t n ls
        (ls.candidate_params[ls.feature]) hnode hpb ht hleaf hS0 hn hls
        (List.getElem?_eq_getElem hlt) hl hr
    · have hmem : f ∈ draw_candidates c settings 5 st.random := by
        rw [← hparams]
        exact List.getElem?_mem hf
      exact train_recurse_split_empty_finals c settings data fuel node S st t n ls f hnode hpb
        ht hleaf hS0 hn hls hf (hl.trans (hnil f hmem).1) (hr.trans (hnil f hmem).2)
  · intro st' h
    exact train_recurse_marks_split c settings data (fuel + 1) node S st st' t hnode ht hleaf
      hS0 h

/-- The statement of C15 as amended, at the root of a new tree with depth
limit `5`, on two samples with the labels `(1, 0, 0)` and `(3, 0, 0)`, with
the collaborators `trash_first_five`: the five features drawn at the root,
`0..4`, route every sample to `TRASH`, while the undrawn feature `5` routes the
first sample `LEFT`. -/
theorem split_all_trash_witness :
    draw_candidates trash_first_five ⟨5, 640, 480⟩ 5 (Tree_init (F := ℕ) (0 : ℕ)).random =
      [0, 1, 2, 3, 4] ∧
    eval_learner trash_first_five () (sample_x 1) 5 = OUT.LEFT ∧
    (∀ f ∈ draw_candidates trash_first_five ⟨5, 640, 480⟩ 5
        (Tree_init (F := ℕ) (0 : ℕ)).random,
      ∀ left_data right_data,
      partition trash_first_five () [sample_x 1, sample_x 3] f = some (left_data, right_data) →
      left_data = [] ∧ right_data = [] ∧
        objective_function [sample_x 1, sample_x 3] left_data right_data =
          variance [sample_x 1, sample_x 3]) ∧
    (([sample_x 1, sample_x 3] : List LabeledPixel).length < 2 ^ 32 →
      ∃ st', train_recurse trash_first_five ⟨5, 640, 480⟩ () (0 + 2) 0 [sample_x 1, sample_x 3]
        (Tree_init (F := ℕ) (0 : ℕ)) = some st') ∧
    (∀ st', train_recurse trash_first_five ⟨5, 640, 480⟩ () (0 + 2) 0 [sample_x 1, sample_x 3]
        (Tree_init (F := ℕ) (0 : ℕ)) = some st' →
      ∃ n' feat, st'.heap 0 = some n' ∧ n'.is_split_ = true ∧ n'.is_leaf_ = false ∧
        n'.feature_ = some feat) ∧
    (∀ T : List IEEE.LabeledPixel, T ≠ [] → T.length < 2 ^ 32 →
      (∀ p ∈ T, p.label_.is_finite = true) →
      IEEE.objective_function T [] [] = IEEE.variance T) :=
  ⟨rfl, by decide!,
    split_all_trash trash_first_five ⟨5, 640, 480⟩ () 0 0 [sample_x 1, sample_x 3] (Tree_init 0)
      1 Node.fresh (by simp)
      (by
        intro f hf p _
        have hf5 : f < 5 := by
          simp [draw_candidates, trash_first_five, Tree_init] at hf
          omega
        simp [eval_learner, trash_first_five, hf5])
      (by simp [Tree_init]) (parents_below_init 0) (traverse_to_root_init 0) (by norm_num)
      (by simp [Tree_init, heap_set])⟩

/-- C15 (counterexample): on two samples with the labels `(1, 0, 0)` and
`(3, 0, 0)`, a candidate that routes both to `TRASH` has empty subsets and the
objective `1`, the variance of the two labels, not `0`; the value is `1` in
exact arithmetic and in `double`. -/
theorem objective_all_trash_is_variance :
    (∀ p ∈ [sample_x 1, sample_x 3], eval_learner always_trash () p 0 = OUT.TRASH) ∧
    partition always_trash () [sample_x 1, sample_x 3] 0 = some ([], []) ∧
    objective_function [sample_x 1, sample_x 3] [] [] = 1 ∧
    IEEE.objective_function [IEEE.sample_x 1, IEEE.sample_x 3] [] [] = IEEE.Fl.fin 1 := by
  refine ⟨fun _ _ => rfl, by decide!, ?_, by decide!⟩
  norm_num [objective_function, variance, sum_labels, sum_sq, sample_x]

end RelocForests
end ISUE
